import Mathlib

/-!
warpdrive-forge: the dataset sampling pipeline.

A shallow embedding of `internal/dataset` (`sampler.go`, `webdataset.go`,
`discover.go`) and of `internal/metrics` (`stats.go`).

Conventions of the embedding:

* A Go channel that is written by one task and then closed is the list of the
  values sent on it, in sending order.
* A `select` that has a `<-ctx.Done()` case asks the context whether that case
  is taken; the context is an oracle indexed by the number of `select`s
  executed so far (`tick`), so every interleaving of a cancellation with the
  other ready cases is covered.
* `int64` values are integers, and `++` wraps with `wrapInt64`.
* Byte strings (`[]byte`, `string`) are Lean strings.
* A file tree is what `os.Lstat` and `os.ReadDir` show of it.
* `float64` is a type parameter with the operations `Snapshot` uses.
-/

namespace dataset

/-! ## Errors and contexts -/

/-- The error values that travel through the pipeline. -/
inductive GoError where
  /-- `context.Canceled` -/
  | canceled
  /-- `context.DeadlineExceeded` -/
  | deadlineExceeded
  /-- `ErrPendingOverflow` -/
  | pendingOverflow
  /-- `fmt.Errorf("%d samples incomplete", n)` -/
  | incomplete (n : Nat)
  /-- an error made by `errors.New`, or returned by the standard library -/
  | plain (msg : String)
  /-- `fmt.Errorf(msg + ": %w", inner)` -/
  | wrapf (msg : String) (inner : GoError)
deriving DecidableEq, Repr

/-- `errors.Is`: does `target` occur on the unwrap chain of `err`. -/
def errors.Is : GoError → GoError → Bool
  | GoError.wrapf msg inner, target =>
      decide (GoError.wrapf msg inner = target) || errors.Is inner target
  | err, target => decide (err = target)

/-- A `context.Context`. `done t` tells whether the `select` executed at tick
`t` takes its `<-ctx.Done()` case; `err` is what `ctx.Err()` then returns. -/
structure Context where
  done : Nat → Bool
  err : GoError

/-- `context.Background()`: never done. -/
def Context.background : Context := ⟨fun _ => false, GoError.canceled⟩

/-- The `int64` value of an integer (two's complement wrap-around). -/
def wrapInt64 (x : Int) : Int := (x + 2 ^ 63) % 2 ^ 64 - 2 ^ 63

/-! ## Samples and cursors -/

/-- `Sample` of webdataset.go. -/
structure Sample where
  Key : String
  Image : String
  Label : Int
deriving DecidableEq, Repr

/-- `shardCursor` of sampler.go: `samples` is what is sent on the samples
channel before it is closed, `errCh` what `<-cursor.errCh` yields (`none` is
the nil error of a channel closed without a send). -/
structure shardCursor where
  id : Int
  samples : List Sample
  errCh : Option GoError
deriving DecidableEq, Repr

/-! ## Library functions used by StreamShard -/

/-- `filepath.Base` (Unix): the last element of the path, trailing slashes
removed first; `"."` for the empty path, `"/"` for a path of slashes only. -/
def filepath.Base (path : String) : String :=
  if path.toList = [] then "."
  else
    let stripped := (path.toList.reverse.dropWhile (fun c => c = '/')).reverse
    let last := (stripped.reverse.takeWhile (fun c => c ≠ '/')).reverse
    if last = [] then "/" else String.mk last

/-- `filepath.Ext`: the suffix beginning at the final dot of the final element
of the path; empty if there is no dot. -/
def filepath.Ext (path : String) : String :=
  let rev := path.toList.reverse
  let tail := rev.takeWhile (fun c => c ≠ '/' && c ≠ '.')
  match rev.drop tail.length with
  | '.' :: _ => String.mk ('.' :: tail.reverse)
  | _ => ""

/-- `strings.ToLower` on the ASCII letters; other runes are left as they are.
No rune outside ASCII has a lower case among the letters of `.jpg`, `.jpeg`,
`.png` and `.cls`, so `StreamShard` classifies every entry as with Go, and the
key is only used for the entries it recognises. -/
def strings.ToLower (s : String) : String :=
  String.mk (s.toList.map Char.toLower)

/-- `strings.TrimSuffix`. -/
def strings.TrimSuffix (s suffix : String) : String :=
  if suffix.toList.isSuffixOf s.toList then
    String.mk (s.toList.take (s.toList.length - suffix.toList.length))
  else s

/-- `unicode.IsSpace`: the white space of Latin-1 and the runes with the
Unicode property White_Space. -/
def unicode.IsSpace (c : Char) : Bool :=
  c = '\t' || c = '\n' || c.toNat = 0x0B || c.toNat = 0x0C || c = '\r' || c = ' ' ||
  c.toNat = 0x85 || c.toNat = 0xA0 || c.toNat = 0x1680 ||
  (0x2000 ≤ c.toNat && c.toNat ≤ 0x200A) ||
  c.toNat = 0x2028 || c.toNat = 0x2029 || c.toNat = 0x202F || c.toNat = 0x205F ||
  c.toNat = 0x3000

/-- `strings.TrimSpace`: leading and trailing white space removed. -/
def strings.TrimSpace (s : String) : String :=
  String.mk ((s.toList.dropWhile unicode.IsSpace).reverse.dropWhile unicode.IsSpace).reverse

/-- `strconv.Atoi`: an optional sign and at least one decimal digit, nothing
else, the value within the range of `int`; `none` is a non-nil error. -/
def strconv.Atoi (s : String) : Option Int :=
  match s.toList with
  | [] => none
  | c :: cs =>
      let digits := if c = '-' ∨ c = '+' then cs else c :: cs
      if digits = [] then none
      else if digits.all (fun d => '0' ≤ d && d ≤ '9') then
        let n : Nat := digits.foldl (fun acc d => acc * 10 + (d.toNat - '0'.toNat)) 0
        let v : Int := if c = '-' then -(n : Int) else (n : Int)
        if -(2 ^ 63) ≤ v ∧ v < 2 ^ 63 then some v else none
      else none

/-! ## StreamShard -/

/-- `defaultPendingCap` of webdataset.go. -/
def defaultPendingCap : Int := 1024

/-- One entry of a tar archive: the header fields `StreamShard` looks at, the
content, and the error of `io.ReadAll` on it if reading the content fails. -/
structure tarEntry where
  Name : String
  IsDir : Bool
  payload : String
  readErr : Option GoError
deriving DecidableEq, Repr

/-- An opened shard as the tar reader delivers it: the entries for which
`tr.Next()` succeeds, then `io.EOF` (`tail = none`) or the error of `tr.Next()`. -/
structure Archive where
  entries : List tarEntry
  tail : Option GoError
deriving DecidableEq, Repr

/-- `partial` of webdataset.go; a nil or empty `image` is `""`. -/
structure partial_ where
  image : String
  label : Option Int
deriving DecidableEq, Repr

/-- `(*partial).ready` (webdataset.go:146-148). -/
def partial_.ready (p : partial_) : Bool :=
  decide (p.image.length > 0) && p.label.isSome

/-- The map `pending`, as the list of its entries; the keys are distinct. -/
abbrev PendingMap := List (String × partial_)

/-- `pending[key]`; `none` is the nil pointer of an absent key. -/
def PendingMap.get (m : PendingMap) (key : String) : Option partial_ :=
  (m.find? (fun e => e.1 = key)).map (fun e => e.2)

/-- `pending[key] = part`. -/
def PendingMap.set (m : PendingMap) (key : String) (part : partial_) : PendingMap :=
  if m.any (fun e => e.1 = key) then m.map (fun e => if e.1 = key then (key, part) else e)
  else m ++ [(key, part)]

/-- `delete(pending, key)`. -/
def PendingMap.delete (m : PendingMap) (key : String) : PendingMap :=
  m.filter (fun e => e.1 ≠ key)

/-- `name`, `ext` and `key` of an entry (webdataset.go:71-73). -/
def entryName (e : tarEntry) : String := filepath.Base e.Name

/-- The lowercased extension of an entry. -/
def entryExt (e : tarEntry) : String := strings.ToLower (filepath.Ext (entryName e))

/-- The pairing key of an entry. -/
def entryKey (e : tarEntry) : String := strings.TrimSuffix (entryName e) (entryExt e)

/-- The label a `.cls` payload stands for (webdataset.go:93-94). -/
def parseLabel (payload : String) : Option Int :=
  strconv.Atoi (strings.TrimSpace payload)

/-- The `switch ext` (webdataset.go:75-109): `Except.error` is the status of a
`return`, `Except.ok none` the `continue` of the default case, and
`Except.ok (some m)` the map after the entry has been stored. -/
def storeEntry (pending : PendingMap) (e : tarEntry) : Except GoError (Option PendingMap) :=
  if entryExt e = ".jpg" ∨ entryExt e = ".jpeg" ∨ entryExt e = ".png" then
    match e.readErr with
    | some err => Except.error (GoError.wrapf ("read image " ++ entryName e) err)
    | none =>
        Except.ok (some (pending.set (entryKey e)
          { (pending.get (entryKey e)).getD ⟨"", none⟩ with image := e.payload }))
  else if entryExt e = ".cls" then
    match e.readErr with
    | some err => Except.error (GoError.wrapf ("read label " ++ entryName e) err)
    | none =>
        match parseLabel e.payload with
        | none =>
            Except.error (GoError.wrapf ("parse label " ++ entryName e)
              (GoError.plain "strconv.Atoi"))
        | some label =>
            Except.ok (some (pending.set (entryKey e)
              { (pending.get (entryKey e)).getD ⟨"", none⟩ with label := some label }))
  else Except.ok none

/-- The locals of the task started by `StreamShard`, what it has sent on `out`
and on `errCh`. -/
structure StreamState where
  pending : PendingMap
  out : List Sample
  errCh : Option GoError
  tick : Nat

/-- Whether the `select` at tick `t` takes `<-ctx.Done()`; with a nil context
there is no such `select`. -/
def ctxDone (ctx : Option Context) (t : Nat) : Bool :=
  match ctx with
  | none => false
  | some c => c.done t

/-- What `ctx.Err()` returns once the context is done. -/
def ctxErr (ctx : Option Context) : GoError :=
  match ctx with
  | none => GoError.canceled
  | some c => c.err

/-- The end of one iteration (webdataset.go:116-130): if the pair of `key` is
ready it is sent and deleted. `Except.error` is `return`. -/
def emitReady (ctx : Option Context) (key : String) (st : StreamState) :
    Except StreamState StreamState :=
  match st.pending.get key with
  | none => Except.ok st
  | some part =>
      if part.ready then
        if ctxDone ctx st.tick then
          Except.error { st with pending := st.pending.delete key, errCh := some (ctxErr ctx),
                                 tick := st.tick + 1 }
        else
          Except.ok { st with pending := st.pending.delete key,
                              out := st.out ++ [⟨key, part.image, part.label.getD 0⟩],
                              tick := st.tick + 1 }
      else Except.ok st

/-- One iteration of the loop of `StreamShard` for which `tr.Next()` delivers
the entry `e` (webdataset.go:51-131). `Except.error` is `return`. -/
def streamStep (ctx : Option Context) (pendingCap : Int) (st : StreamState) (e : tarEntry) :
    Except StreamState StreamState :=
  if ctxDone ctx st.tick then
    Except.error { st with errCh := some (ctxErr ctx), tick := st.tick + 1 }
  else if e.IsDir then Except.ok { st with tick := st.tick + 1 }
  else
    match storeEntry st.pending e with
    | Except.error err => Except.error { st with errCh := some err, tick := st.tick + 1 }
    | Except.ok none => Except.ok { st with tick := st.tick + 1 }
    | Except.ok (some pending) =>
        if (pending.length : Int) > pendingCap then
          Except.error { st with pending := pending, errCh := some GoError.pendingOverflow,
                                 tick := st.tick + 1 }
        else emitReady ctx (entryKey e) { st with pending := pending, tick := st.tick + 1 }

/-- The iterations of the loop of `StreamShard` for which `tr.Next()`
delivers an entry. `Except.error` is `return`. -/
def streamSteps (ctx : Option Context) (pendingCap : Int) :
    List tarEntry → StreamState → Except StreamState StreamState
  | [], st => Except.ok st
  | e :: rest, st =>
      match streamStep ctx pendingCap st e with
      | Except.error st1 => Except.error st1
      | Except.ok st1 => streamSteps ctx pendingCap rest st1

/-- The last iteration, in which `tr.Next()` gives `io.EOF` (`tail = none`) or
an error. `Except.error` is `return`, `Except.ok` the `break`. -/
def streamEnd (ctx : Option Context) (tail : Option GoError) (st : StreamState) :
    Except StreamState StreamState :=
  if ctxDone ctx st.tick then
    Except.error { st with errCh := some (ctxErr ctx), tick := st.tick + 1 }
  else
    match tail with
    | some err =>
        Except.error { st with errCh := some (GoError.wrapf "read tar" err),
                               tick := st.tick + 1 }
    | none => Except.ok { st with tick := st.tick + 1 }

/-- The loop of `StreamShard` (webdataset.go:51-131). `Except.error` is
`return`, `Except.ok` the `break` at `io.EOF`. -/
def streamLoop (ctx : Option Context) (pendingCap : Int) (tail : Option GoError)
    (entries : List tarEntry) (st : StreamState) : Except StreamState StreamState :=
  match streamSteps ctx pendingCap entries st with
  | Except.error st1 => Except.error st1
  | Except.ok st1 => streamEnd ctx tail st1

/-- What a call of `StreamShard` delivers: the samples sent on the first
channel and what `<-errCh` yields (`none` is nil). -/
structure StreamResult where
  out : List Sample
  errCh : Option GoError
deriving DecidableEq, Repr

/-- The pending cap `StreamShard` works with (webdataset.go:31-33). -/
def effectiveCap (pendingCap : Int) : Int :=
  if pendingCap ≤ 0 then defaultPendingCap else pendingCap

/-- `StreamShard` (webdataset.go:30-140). `shard` is what `os.Open(path)` and
the tar reader on the file give; the consumer takes every sample offered. -/
def StreamShard (ctx : Option Context) (shard : Except GoError Archive) (pendingCap : Int) :
    StreamResult :=
  match shard with
  | Except.error err => ⟨[], some (GoError.wrapf "open shard" err)⟩
  | Except.ok archive =>
      match streamLoop ctx (effectiveCap pendingCap) archive.tail archive.entries
          ⟨[], [], none, 0⟩ with
      | Except.error st => ⟨st.out, st.errCh⟩
      | Except.ok st =>
          if st.pending.length > 0 then ⟨st.out, some (GoError.incomplete st.pending.length)⟩
          else ⟨st.out, none⟩

/-- An entry that the `switch` takes as an image. -/
def isImageEntry (e : tarEntry) : Bool :=
  decide (entryExt e = ".jpg" ∨ entryExt e = ".jpeg" ∨ entryExt e = ".png")

/-- An entry that the `switch` takes as a label. -/
def isLabelEntry (e : tarEntry) : Bool :=
  decide (entryExt e = ".cls")

/-- The keys of the image entries of a list of entries, in order. -/
def imageKeys (l : List tarEntry) : List String :=
  (l.filter isImageEntry).map entryKey

/-- The keys of the label entries of a list of entries, in order. -/
def labelKeys (l : List tarEntry) : List String :=
  (l.filter isLabelEntry).map entryKey

/-- The state of the pending map between two iterations: distinct keys, and
no pair that is ready. -/
def PendingOK (m : PendingMap) : Prop :=
  (m.map Prod.fst).Nodup ∧ ∀ x ∈ m, x.2.ready = false

/-- The label `l` is what some `.cls` entry of `all` with the key `key` holds. -/
def LabelFrom (all : List tarEntry) (key : String) (l : Int) : Prop :=
  ∃ e ∈ all, isLabelEntry e = true ∧ entryKey e = key ∧ parseLabel e.payload = some l

/-- What the pending map holds when the entries `rest` are still to come and
every key has one image entry and one label entry: nothing for a key whose
two entries are both still to come or both gone, the label for a key whose
image is still to come, the image for a key whose label is still to come. -/
def PairsPending (all rest : List tarEntry) (m : PendingMap) : Prop :=
  ∀ key : String,
    (key ∈ imageKeys rest → key ∈ labelKeys rest → m.get key = none) ∧
    (key ∈ imageKeys rest → key ∉ labelKeys rest →
      ∃ l, m.get key = some ⟨"", some l⟩ ∧ LabelFrom all key l) ∧
    (key ∉ imageKeys rest → key ∈ labelKeys rest →
      ∃ img : String, img.length > 0 ∧ m.get key = some ⟨img, none⟩) ∧
    (key ∉ imageKeys rest → key ∉ labelKeys rest → m.get key = none)

/-- The keys that wait for their other half when the entries `read` have been
read: the keys with an image entry and no label entry among `read`, then the
keys with a label entry and no image entry among `read`. -/
def openKeys (read : List tarEntry) : List String :=
  (imageKeys read).filter (fun k => decide (k ∉ labelKeys read)) ++
  (labelKeys read).filter (fun k => decide (k ∉ imageKeys read))

/-- The body of the loop of `StreamShard` (webdataset.go:68-130) as it acts on
the record of one key, in an iteration that does not return: the record of
`key` after the entry `e`, from its record `p` before it (`none`: no record).
Directories, entries of other keys and entries that are neither image nor
label leave it as it is; an image or a parsed label fills its field, in a new
record if there is none; a record with an image of at least one byte and a
label is emitted and removed. -/
def keyStep (key : String) (p : Option partial_) (e : tarEntry) : Option partial_ :=
  if e.IsDir = true ∨ entryKey e ≠ key then p
  else if isImageEntry e = true then
    if ({ p.getD ⟨"", none⟩ with image := e.payload } : partial_).ready then none
    else some { p.getD ⟨"", none⟩ with image := e.payload }
  else if isLabelEntry e = true then
    match parseLabel e.payload with
    | none => p
    | some l =>
        if ({ p.getD ⟨"", none⟩ with label := some l } : partial_).ready then none
        else some { p.getD ⟨"", none⟩ with label := some l }
  else p

/-- The record of `key` that is left when the entries have been read. -/
def waiting (key : String) (entries : List tarEntry) : Option partial_ :=
  entries.foldl (keyStep key) none

/-- The keys that are left waiting for a half when the entries have been
read. -/
def waitingKeys (entries : List tarEntry) : List String :=
  ((entries.map entryKey).dedup).filter (fun k => (waiting k entries).isSome)

/-- The entries of an archive that are not directories. -/
def fileEntries (l : List tarEntry) : List tarEntry :=
  l.filter (fun e => !e.IsDir)

/-- The keys of the image entries that hold at least one byte. -/
def fullImageKeys (l : List tarEntry) : List String :=
  (l.filter (fun e => isImageEntry e && decide (e.payload.length > 0))).map entryKey

/-- The unmatched keys of a list of entries: the keys with an image entry and
no label entry, then the keys with a label entry and no image entry of at
least one byte. -/
def unmatchedKeys (l : List tarEntry) : List String :=
  (imageKeys l).filter (fun k => decide (k ∉ labelKeys l)) ++
  (labelKeys l).filter (fun k => decide (k ∉ fullImageKeys l))

/-- What the record `p` of `key` is when the file entries `files` have been
read and no key has two image entries or two label entries: there is a record
exactly if the key is unmatched, its label is set exactly if the key has a
label entry, and its image has bytes exactly if the key has an image entry of
at least one byte. -/
def KeyShape (key : String) (files : List tarEntry) (p : Option partial_) : Prop :=
  (p = none ↔ key ∉ unmatchedKeys files) ∧
  ∀ q, p = some q →
    ((q.label.isSome = true ↔ key ∈ labelKeys files) ∧
     (0 < q.image.length ↔ key ∈ fullImageKeys files))

/-- The number that a string of decimal digits denotes. -/
def decimalValue (digits : List Char) : Nat :=
  Nat.ofDigits 10 (digits.reverse.map (fun c => c.toNat - '0'.toNat))

/-- The payload of a `.cls` entry denotes the label `v`: white space, an
optional sign, decimal digits, white space, and `v` is the signed value of
the digits and is an `int`. -/
def DecimalLabel (payload : List Char) (v : Int) : Prop :=
  ∃ ws1 sign digits ws2 : List Char,
    payload = ws1 ++ sign ++ digits ++ ws2 ∧
    (∀ c ∈ ws1, unicode.IsSpace c = true) ∧ (∀ c ∈ ws2, unicode.IsSpace c = true) ∧
    (sign = [] ∨ sign = ['+'] ∨ sign = ['-']) ∧
    digits ≠ [] ∧ (∀ c ∈ digits, '0' ≤ c ∧ c ≤ '9') ∧
    v = (if sign = ['-'] then -(decimalValue digits : Int) else (decimalValue digits : Int)) ∧
    -(2 ^ 63) ≤ v ∧ v < 2 ^ 63

/-- The white space of ASCII. -/
def asciiSpace (c : Char) : Bool :=
  c = ' ' || c = '\t' || c = '\n' || c = '\r' || c.toNat = 0x0B || c.toNat = 0x0C

/-- A string with the ASCII white space at its two ends removed. -/
def trimASCII (s : String) : String :=
  String.mk ((s.toList.dropWhile asciiSpace).reverse.dropWhile asciiSpace).reverse

/-- What of a `StreamState` the caller of `StreamShard` can see. -/
def StreamState.view (st : StreamState) : PendingMap × List Sample × Option GoError :=
  (st.pending, st.out, st.errCh)

/-- The view of the state an iteration ends in, and how it ends. -/
def resultView : Except StreamState StreamState →
    Except (PendingMap × List Sample × Option GoError)
      (PendingMap × List Sample × Option GoError)
  | Except.error st => Except.error st.view
  | Except.ok st => Except.ok st.view

/-! ## runAggregator -/

/-- The local state of `runAggregator` together with what it has sent on
`out` and on `errCh`. -/
structure AggState where
  pending : Int → Option shardCursor
  nextID : Int
  out : List Sample
  errCh : List GoError
  tick : Nat

/-- The state at entry of `runAggregator` (sampler.go:110-111). -/
def AggState.init : AggState :=
  { pending := fun _ => none, nextID := 0, out := [], errCh := [], tick := 0 }

/-- The inner `for` of `runAggregator` (sampler.go:132-146) on the samples
still to be received from the cursor. `Except.error` is `return`,
`Except.ok` is `goto shardDone`. -/
def forwardSamples (ctx : Context) : List Sample → AggState → Except AggState AggState
  | [], st =>
      if ctx.done st.tick then Except.error { st with tick := st.tick + 1 }
      else Except.ok { st with tick := st.tick + 1 }
  | sample :: rest, st =>
      if ctx.done st.tick then Except.error { st with tick := st.tick + 1 }
      else if ctx.done (st.tick + 1) then Except.error { st with tick := st.tick + 2 }
      else forwardSamples ctx rest { st with out := st.out ++ [sample], tick := st.tick + 2 }

/-- The code at label `shardDone` (sampler.go:148-154). `Except.error` is
`return`, `Except.ok` goes round the outer loop again. -/
def shardDone (cursor : shardCursor) (st : AggState) : Except AggState AggState :=
  match cursor.errCh with
  | some err =>
      if !errors.Is err GoError.canceled then
        Except.error { st with errCh := st.errCh ++ [err] }
      else
        Except.ok { st with pending := Function.update st.pending st.nextID none,
                            nextID := wrapInt64 (st.nextID + 1) }
  | none =>
      Except.ok { st with pending := Function.update st.pending st.nextID none,
                          nextID := wrapInt64 (st.nextID + 1) }

/-- One iteration of the outer `for` of `runAggregator` (sampler.go:112-155);
`cursors` is what is still to arrive on the cursor channel before it is
closed. `Except.error` is `return`, `Except.ok` carries what the next
iteration starts from. -/
def aggStep (ctx : Context) (cursors : List shardCursor) (st : AggState) :
    Except AggState (List shardCursor × AggState) :=
  match st.pending st.nextID with
  | none =>
      if ctx.done st.tick then Except.error { st with tick := st.tick + 1 }
      else
        match cursors with
        | [] => Except.error { st with tick := st.tick + 1 }
        | cursor :: rest =>
            Except.ok (rest,
              { st with pending := Function.update st.pending cursor.id (some cursor),
                        tick := st.tick + 1 })
  | some cursor =>
      match forwardSamples ctx cursor.samples st with
      | Except.error st1 => Except.error st1
      | Except.ok st1 =>
          match shardDone cursor st1 with
          | Except.error st2 => Except.error st2
          | Except.ok st2 => Except.ok (cursors, st2)

/-- The outer `for` of `runAggregator`, at most `fuel` iterations. `none`
only when the fuel runs out. -/
def aggLoop (ctx : Context) : Nat → List shardCursor → AggState → Option AggState
  | 0, _, _ => none
  | fuel + 1, cursors, st =>
      match aggStep ctx cursors st with
      | Except.error st1 => some st1
      | Except.ok (rest, st1) => aggLoop ctx fuel rest st1

/-- `runAggregator` (sampler.go:109-156) on the cursors in their order of
arrival. Every iteration either receives a cursor or retires one that was
received, so `2 * cursors.length + 1` iterations are enough. -/
def runAggregator (ctx : Context) (cursors : List shardCursor) : Option AggState :=
  aggLoop ctx (2 * cursors.length + 1) cursors AggState.init

/-- A terminal status that stops the aggregator: a non-nil error that is not
a cancellation. -/
def shardCursor.fatal (c : shardCursor) : Bool :=
  match c.errCh with
  | some err => !errors.Is err GoError.canceled
  | none => false

/-- What an aggregator that takes the cursors in the order of the list sends:
the samples of every cursor up to and including the first one with a fatal
status, and that status. -/
def drainInOrder : List shardCursor → List Sample × List GoError
  | [] => ([], [])
  | c :: rest =>
      if c.fatal then (c.samples, c.errCh.toList)
      else (c.samples ++ (drainInOrder rest).1, (drainInOrder rest).2)

/-! ## buildRoundRobinOrder -/

/-- `orderEntry` of sampler.go. -/
structure orderEntry where
  root : String
  path : String
deriving DecidableEq, Repr

/-- A `*rand.Rand` (package math/rand, not part of the repository): a
generator state and the one drawing operation `Shuffle` is built on, which
returns a number below the bound it is given and the next state. A fresh
generator `rand.New(rand.NewSource(seed))` is a value of this type that is a
function of `seed`. -/
structure rand.Rand (σ : Type) where
  state : σ
  int31n : σ → Nat → Nat × σ
  int31n_lt : ∀ (s : σ) (n : Nat), 0 < n → (int31n s n).1 < n

/-- The swap closure handed to `Shuffle` (sampler.go:196-198):
`copied[root][i], copied[root][j] = copied[root][j], copied[root][i]`. -/
def swapShards (l : List String) (i j : Nat) : List String :=
  (l.set i (l.getD j "")).set j (l.getD i "")

/-- The loop of `(*Rand).Shuffle`: `for ; i > 0; i-- { j := r.int31n(i+1); swap(i, j) }`,
started at `i`. -/
def shuffleLoop {σ : Type} (int31n : σ → Nat → Nat × σ) :
    Nat → σ → List String → List String × σ
  | 0, s, l => (l, s)
  | i + 1, s, l =>
      shuffleLoop int31n i (int31n s (i + 2)).2 (swapShards l (i + 1) (int31n s (i + 2)).1)

/-- `rng.Shuffle(len(l), swap)` on the slice `l`: the shuffled slice and the
generator after the draws. -/
def rand.Rand.Shuffle {σ : Type} (rng : rand.Rand σ) (l : List String) : List String × rand.Rand σ :=
  ((shuffleLoop rng.int31n (l.length - 1) rng.state l).1,
   { rng with state := (shuffleLoop rng.int31n (l.length - 1) rng.state l).2 })

/-- The locals `rootNames`, `copied` and the generator during the first loop
of `buildRoundRobinOrder`. A Go map read of an absent key gives the nil
slice, so `copied` is a total function. -/
structure CopyState (σ : Type) where
  rootNames : List String
  copied : String → List String
  rng : Option (rand.Rand σ)

/-- The first loop of `buildRoundRobinOrder` (sampler.go:189-200). The map
`roots` is given as the list of its entries in the order in which `range`
visits them. -/
def copyRoots {σ : Type} : List (String × List String) → CopyState σ → CopyState σ
  | [], st => st
  | (root, shards) :: rest, st =>
      if shards.length = 0 then copyRoots rest st
      else
        match st.rng with
        | none =>
            copyRoots rest
              { rootNames := st.rootNames ++ [root],
                copied := Function.update st.copied root shards,
                rng := none }
        | some rng =>
            copyRoots rest
              { rootNames := st.rootNames ++ [root],
                copied := Function.update st.copied root (rng.Shuffle shards).1,
                rng := some (rng.Shuffle shards).2 }

/-- The locals `copied`, `order` and `advanced` of the second loop. -/
structure RoundState where
  copied : String → List String
  order : List orderEntry
  advanced : Bool

/-- The inner `for _, root := range rootNames` (sampler.go:205-213). -/
def roundPass : List String → RoundState → RoundState
  | [], st => st
  | root :: rest, st =>
      match st.copied root with
      | [] => roundPass rest st
      | shard :: shards =>
          roundPass rest
            { copied := Function.update st.copied root shards,
              order := st.order ++ [⟨root, shard⟩],
              advanced := true }

/-- The outer `for` (sampler.go:203-217), at most `fuel` rounds; `none` only
when the fuel runs out. -/
def roundLoop : Nat → List String → (String → List String) → List orderEntry →
    Option (List orderEntry)
  | 0, _, _, _ => none
  | fuel + 1, rootNames, copied, order =>
      if (roundPass rootNames ⟨copied, order, false⟩).advanced then
        roundLoop fuel rootNames (roundPass rootNames ⟨copied, order, false⟩).copied
          (roundPass rootNames ⟨copied, order, false⟩).order
      else some (roundPass rootNames ⟨copied, order, false⟩).order

/-- The number of shards of all roots together. -/
def totalShards (roots : List (String × List String)) : Nat :=
  (roots.map (fun e => e.2.length)).sum

/-- `sort.Strings`: ascending in the order of Go strings, which compares byte
by byte; on UTF-8 text that is the lexicographic order of the code points. -/
def sortStrings (l : List String) : List String :=
  l.insertionSort (fun a b => a.toList ≤ b.toList)

/-- `buildRoundRobinOrder` (sampler.go:186-219): the order, and the generator
as the call leaves it. Every round but the last takes at least one shard, so
`totalShards roots + 1` rounds are enough. -/
def buildRoundRobinOrder {σ : Type} (roots : List (String × List String))
    (rng : Option (rand.Rand σ)) : Option (List orderEntry × Option (rand.Rand σ)) :=
  let st := copyRoots roots ⟨[], fun _ => [], rng⟩
  (roundLoop (totalShards roots + 1) (sortStrings st.rootNames) st.copied []).map
    (fun order => (order, st.rng))

/-- The order described round by round: round `r` holds, for each root name
of `rootNames` in turn whose copy has more than `r` shards, the `r`-th shard
of that copy. -/
def roundRobinRounds (rootNames : List String) (copied : String → List String)
    (rounds : Nat) : List orderEntry :=
  (List.range rounds).flatMap (fun r =>
    rootNames.filterMap (fun root => ((copied root)[r]?).map (fun shard => ⟨root, shard⟩)))

/-- The names of the roots that have at least one shard, in the order in which
the map is visited. -/
def nonEmptyRoots (roots : List (String × List String)) : List String :=
  (roots.filter (fun e => !e.2.isEmpty)).map Prod.fst

/-- Every shard of every root, each with the name of its root. -/
def allShards (roots : List (String × List String)) : List orderEntry :=
  roots.flatMap (fun e => e.2.map (fun shard => (⟨e.1, shard⟩ : orderEntry)))

/-! ## produceJobs -/

/-- `shardJob` of sampler.go. -/
structure shardJob where
  id : Int
  root : String
  path : String
deriving DecidableEq, Repr

/-- The locals of `produceJobs` and the jobs it has sent on `jobs`. -/
structure ProducerState (σ : Type) where
  jobID : Int
  rng : Option (rand.Rand σ)
  jobs : List shardJob
  tick : Nat

/-- The `for _, entry := range order` of `produceJobs` (sampler.go:170-177).
`Except.error` is `return`. -/
def sendJobs {σ : Type} (ctx : Context) :
    List orderEntry → ProducerState σ → Except (ProducerState σ) (ProducerState σ)
  | [], st => Except.ok st
  | entry :: rest, st =>
      if ctx.done st.tick then Except.error { st with tick := st.tick + 1 }
      else
        sendJobs ctx rest
          { st with jobs := st.jobs ++ [⟨st.jobID, entry.root, entry.path⟩],
                    jobID := wrapInt64 (st.jobID + 1),
                    tick := st.tick + 1 }

/-- The outer `for` of `produceJobs` (sampler.go:160-178), which ends only by
`return`: the state after `cycles` iterations, or at the `return` if there is
one before. `none` only if `buildRoundRobinOrder` gives no order. -/
def produceLoop {σ : Type} (ctx : Context) (roots : List (String × List String)) :
    Nat → ProducerState σ → Option (ProducerState σ)
  | 0, st => some st
  | cycles + 1, st =>
      match buildRoundRobinOrder roots st.rng with
      | none => none
      | some (order, rng1) =>
          if order.length = 0 then
            if ctx.done st.tick then some { st with rng := rng1, tick := st.tick + 1 }
            else produceLoop ctx roots cycles { st with rng := rng1, tick := st.tick + 1 }
          else
            match sendJobs ctx order { st with rng := rng1 } with
            | Except.error st1 => some st1
            | Except.ok st1 => produceLoop ctx roots cycles st1

/-- `produceJobs` (sampler.go:158-179), observed after `cycles` iterations of
its loop. -/
def produceJobs {σ : Type} (ctx : Context) (roots : List (String × List String))
    (rng : Option (rand.Rand σ)) (cycles : Nat) : Option (ProducerState σ) :=
  produceLoop ctx roots cycles { jobID := 0, rng := rng, jobs := [], tick := 0 }

/-- The numbering invariant of `produceJobs`: `jobID` is the number of jobs
sent, and the `k`-th job sent has id `k`, both as `int64` values. -/
def JobsNumbered {σ : Type} (st : ProducerState σ) : Prop :=
  st.jobID = wrapInt64 st.jobs.length ∧
    ∀ (k : Nat) (j : shardJob), st.jobs[k]? = some j → j.id = wrapInt64 k

/-! ## StartSampler -/

/-- `SamplerOptions` of sampler.go; `Roots` lists the entries of the map. -/
structure SamplerOptions where
  Roots : List (String × List String)
  Seed : Int
  NumWorkers : Int
  PendingCap : Int

/-- A channel made by `make(chan T, cap)`. -/
structure Chan where
  cap : Int
deriving DecidableEq, Repr

/-- The tasks `StartSampler` starts with `go`. -/
inductive Task where
  /-- `produceJobs(ctx, jobs, opts.Roots, rng)` with `rng` seeded with `seed` -/
  | produceJobs (seed : Int)
  /-- `worker(ctx, jobs, cursors, opts.PendingCap)` -/
  | worker (pendingCap : Int)
  /-- `wg.Wait(); close(cursors)` -/
  | closeCursors
  /-- `runAggregator(ctx, cursors, out, errCh)` -/
  | runAggregator
deriving DecidableEq, Repr

/-- What a call of `StartSampler` returns (`none` is a nil channel or a nil
error), and the tasks it has started. -/
structure StartResult where
  out : Option Chan
  errCh : Option Chan
  err : Option GoError
  tasks : List Task
deriving DecidableEq, Repr

/-- `StartSampler` (sampler.go:21-75). The `make` calls are taken to succeed. -/
def StartSampler (opts : SamplerOptions) : StartResult :=
  if opts.Roots.length = 0 then
    ⟨none, none, some (GoError.plain "sampler: no dataset roots provided"), []⟩
  else if totalShards opts.Roots = 0 then
    ⟨none, none, some (GoError.plain "sampler: no shards discovered"), []⟩
  else
    let numWorkers : Int := if opts.NumWorkers ≤ 0 then 1 else opts.NumWorkers
    let pendingCap : Int := if opts.PendingCap ≤ 0 then defaultPendingCap else opts.PendingCap
    let seed : Int := if opts.Seed = 0 then 42 else opts.Seed
    ⟨some ⟨wrapInt64 (numWorkers * 2)⟩, some ⟨numWorkers⟩, none,
      [Task.produceJobs seed] ++ List.replicate numWorkers.toNat (Task.worker pendingCap) ++
        [Task.closeCursors, Task.runAggregator]⟩

/-! ## DiscoverShards -/

/-- The type of a directory entry that is not a directory. -/
inductive FileMode where
  | regular
  | symlink
  | other
deriving DecidableEq, Repr

/-- A file tree as `os.Lstat` and `os.ReadDir` show it: an entry that is not a
directory, or a directory with what `os.ReadDir` returns for it, the entries
(sorted by name) and the error if there is one. -/
inductive FsNode where
  | file (name : String) (mode : FileMode)
  | dir (name : String) (readErr : Option GoError) (children : List FsNode)
deriving Repr

/-- `d.Name()`. -/
def FsNode.Name : FsNode → String
  | FsNode.file name _ => name
  | FsNode.dir name _ _ => name

/-- `d.IsDir()`. -/
def FsNode.IsDir : FsNode → Bool
  | FsNode.file _ _ => false
  | FsNode.dir _ _ _ => true

/-- The elements of a path between its slashes. -/
def splitSlash : List Char → List (List Char)
  | [] => [[]]
  | c :: cs =>
      if c = '/' then [] :: splitSlash cs
      else
        match splitSlash cs with
        | [] => [[c]]
        | e :: es => (c :: e) :: es

/-- The loop of `filepath.Clean` over the elements of the path; `stack` holds
the elements kept so far, the last one first. -/
def cleanElems (rooted : Bool) : List (List Char) → List (List Char) → List (List Char)
  | [], stack => stack
  | e :: es, stack =>
      if e = [] ∨ e = ['.'] then cleanElems rooted es stack
      else if e = ['.', '.'] then
        match stack with
        | top :: below =>
            if top = ['.', '.'] then cleanElems rooted es (e :: stack)
            else cleanElems rooted es below
        | [] => if rooted then cleanElems rooted es [] else cleanElems rooted es [e]
      else cleanElems rooted es (e :: stack)

/-- `filepath.Clean` (Unix): empty and `.` elements dropped, `..` elements
resolved against the element before them, `"."` for an empty result. -/
def filepath.Clean (path : String) : String :=
  let rooted := decide (path.toList.head? = some '/')
  let kept := (cleanElems rooted (splitSlash path.toList) []).reverse
  if rooted then String.mk ('/' :: List.intercalate ['/'] kept)
  else if kept = [] then "."
  else String.mk (List.intercalate ['/'] kept)

/-- `filepath.Join` of two elements: empty elements are ignored, the rest is
joined with a slash and cleaned. -/
def filepath.Join (a b : String) : String :=
  if a.toList = [] then (if b.toList = [] then "" else filepath.Clean b)
  else filepath.Clean (String.mk (a.toList ++ '/' :: b.toList))

/-- `filepath.IsAbs` (Unix). -/
def filepath.IsAbs (path : String) : Bool :=
  decide (path.toList.head? = some '/')

/-- `shardRegexp.MatchString` for the expression `^shard-[0-9]{6,}\.tar$`. -/
def shardRegexp.MatchString (name : String) : Bool :=
  "shard-".toList.isPrefixOf name.toList &&
  ".tar".toList.isSuffixOf (name.toList.drop 6) &&
  decide (6 ≤ (name.toList.drop 6).length - 4) &&
  ((name.toList.drop 6).take ((name.toList.drop 6).length - 4)).all
    (fun c => decide ('0' ≤ c) && decide (c ≤ '9'))

/-- `fs.SkipDir`. -/
def fs.SkipDir : GoError := GoError.plain "skip this directory"

/-- The function that `DiscoverShards` hands to `filepath.WalkDir`
(discover.go:16-27); `entries` is the captured slice, `d = none` a nil entry. -/
def discoverVisit (entries : List String) (path : String) (d : Option FsNode)
    (err : Option GoError) : Except GoError (List String) :=
  match err with
  | some e => Except.error e
  | none =>
      match d with
      | none => Except.ok entries
      | some d =>
          if d.IsDir then Except.ok entries
          else if shardRegexp.MatchString d.Name then Except.ok (entries ++ [path])
          else Except.ok entries

mutual
/-- `walkDir` of package path/filepath, for a function that leaves its state as
it was whenever it returns an error. -/
def walkDir {σ : Type} (fn : σ → String → Option FsNode → Option GoError → Except GoError σ)
    (path : String) : FsNode → σ → Except GoError σ
  | FsNode.file name mode, st => fn st path (some (FsNode.file name mode)) none
  | FsNode.dir name readErr children, st =>
      match fn st path (some (FsNode.dir name readErr children)) none with
      | Except.error err => if err = fs.SkipDir then Except.ok st else Except.error err
      | Except.ok st1 =>
          match readErr with
          | none => walkDirs fn path children st1
          | some rerr =>
              match fn st1 path (some (FsNode.dir name readErr children)) (some rerr) with
              | Except.error err => if err = fs.SkipDir then Except.ok st1 else Except.error err
              | Except.ok st2 => walkDirs fn path children st2
/-- The loop of `walkDir` over the entries of a directory. -/
def walkDirs {σ : Type} (fn : σ → String → Option FsNode → Option GoError → Except GoError σ)
    (path : String) : List FsNode → σ → Except GoError σ
  | [], st => Except.ok st
  | d1 :: rest, st =>
      match walkDir fn (filepath.Join path d1.Name) d1 st with
      | Except.error err => if err = fs.SkipDir then Except.ok st else Except.error err
      | Except.ok st1 => walkDirs fn path rest st1
end

/-- `filepath.WalkDir`; `root` is the path given, `lstat` what `os.Lstat(root)`
gives together with the tree below. -/
def filepath.WalkDir {σ : Type}
    (fn : σ → String → Option FsNode → Option GoError → Except GoError σ)
    (root : String) (lstat : Except GoError FsNode) (st : σ) : Except GoError σ :=
  match lstat with
  | Except.error err =>
      match fn st root none (some err) with
      | Except.error err1 => if err1 = fs.SkipDir then Except.ok st else Except.error err1
      | Except.ok st1 => Except.ok st1
  | Except.ok d =>
      match walkDir fn root d st with
      | Except.error err1 => if err1 = fs.SkipDir then Except.ok st else Except.error err1
      | Except.ok st1 => Except.ok st1

/-- `DiscoverShards` (discover.go:14-33): `Except.error` is the pair of nil
and the error, `Except.ok` the pair of the paths and nil. -/
def DiscoverShards (root : String) (lstat : Except GoError FsNode) :
    Except GoError (List String) :=
  match filepath.WalkDir discoverVisit root lstat [] with
  | Except.error err => Except.error (GoError.wrapf "discover shards" err)
  | Except.ok entries => Except.ok (sortStrings entries)

mutual
/-- Every entry of a tree, at any depth, with its path. -/
def entriesUnder (path : String) : FsNode → List (String × FsNode)
  | FsNode.file name mode => [(path, FsNode.file name mode)]
  | FsNode.dir name readErr children =>
      (path, FsNode.dir name readErr children) :: entriesUnderAll path children
/-- Every entry of the trees of a directory, with its path. -/
def entriesUnderAll (path : String) : List FsNode → List (String × FsNode)
  | [] => []
  | d1 :: rest => entriesUnder (filepath.Join path d1.Name) d1 ++ entriesUnderAll path rest
end

mutual
/-- No directory of the tree fails to be read. -/
def readable : FsNode → Bool
  | FsNode.file _ _ => true
  | FsNode.dir _ readErr children => readErr.isNone && readableAll children
/-- No directory of the trees fails to be read. -/
def readableAll : List FsNode → Bool
  | [] => true
  | d1 :: rest => readable d1 && readableAll rest
end

/-- The paths of the entries of a tree that are not directories and have the
name of a shard. -/
def shardPaths (root : String) (tree : FsNode) : List String :=
  ((entriesUnder root tree).filter
    (fun pe => !pe.2.IsDir && shardRegexp.MatchString pe.2.Name)).map Prod.fst

/-- The entry is a regular file. -/
def FsNode.IsRegular : FsNode → Bool
  | FsNode.file _ mode => decide (mode = FileMode.regular)
  | FsNode.dir _ _ _ => false

/-- A generator for examples: the state counts the draws, and the `k`-th draw
below `n` is `k % n`. -/
def counterRand : rand.Rand Nat :=
  { state := 0, int31n := fun s n => (s % n, s + 1), int31n_lt := fun s _ h => Nat.mod_lt s h }

end dataset

namespace metrics

/-! ## The metrics window (internal/metrics/stats.go) -/

/-- The `float64` values and the operations on them that `Snapshot` uses. -/
structure FloatOps (F : Type) where
  zero : F
  /-- `float64(n)` -/
  ofInt : Int → F
  /-- `d.Seconds()` of a `time.Duration` of `d` nanoseconds -/
  seconds : Int → F
  /-- the constant `1000` -/
  thousand : F
  mul : F → F → F
  div : F → F → F

/-- `Window` of stats.go; the durations are in nanoseconds. -/
structure Window (F : Type) where
  samples : Int
  data : Int
  compute : Int
  steps : Int
  lastLoss : F

/-- `Snapshot` of stats.go. -/
structure Snapshot (F : Type) where
  ImagesPerSec : F
  AvgDataMS : F
  AvgComputeMS : F
  LastLoss : F

/-- The zero value of `Window`. -/
def Window.zero {F : Type} (ops : FloatOps F) : Window F :=
  ⟨0, 0, 0, 0, ops.zero⟩

/-- `(*Window).Record` (stats.go:15-21). -/
def Window.Record {F : Type} (w : Window F) (batchSize dataTime computeTime : Int) (loss : F) :
    Window F :=
  { samples := dataset.wrapInt64 (w.samples + batchSize),
    data := dataset.wrapInt64 (w.data + dataTime),
    compute := dataset.wrapInt64 (w.compute + computeTime),
    steps := dataset.wrapInt64 (w.steps + 1),
    lastLoss := loss }

/-- `(*Window).Snapshot` (stats.go:24-41): the value returned and the window
as the call leaves it. -/
def Window.Snapshot {F : Type} (ops : FloatOps F) (w : Window F) : Snapshot F × Window F :=
  let total := dataset.wrapInt64 (w.data + w.compute)
  let imagesPerSec := if total > 0 then ops.div (ops.ofInt w.samples) (ops.seconds total)
    else ops.zero
  let avgDataMS := if w.steps > 0 then
      ops.div (ops.mul (ops.seconds w.data) ops.thousand) (ops.ofInt w.steps)
    else ops.zero
  let avgComputeMS := if w.steps > 0 then
      ops.div (ops.mul (ops.seconds w.compute) ops.thousand) (ops.ofInt w.steps)
    else ops.zero
  (⟨imagesPerSec, avgDataMS, avgComputeMS, w.lastLoss⟩,
   { w with samples := 0, data := 0, compute := 0, steps := 0 })

/-- Exact rational arithmetic in the place of `float64`, for examples. -/
def ratOps : FloatOps Rat :=
  { zero := 0, ofInt := fun n => (n : Rat), seconds := fun d => (d : Rat) / 1000000000,
    thousand := 1000, mul := fun a b => a * b, div := fun a b => a / b }

end metrics

namespace dataset

/-! ## Theorems -/

theorem wrapInt64_of_lt (x : Int) (h0 : -(2 ^ 63) ≤ x) (h1 : x < 2 ^ 63) : wrapInt64 x = x := by
  unfold wrapInt64
  rw [Int.emod_eq_of_lt (by omega) (by omega)]
  omega

theorem forwardSamples_cases (ctx : Context) :
    ∀ (samples : List Sample) (st : AggState),
      forwardSamples ctx samples st =
          Except.ok { st with out := st.out ++ samples, tick := st.tick + 2 * samples.length + 1 } ∨
      ∃ st1 pre, forwardSamples ctx samples st = Except.error st1 ∧
        st1.out = st.out ++ pre ∧ pre <+: samples ∧ st1.errCh = st.errCh ∧
        ∃ t, ctx.done t = true
  | [], st => by
      by_cases h : ctx.done st.tick = true
      · right
        exact ⟨{ st with tick := st.tick + 1 }, [], by simp [forwardSamples, h], by simp,
          List.nil_prefix, rfl, st.tick, h⟩
      · left
        simp [forwardSamples, h]
  | s :: rest, st => by
      by_cases h : ctx.done st.tick = true
      · right
        exact ⟨{ st with tick := st.tick + 1 }, [], by simp [forwardSamples, h], by simp,
          List.nil_prefix, rfl, st.tick, h⟩
      · by_cases h1 : ctx.done (st.tick + 1) = true
        · right
          exact ⟨{ st with tick := st.tick + 2 }, [], by simp [forwardSamples, h, h1], by simp,
            List.nil_prefix, rfl, st.tick + 1, h1⟩
        · rcases forwardSamples_cases ctx rest
              { st with out := st.out ++ [s], tick := st.tick + 2 } with hok | ⟨st1, pre, he, ho, hp, hc, ht⟩
          · left
            simp only [forwardSamples, h, h1]
            rw [hok]
            simp [List.length_cons]
            omega
          · right
            refine ⟨st1, s :: pre, ?_, ?_, ?_, hc, ht⟩
            · simp only [forwardSamples, h, h1]
              simpa using he
            · simpa using ho
            · exact (List.prefix_cons_inj s).mpr hp

theorem aggLoop_ordered (ctx : Context)
    (curs : List shardCursor)
    (hid : ∀ (i : Nat) (c : shardCursor), curs[i]? = some c → c.id = (i : Int))
    (hlen : curs.length < 2 ^ 63) :
    ∀ (fuel : Nat) (chan : List shardCursor) (st : AggState) (k : Nat),
      st.nextID = (k : Int) → k ≤ curs.length →
      (chan.map (fun c => c.id)).Nodup →
      (∀ c ∈ chan, ∃ i : Nat, k ≤ i ∧ curs[i]? = some c ∧ st.pending (i : Int) = none) →
      (∀ (j : Int) (c : shardCursor), st.pending j = some c →
          ∃ i : Nat, k ≤ i ∧ curs[i]? = some c ∧ j = (i : Int)) →
      (∀ (i : Nat) (c : shardCursor), k ≤ i → curs[i]? = some c →
          st.pending (i : Int) = some c ∨ c ∈ chan) →
      chan.length + (curs.length - k) + 1 ≤ fuel →
      ∃ st1, aggLoop ctx fuel chan st = some st1 ∧
        (∃ pre, st1.out = st.out ++ pre ∧ pre <+: (drainInOrder (curs.drop k)).1) ∧
        (st1.errCh = st.errCh ∨
          (st1.out = st.out ++ (drainInOrder (curs.drop k)).1 ∧
           st1.errCh = st.errCh ++ (drainInOrder (curs.drop k)).2)) ∧
        ((∀ t, ctx.done t = false) →
          st1.out = st.out ++ (drainInOrder (curs.drop k)).1 ∧
          st1.errCh = st.errCh ++ (drainInOrder (curs.drop k)).2) := by
  intro fuel
  induction fuel with
  | zero => intro chan st k _ _ _ _ _ _ hf; omega
  | succ fuel ih =>
    intro chan st k hk hkn hnd hchan hpend hcov hf
    unfold aggLoop aggStep
    cases hp : st.pending st.nextID with
    | none =>
      by_cases hdone : ctx.done st.tick = true
      · simp only [hdone, if_true]
        refine ⟨_, rfl, ⟨[], by simp, List.nil_prefix⟩, Or.inl rfl, ?_⟩
        intro hctx
        rw [hctx] at hdone
        exact absurd hdone (by simp)
      simp only [hdone]
      cases chan with
      | nil =>
        have hkn2 : curs.length ≤ k := by
          by_contra hlt
          push_neg at hlt
          have hc : curs[k]? = some curs[k] := List.getElem?_eq_getElem hlt
          rcases hcov k _ (le_refl k) hc with h | h
          · rw [← hk, hp] at h; exact absurd h (by simp)
          · simp at h
        simp [List.drop_eq_nil_of_le hkn2, drainInOrder]
      | cons c rest =>
        simp only [List.map_cons, List.nodup_cons] at hnd
        have hcid : ∀ c1 ∈ rest, c1.id ≠ c.id := by
          intro c1 hc1 he
          exact hnd.1 (List.mem_map.mpr ⟨c1, hc1, he⟩)
        obtain ⟨i0, hi0k, hi0c, hi0p⟩ := hchan c (List.mem_cons_self _ _)
        have hcidv : c.id = (i0 : Int) := hid i0 c hi0c
        have := ih rest
          { st with pending := Function.update st.pending c.id (some c), tick := st.tick + 1 } k
          hk hkn hnd.2
          (by
            intro c1 hc1
            obtain ⟨i, hik, hic, hip⟩ := hchan c1 (List.mem_cons_of_mem _ hc1)
            refine ⟨i, hik, hic, ?_⟩
            have h1 : c1.id = (i : Int) := hid i c1 hic
            have hne : (i : Int) ≠ c.id := by rw [← h1]; exact hcid c1 hc1
            simp [Function.update_noteq hne, hip])
          (by
            intro j c1 hj
            by_cases hjc : j = c.id
            · subst hjc
              simp at hj
              subst hj
              exact ⟨i0, hi0k, hi0c, hcidv⟩
            · simp [Function.update_noteq hjc] at hj
              exact hpend j c1 hj)
          (by
            intro i c1 hik hic
            by_cases hjc : (i : Int) = c.id
            · left
              have : i = i0 := by rw [hcidv] at hjc; exact_mod_cast hjc
              subst this
              rw [hi0c] at hic
              simp at hic
              subst hic
              rw [hjc]
              simp
            · rcases hcov i c1 hik hic with h | h
              · left; simp [Function.update_noteq hjc, h]
              · rcases List.mem_cons.mp h with h | h
                · subst h; exact absurd (hid i c1 hic).symm hjc
                · right; exact h)
          (by simp at hf ⊢; omega)
        simpa using this
    | some cursor =>
      obtain ⟨i, hik, hic, hji⟩ := hpend _ _ hp
      have hik2 : i = k := by rw [hk] at hji; exact_mod_cast hji.symm
      subst hik2
      have hlt : i < curs.length := by
        rcases List.getElem?_eq_some.mp hic with ⟨h, _⟩
        exact h
      have hdrop : curs.drop i = cursor :: curs.drop (i + 1) := by
        rcases List.getElem?_eq_some.mp hic with ⟨h, he⟩
        rw [← he]
        exact List.drop_eq_getElem_cons h
      rw [hdrop]
      have hD1 : cursor.samples <+: (drainInOrder (cursor :: curs.drop (i + 1))).1 := by
        unfold drainInOrder
        by_cases hfat : cursor.fatal = true
        · simp [hfat]
        · simp [hfat]
      rcases forwardSamples_cases ctx cursor.samples st with hok | ⟨st1, pre, he, ho, hpre, hc, t, ht⟩
      swap
      · simp only [he]
        refine ⟨st1, rfl, ⟨pre, ho, hpre.trans hD1⟩, Or.inl hc, ?_⟩
        intro hctx
        rw [hctx] at ht
        exact absurd ht (by simp)
      simp only [hok]
      have hfin : ∃ st1, aggLoop ctx fuel chan
            { pending := Function.update st.pending st.nextID none,
              nextID := wrapInt64 (st.nextID + 1),
              out := st.out ++ cursor.samples, errCh := st.errCh,
              tick := st.tick + 2 * cursor.samples.length + 1 } = some st1 ∧
          (∃ pre, st1.out = st.out ++ pre ∧
            pre <+: cursor.samples ++ (drainInOrder (curs.drop (i + 1))).1) ∧
          (st1.errCh = st.errCh ∨
            (st1.out = st.out ++ (cursor.samples ++ (drainInOrder (curs.drop (i + 1))).1) ∧
             st1.errCh = st.errCh ++ (drainInOrder (curs.drop (i + 1))).2)) ∧
          ((∀ t, ctx.done t = false) →
            st1.out = st.out ++ (cursor.samples ++ (drainInOrder (curs.drop (i + 1))).1) ∧
            st1.errCh = st.errCh ++ (drainInOrder (curs.drop (i + 1))).2) := by
        have hw : wrapInt64 (st.nextID + 1) = ((i + 1 : Nat) : Int) := by
          rw [hk, wrapInt64_of_lt _ (by omega) (by push_cast; omega)]
          push_cast; rfl
        obtain ⟨st1, h1, ⟨pre, h2, h3⟩, h4, h5⟩ := ih chan
          { pending := Function.update st.pending st.nextID none,
            nextID := wrapInt64 (st.nextID + 1),
            out := st.out ++ cursor.samples, errCh := st.errCh,
            tick := st.tick + 2 * cursor.samples.length + 1 } (i + 1)
          hw (by omega) hnd
          (by
            intro c1 hc1
            obtain ⟨i1, hik1, hic1, hip1⟩ := hchan c1 hc1
            have hne : i1 ≠ i := by
              intro h; subst h
              rw [← hk, hp] at hip1; exact absurd hip1 (by simp)
            refine ⟨i1, by omega, hic1, ?_⟩
            have hne2 : (i1 : Int) ≠ st.nextID := by rw [hk]; exact_mod_cast hne
            simp [Function.update_noteq hne2, hip1])
          (by
            intro j c1 hj
            by_cases hjc : j = st.nextID
            · subst hjc; simp at hj
            · simp only [Function.update_noteq hjc] at hj
              obtain ⟨i1, hik1, hic1, hj1⟩ := hpend j c1 hj
              have hne : i1 ≠ i := by
                intro h; subst h; exact hjc (by rw [hj1, hk])
              exact ⟨i1, by omega, hic1, hj1⟩)
          (by
            intro i1 c1 hik1 hic1
            have hne2 : (i1 : Int) ≠ st.nextID := by
              rw [hk]; intro h
              have : i1 = i := by exact_mod_cast h
              omega
            rcases hcov i1 c1 (by omega) hic1 with h | h
            · left; simp only [Function.update_noteq hne2]; exact h
            · right; exact h)
          (by omega)
        refine ⟨st1, h1, ⟨cursor.samples ++ pre, ?_, ?_⟩, ?_, ?_⟩
        · simpa [List.append_assoc] using h2
        · exact (List.prefix_append_right_inj _).mpr h3
        · simpa [List.append_assoc] using h4
        · simpa [List.append_assoc] using h5
      unfold shardDone drainInOrder shardCursor.fatal
      cases he : cursor.errCh with
      | none =>
        simpa using hfin
      | some err =>
        by_cases hfat : errors.Is err GoError.canceled = true
        · simpa [hfat] using hfin
        · simp [hfat]

theorem drainInOrder_of_not_fatal :
    ∀ (l : List shardCursor), (∀ c ∈ l, c.fatal = false) →
      drainInOrder l = ((l.map (fun c => c.samples)).flatten, [])
  | [], _ => by simp [drainInOrder]
  | c :: rest, h => by
      have h1 : c.fatal = false := h c (List.mem_cons_self _ _)
      have h2 := drainInOrder_of_not_fatal rest (fun d hd => h d (List.mem_cons_of_mem _ hd))
      simp [drainInOrder, h1, h2]

theorem drainInOrder_first_fatal :
    ∀ (l : List shardCursor) (f : Nat) (c : shardCursor) (e : GoError),
      l[f]? = some c → c.errCh = some e → c.fatal = true →
      (∀ (i : Nat) (d : shardCursor), i < f → l[i]? = some d → d.fatal = false) →
      drainInOrder l = (((l.take (f + 1)).map (fun c => c.samples)).flatten, [e])
  | [], f, c, e, h, _, _, _ => by simp at h
  | d :: rest, 0, c, e, h, he, hf, _ => by
      simp at h
      subst h
      simp [drainInOrder, hf, he]
  | d :: rest, f + 1, c, e, h, he, hf, hlow => by
      have h1 : d.fatal = false := hlow 0 d (by omega) (by simp)
      have h2 := drainInOrder_first_fatal rest f c e (by simpa using h) he hf
        (fun i d1 hi hd1 => hlow (i + 1) d1 (by omega) (by simpa using hd1))
      simp [drainInOrder, h1, h2]

theorem aggLoop_of_perm (ctx : Context)
    (curs arrival : List shardCursor)
    (hid : ∀ (i : Nat) (h : i < curs.length), (curs.get ⟨i, h⟩).id = (i : Int))
    (hlen : curs.length < 2 ^ 63)
    (harr : arrival.Perm curs) :
    ∃ st, runAggregator ctx arrival = some st ∧
      st.out <+: (drainInOrder curs).1 ∧
      (st.errCh = [] ∨ (st.out = (drainInOrder curs).1 ∧ st.errCh = (drainInOrder curs).2)) ∧
      ((∀ t, ctx.done t = false) →
        st.out = (drainInOrder curs).1 ∧ st.errCh = (drainInOrder curs).2) := by
  have hid2 : ∀ (i : Nat) (c : shardCursor), curs[i]? = some c → c.id = (i : Int) := by
    intro i c hc
    rcases List.getElem?_eq_some.mp hc with ⟨h, he⟩
    rw [← he]
    exact hid i h
  have hnd : (curs.map (fun c => c.id)).Nodup := by
    rw [List.nodup_iff_getElem?_ne_getElem?]
    intro i j hij hj h
    simp only [List.length_map] at hj
    rw [List.getElem?_map, List.getElem?_map, List.getElem?_eq_getElem (by omega),
      List.getElem?_eq_getElem hj] at h
    simp only [Option.map_some', Option.some.injEq] at h
    have h1 := hid i (by omega)
    have h2 := hid j hj
    simp only [List.get_eq_getElem] at h1 h2
    rw [h1, h2] at h
    have : i = j := by exact_mod_cast h
    omega
  obtain ⟨st, h1, ⟨pre, h2, h3⟩, h4, h5⟩ :=
    aggLoop_ordered ctx curs hid2 hlen (2 * arrival.length + 1) arrival AggState.init 0
    (by simp [AggState.init]) (Nat.zero_le _)
    ((harr.map _).nodup_iff.mpr hnd)
    (by
      intro c hc
      have hc2 : c ∈ curs := harr.subset hc
      obtain ⟨i, hi⟩ := List.getElem?_of_mem hc2
      exact ⟨i, Nat.zero_le _, hi, rfl⟩)
    (by intro j c hj; simp [AggState.init] at hj)
    (by
      intro i c _ hc
      right
      exact harr.symm.subset (List.getElem?_mem hc))
    (by rw [harr.length_eq]; omega)
  refine ⟨st, h1, ?_, ?_, ?_⟩
  · have : st.out = pre := by simpa [AggState.init] using h2
    rw [this]
    simpa using h3
  · simpa [AggState.init] using h4
  · simpa [AggState.init] using h5

/-- C1 (amended): cursors with ids `0..n-1`, each ending with a nil or a
cancellation status, delivered in any arrival order: the aggregator returns,
nothing is sent on the error stream, and the samples written to the output
are an initial part of the samples of cursor 0, then those of cursor 1, and
so on; they are the whole of that concatenation, whatever the arrival order,
when no `select` of the aggregator takes `ctx.Done()`. -/
theorem runAggregator_emits_in_id_order (ctx : Context)
    (curs arrival : List shardCursor)
    (hid : ∀ (i : Nat) (h : i < curs.length), (curs.get ⟨i, h⟩).id = (i : Int))
    (hlen : curs.length < 2 ^ 63)
    (hstatus : ∀ c ∈ curs, c.errCh = none ∨
      ∃ e, c.errCh = some e ∧ errors.Is e GoError.canceled = true)
    (harr : arrival.Perm curs) :
    ∃ st, runAggregator ctx arrival = some st ∧
      st.out <+: (curs.map (fun c => c.samples)).flatten ∧ st.errCh = [] ∧
      ((∀ t, ctx.done t = false) → st.out = (curs.map (fun c => c.samples)).flatten) := by
  obtain ⟨st, hst, hpre, herr, hfull⟩ := aggLoop_of_perm ctx curs arrival hid hlen harr
  have hnf : ∀ c ∈ curs, c.fatal = false := by
    intro c hc
    rcases hstatus c hc with h | ⟨e, h, he⟩
    · simp [shardCursor.fatal, h]
    · simp [shardCursor.fatal, h, he]
  rw [drainInOrder_of_not_fatal curs hnf] at hpre herr hfull
  refine ⟨st, hst, hpre, ?_, fun hctx => (hfull hctx).1⟩
  rcases herr with h | ⟨_, h⟩
  · exact h
  · exact h

theorem runAggregator_emits_in_id_order_witness :
    ∃ st, runAggregator ⟨fun _ => false, GoError.canceled⟩
        [⟨1, [⟨"b0", "img", 2⟩], some GoError.canceled⟩, ⟨0, [⟨"a0", "img", 0⟩, ⟨"a1", "img", 1⟩], none⟩]
          = some st ∧
      st.out = [⟨"a0", "img", 0⟩, ⟨"a1", "img", 1⟩, ⟨"b0", "img", 2⟩] ∧ st.errCh = [] :=
  (runAggregator_emits_in_id_order ⟨fun _ => false, GoError.canceled⟩
    [⟨0, [⟨"a0", "img", 0⟩, ⟨"a1", "img", 1⟩], none⟩, ⟨1, [⟨"b0", "img", 2⟩], some GoError.canceled⟩]
    [⟨1, [⟨"b0", "img", 2⟩], some GoError.canceled⟩, ⟨0, [⟨"a0", "img", 0⟩, ⟨"a1", "img", 1⟩], none⟩]
    (by decide) (by norm_num) (by decide) (by decide)).imp
    (fun _ h => ⟨h.1, h.2.2.2 (fun _ => rfl), h.2.2.1⟩)

/-- C1 (counterexample): the context is cancelled during the run. Cursors 0
and 1 arrive in id order, the fifth `select` of the aggregator and those
after it take `ctx.Done()`, and the output is the sample of cursor 0 alone,
not the concatenation `[a0, b0]`. -/
theorem runAggregator_cancelled_mid_run :
    ∃ st, runAggregator ⟨fun t => decide (4 ≤ t), GoError.canceled⟩
        [⟨0, [⟨"a0", "img", 0⟩], none⟩, ⟨1, [⟨"b0", "img", 1⟩], some GoError.canceled⟩] = some st ∧
      st.out = [⟨"a0", "img", 0⟩] ∧ st.errCh = [] :=
  ⟨_, rfl, rfl, rfl⟩

/-- C4 (amended): with the cursors drained in id order and `c`, at index `f`,
the first cursor whose status is a non-nil error `e` other than a
cancellation: the output is an initial part of the samples of the cursors up
to and including `c`, so no sample of a later cursor is forwarded; the error
stream is empty or holds exactly `e`, and holds `e` only after all those
samples; and when no `select` takes `ctx.Done()` the error stream holds
exactly `e`. An iteration on a cursor `d` whose status is nil or a
cancellation either returns because a `select` took `ctx.Done()`, with
nothing sent on the error stream, or sends nothing on the error stream,
deletes `nextID` from the pending map and adds one to `nextID` (within the
`int64` range). -/
theorem runAggregator_first_fatal_error (ctx : Context)
    (curs arrival : List shardCursor)
    (hid : ∀ (i : Nat) (h : i < curs.length), (curs.get ⟨i, h⟩).id = (i : Int))
    (hlen : curs.length < 2 ^ 63)
    (harr : arrival.Perm curs)
    (f : Nat) (c : shardCursor) (e : GoError)
    (hf : curs[f]? = some c) (he : c.errCh = some e)
    (hfatal : errors.Is e GoError.canceled = false)
    (hlow : ∀ (i : Nat) (d : shardCursor), i < f → curs[i]? = some d →
      d.errCh = none ∨ ∃ e1, d.errCh = some e1 ∧ errors.Is e1 GoError.canceled = true)
    (chan : List shardCursor) (st : AggState) (d : shardCursor)
    (hpending : st.pending st.nextID = some d)
    (hd : d.errCh = none ∨ ∃ e1, d.errCh = some e1 ∧ errors.Is e1 GoError.canceled = true)
    (hlo : -(2 ^ 63) ≤ st.nextID) (hhi : st.nextID + 1 < 2 ^ 63) :
    (∃ st1, runAggregator ctx arrival = some st1 ∧
      st1.out <+: ((curs.take (f + 1)).map (fun c => c.samples)).flatten ∧
      (st1.errCh = [] ∨
        (st1.errCh = [e] ∧
         st1.out = ((curs.take (f + 1)).map (fun c => c.samples)).flatten)) ∧
      ((∀ t, ctx.done t = false) → st1.errCh = [e] ∧
        st1.out = ((curs.take (f + 1)).map (fun c => c.samples)).flatten)) ∧
    ((∃ st2, aggStep ctx chan st = Except.ok (chan, st2) ∧
        st2.errCh = st.errCh ∧
        st2.pending = Function.update st.pending st.nextID none ∧
        st2.nextID = st.nextID + 1 ∧
        st2.out = st.out ++ d.samples) ∨
      (∃ st2, aggStep ctx chan st = Except.error st2 ∧
        st2.errCh = st.errCh ∧
        (∃ pre, st2.out = st.out ++ pre ∧ pre <+: d.samples) ∧
        ∃ t, ctx.done t = true)) := by
  constructor
  · obtain ⟨st1, hst, hpre, herr, hfull⟩ := aggLoop_of_perm ctx curs arrival hid hlen harr
    have hcf : c.fatal = true := by simp [shardCursor.fatal, he, hfatal]
    have hnf : ∀ (i : Nat) (d : shardCursor), i < f → curs[i]? = some d → d.fatal = false := by
      intro i d hi hd
      rcases hlow i d hi hd with h | ⟨e1, h, he1⟩
      · simp [shardCursor.fatal, h]
      · simp [shardCursor.fatal, h, he1]
    rw [drainInOrder_first_fatal curs f c e hf he hcf hnf] at hpre herr hfull
    refine ⟨st1, hst, hpre, ?_, fun hctx => ⟨(hfull hctx).2, (hfull hctx).1⟩⟩
    rcases herr with h | ⟨h1, h2⟩
    · exact Or.inl h
    · exact Or.inr ⟨h2, h1⟩
  · have hw : wrapInt64 (st.nextID + 1) = st.nextID + 1 :=
      wrapInt64_of_lt _ (by omega) hhi
    unfold aggStep
    rw [hpending]
    rcases forwardSamples_cases ctx d.samples st with hok | ⟨st1, pre, hE, ho, hp, hc, ht⟩
    · left
      simp only [hok]
      unfold shardDone
      rcases hd with h | ⟨e1, h, he1⟩
      · simp [h, hw]
      · simp [h, he1, hw]
    · right
      simp only [hE]
      exact ⟨st1, rfl, hc, ⟨pre, ho, hp⟩, ht⟩

theorem runAggregator_first_fatal_error_witness :
    (∃ st1, runAggregator ⟨fun _ => false, GoError.canceled⟩
        [⟨2, [⟨"c0", "img", 2⟩], none⟩,
         ⟨1, [⟨"b0", "img", 1⟩], some GoError.pendingOverflow⟩,
         ⟨0, [⟨"a0", "img", 0⟩], some GoError.canceled⟩] = some st1 ∧
      st1.errCh = [GoError.pendingOverflow] ∧
      st1.out = [⟨"a0", "img", 0⟩, ⟨"b0", "img", 1⟩]) ∧
    (∃ st2, aggStep ⟨fun _ => false, GoError.canceled⟩ []
        { pending := Function.update (fun _ => none) 5 (some ⟨5, [⟨"k", "img", 9⟩], none⟩),
          nextID := 5, out := [], errCh := [], tick := 0 } = Except.ok ([], st2) ∧
      st2.errCh = [] ∧
      st2.pending = Function.update
        (Function.update (fun _ => none) 5 (some ⟨5, [⟨"k", "img", 9⟩], none⟩)) 5 none ∧
      st2.nextID = 5 + 1 ∧
      st2.out = [] ++ [⟨"k", "img", 9⟩]) := by
  obtain ⟨⟨st1, h1, _, _, h4⟩, h5⟩ :=
    runAggregator_first_fatal_error ⟨fun _ => false, GoError.canceled⟩
      [⟨0, [⟨"a0", "img", 0⟩], some GoError.canceled⟩,
       ⟨1, [⟨"b0", "img", 1⟩], some GoError.pendingOverflow⟩,
       ⟨2, [⟨"c0", "img", 2⟩], none⟩]
      [⟨2, [⟨"c0", "img", 2⟩], none⟩,
       ⟨1, [⟨"b0", "img", 1⟩], some GoError.pendingOverflow⟩,
       ⟨0, [⟨"a0", "img", 0⟩], some GoError.canceled⟩]
      (by decide) (by norm_num) (by decide)
      1 ⟨1, [⟨"b0", "img", 1⟩], some GoError.pendingOverflow⟩ GoError.pendingOverflow
      rfl rfl rfl
      (by
        intro i d hi h
        obtain rfl : i = 0 := by omega
        simp at h
        subst h
        exact Or.inr ⟨GoError.canceled, rfl, rfl⟩)
      [] { pending := Function.update (fun _ => none) 5 (some ⟨5, [⟨"k", "img", 9⟩], none⟩),
            nextID := 5, out := [], errCh := [], tick := 0 }
      ⟨5, [⟨"k", "img", 9⟩], none⟩ (by simp) (Or.inl rfl) (by norm_num) (by norm_num)
  refine ⟨⟨st1, h1, (h4 (fun _ => rfl)).1, (h4 (fun _ => rfl)).2⟩, ?_⟩
  rcases h5 with h5 | ⟨_, _, _, _, t, ht⟩
  · exact h5
  · cases ht

/-- C4 (counterexample): the context is cancelled during the run. The only
cursor ends with `ErrPendingOverflow`, the second `select` of the aggregator
takes `ctx.Done()`, and the aggregator returns with nothing sent on the error
stream; and an iteration on a cursor with a cancellation status, under a
context that is done, returns with `nextID` unchanged and the cursor still in
the pending map. -/
theorem runAggregator_cancelled_before_error :
    (∃ st, runAggregator ⟨fun t => decide (1 ≤ t), GoError.canceled⟩
        [⟨0, [⟨"a0", "img", 0⟩], some GoError.pendingOverflow⟩] = some st ∧
      st.errCh = [] ∧ st.out = []) ∧
    (∃ st2, aggStep ⟨fun _ => true, GoError.canceled⟩ []
        { pending := Function.update (fun _ => none) 5
            (some ⟨5, [⟨"k", "img", 9⟩], some GoError.canceled⟩),
          nextID := 5, out := [], errCh := [], tick := 0 } = Except.error st2 ∧
      st2.nextID = 5 ∧
      st2.pending 5 = some ⟨5, [⟨"k", "img", 9⟩], some GoError.canceled⟩ ∧
      st2.errCh = []) :=
  ⟨⟨_, rfl, rfl, rfl⟩, ⟨_, rfl, rfl, rfl, rfl⟩⟩

/-- The entry a root contributes to the round that starts from `copied`. -/
theorem roundPass_order : ∀ (names : List String) (st : RoundState), names.Nodup →
    (roundPass names st).order =
      st.order ++ names.filterMap
        (fun root => ((st.copied root)[0]?).map (fun shard => (⟨root, shard⟩ : orderEntry)))
  | [], st, _ => by simp [roundPass]
  | root :: rest, st, hnd => by
      have hnot : root ∉ rest := (List.nodup_cons.mp hnd).1
      have hrest : rest.Nodup := (List.nodup_cons.mp hnd).2
      unfold roundPass
      cases hc : st.copied root with
      | nil =>
        simp only
        rw [roundPass_order rest st hrest]
        simp [List.filterMap_cons, hc]
      | cons shard shards =>
        simp only
        rw [roundPass_order rest _ hrest]
        simp only [List.filterMap_cons, hc, List.getElem?_cons_zero, Option.map_some',
          List.append_assoc, List.singleton_append]
        congr 2
        apply List.filterMap_congr
        intro r hr
        have hne : r ≠ root := fun h => hnot (h ▸ hr)
        simp [Function.update_noteq hne]

theorem roundPass_copied : ∀ (names : List String) (st : RoundState), names.Nodup →
    ∀ r, (roundPass names st).copied r = if r ∈ names then (st.copied r).tail else st.copied r
  | [], st, _ => by simp [roundPass]
  | root :: rest, st, hnd => by
      have hnot : root ∉ rest := (List.nodup_cons.mp hnd).1
      have hrest : rest.Nodup := (List.nodup_cons.mp hnd).2
      intro r
      unfold roundPass
      cases hc : st.copied root with
      | nil =>
        simp only
        rw [roundPass_copied rest st hrest]
        by_cases hr : r = root
        · subst hr; simp [hnot, hc]
        · simp [hr]
      | cons shard shards =>
        simp only
        rw [roundPass_copied rest _ hrest]
        by_cases hr : r = root
        · subst hr; simp [hnot, hc]
        · simp [hr, Function.update_noteq hr]

theorem roundPass_advanced : ∀ (names : List String) (st : RoundState), names.Nodup →
    (roundPass names st).advanced = (st.advanced || names.any (fun r => !(st.copied r).isEmpty))
  | [], st, _ => by simp [roundPass]
  | root :: rest, st, hnd => by
      have hnot : root ∉ rest := (List.nodup_cons.mp hnd).1
      have hrest : rest.Nodup := (List.nodup_cons.mp hnd).2
      unfold roundPass
      cases hc : st.copied root with
      | nil =>
        simp only
        rw [roundPass_advanced rest st hrest]
        simp [hc]
      | cons shard shards =>
        simp only
        rw [roundPass_advanced rest _ hrest]
        simp [hc]

theorem roundRobinRounds_congr (names : List String) (c1 c2 : String → List String)
    (h : ∀ r ∈ names, c1 r = c2 r) (rounds : Nat) :
    roundRobinRounds names c1 rounds = roundRobinRounds names c2 rounds := by
  unfold roundRobinRounds
  congr 1
  funext k
  apply List.filterMap_congr
  intro r hr
  rw [h r hr]

theorem roundRobinRounds_succ (names : List String) (copied : String → List String)
    (rounds : Nat) :
    roundRobinRounds names copied (rounds + 1) =
      names.filterMap
          (fun root => ((copied root)[0]?).map (fun shard => (⟨root, shard⟩ : orderEntry))) ++
        roundRobinRounds names (fun r => (copied r).tail) rounds := by
  unfold roundRobinRounds
  rw [List.range_succ_eq_map, List.flatMap_cons, List.flatMap_map]
  congr 1
  congr 1
  funext k
  apply List.filterMap_congr
  intro r _
  simp [List.getElem?_tail]

theorem roundRobinRounds_of_empty (names : List String) (copied : String → List String)
    (h : ∀ r ∈ names, copied r = []) (rounds : Nat) :
    roundRobinRounds names copied rounds = [] := by
  unfold roundRobinRounds
  rw [List.flatMap_eq_nil_iff]
  intro k _
  rw [List.filterMap_eq_nil_iff]
  intro r hr
  simp [h r hr]

theorem roundLoop_eq : ∀ (fuel : Nat) (names : List String) (copied : String → List String)
    (order : List orderEntry), names.Nodup → (∀ r ∈ names, (copied r).length ≤ fuel) →
    roundLoop (fuel + 1) names copied order = some (order ++ roundRobinRounds names copied fuel) := by
  intro fuel
  induction fuel with
  | zero =>
    intro names copied order hnd h
    have hall : ∀ r ∈ names, copied r = [] := by
      intro r hr
      exact List.eq_nil_of_length_eq_zero (Nat.le_zero.mp (h r hr))
    have hadv : names.any (fun r => !(copied r).isEmpty) = false := by
      rw [List.any_eq_false]
      intro r hr
      simp [hall r hr]
    have hheads : names.filterMap
        (fun root => ((copied root)[0]?).map (fun shard => (⟨root, shard⟩ : orderEntry))) = [] := by
      rw [List.filterMap_eq_nil_iff]
      intro r hr
      simp [hall r hr]
    unfold roundLoop
    rw [roundPass_advanced names _ hnd, roundPass_order names _ hnd, hadv, hheads]
    simp [roundRobinRounds]
  | succ fuel ih =>
    intro names copied order hnd h
    unfold roundLoop
    rw [roundPass_advanced names _ hnd, roundPass_order names _ hnd]
    simp only [Bool.false_or]
    by_cases hadv : names.any (fun r => !(copied r).isEmpty) = true
    · rw [if_pos hadv, ih names _ _ hnd]
      · rw [roundRobinRounds_succ, List.append_assoc,
          roundRobinRounds_congr names _ (fun r => (copied r).tail)]
        intro r hr
        rw [roundPass_copied names _ hnd r]
        simp [hr]
      · intro r hr
        rw [roundPass_copied names _ hnd r]
        simp only [hr, if_true, List.length_tail]
        have := h r hr
        omega
    · rw [if_neg hadv]
      have hall : ∀ r ∈ names, copied r = [] := by
        intro r hr
        by_contra hne
        apply hadv
        exact List.any_eq_true.mpr ⟨r, hr, by simpa using hne⟩
      have hheads : names.filterMap
          (fun root => ((copied root)[0]?).map (fun shard => (⟨root, shard⟩ : orderEntry))) = [] := by
        rw [List.filterMap_eq_nil_iff]
        intro r hr
        simp [hall r hr]
      rw [roundRobinRounds_of_empty names copied hall, hheads]

theorem swapShards_perm (l : List String) (i j : Nat) (hi : i < l.length) (hj : j < l.length) :
    (swapShards l i j).Perm l := by
  unfold swapShards
  rw [List.perm_iff_count]
  intro a
  rw [List.getD_eq_getElem _ _ hi, List.getD_eq_getElem _ _ hj]
  have hj1 : j < (l.set i l[j]).length := by simpa using hj
  have hget : (l.set i l[j])[j] = l[j] := by
    rw [List.getElem_set]
    split_ifs <;> rfl
  rw [List.count_set _ _ _ _ hj1, List.count_set _ _ _ _ hi, hget]
  have hpos : (l[i] == a) = true → 0 < List.count a l := by
    intro h
    have : l[i] = a := by simpa using h
    rw [← this]
    exact List.count_pos_iff.mpr (List.getElem_mem _)
  cases h1 : (l[i] == a) <;> cases h2 : (l[j] == a) <;>
    simp only [Bool.false_eq_true, ↓reduceIte]
  · omega
  · omega
  · have := hpos h1; omega
  · have := hpos h1; omega

theorem shuffleLoop_perm {σ : Type} (int31n : σ → Nat → Nat × σ)
    (hlt : ∀ (s : σ) (n : Nat), 0 < n → (int31n s n).1 < n) :
    ∀ (i : Nat) (s : σ) (l : List String), i < l.length ∨ i = 0 →
      (shuffleLoop int31n i s l).1.Perm l
  | 0, s, l, _ => by simp [shuffleLoop]
  | i + 1, s, l, h => by
      have hi : i + 1 < l.length := by omega
      have hj : (int31n s (i + 2)).1 < i + 2 := hlt s (i + 2) (by omega)
      have hsw := swapShards_perm l (i + 1) (int31n s (i + 2)).1 hi (by omega)
      unfold shuffleLoop
      refine (shuffleLoop_perm int31n hlt i _ _ ?_).trans hsw
      left
      rw [hsw.length_eq]
      omega

theorem Shuffle_perm {σ : Type} (rng : rand.Rand σ) (l : List String) :
    (rng.Shuffle l).1.Perm l := by
  unfold rand.Rand.Shuffle
  apply shuffleLoop_perm rng.int31n rng.int31n_lt
  omega

theorem copyRoots_rootNames {σ : Type} : ∀ (roots : List (String × List String))
    (st : CopyState σ),
    (copyRoots roots st).rootNames =
      st.rootNames ++ (roots.filter (fun e => !e.2.isEmpty)).map Prod.fst
  | [], st => by simp [copyRoots]
  | (root, shards) :: rest, st => by
      unfold copyRoots
      by_cases h : shards.length = 0
      · have h2 : shards = [] := List.eq_nil_of_length_eq_zero h
        simp only [h, if_true]
        rw [copyRoots_rootNames rest st]
        simp [List.filter_cons, h2]
      · have h2 : shards ≠ [] := fun h3 => h (by simp [h3])
        simp only [h, if_false]
        cases hr : st.rng with
        | none =>
          simp only
          rw [copyRoots_rootNames rest _]
          simp [List.filter_cons, h2]
        | some rng =>
          simp only
          rw [copyRoots_rootNames rest _]
          simp [List.filter_cons, h2]

theorem copyRoots_copied_of_not_mem {σ : Type} : ∀ (roots : List (String × List String))
    (st : CopyState σ) (r : String), r ∉ roots.map Prod.fst →
    (copyRoots roots st).copied r = st.copied r
  | [], st, r, _ => by simp [copyRoots]
  | (root, shards) :: rest, st, r, hr => by
      have hne : r ≠ root := by
        intro h; apply hr; simp [h]
      have hrest : r ∉ rest.map Prod.fst := by
        intro h; apply hr; simp only [List.map_cons, List.mem_cons]; right; exact h
      unfold copyRoots
      by_cases h : shards.length = 0
      · simp only [h, if_true]
        exact copyRoots_copied_of_not_mem rest st r hrest
      · simp only [h, if_false]
        cases hrng : st.rng with
        | none =>
          simp only
          rw [copyRoots_copied_of_not_mem rest _ r hrest]
          simp [Function.update_noteq hne]
        | some rng =>
          simp only
          rw [copyRoots_copied_of_not_mem rest _ r hrest]
          simp [Function.update_noteq hne]

theorem copyRoots_copied_perm {σ : Type} : ∀ (roots : List (String × List String))
    (st : CopyState σ), (roots.map Prod.fst).Nodup →
    (∀ r ∈ roots.map Prod.fst, st.copied r = []) →
    ∀ e ∈ roots, ((copyRoots roots st).copied e.1).Perm e.2 ∧
      (st.rng = none → (copyRoots roots st).copied e.1 = e.2)
  | [], st, _, _ => by simp
  | (root, shards) :: rest, st, hnd, hst => by
      simp only [List.map_cons, List.nodup_cons] at hnd
      have hst2 : ∀ (c : String → List String), (∀ r, r ≠ root → c r = st.copied r) →
          ∀ r ∈ rest.map Prod.fst, c r = [] := by
        intro c hc r hr
        have hne : r ≠ root := fun h => hnd.1 (h ▸ hr)
        rw [hc r hne]
        exact hst r (by simp only [List.map_cons, List.mem_cons]; right; exact hr)
      intro e he
      unfold copyRoots
      rcases List.mem_cons.mp he with rfl | he
      · by_cases h : shards.length = 0
        · simp only [h, if_true]
          rw [copyRoots_copied_of_not_mem rest st root hnd.1, hst root (by simp),
            List.eq_nil_of_length_eq_zero h]
          simp
        · simp only [h, if_false]
          cases hrng : st.rng with
          | none =>
            simp only
            rw [copyRoots_copied_of_not_mem rest _ root hnd.1]
            simp
          | some rng =>
            simp only
            rw [copyRoots_copied_of_not_mem rest _ root hnd.1]
            simpa using Shuffle_perm rng shards
      · by_cases h : shards.length = 0
        · simp only [h, if_true]
          exact copyRoots_copied_perm rest st hnd.2 (hst2 st.copied (fun _ _ => rfl)) e he
        · simp only [h, if_false]
          cases hrng : st.rng with
          | none =>
            simp only
            have := copyRoots_copied_perm rest
              { rootNames := st.rootNames ++ [root],
                copied := Function.update st.copied root shards,
                rng := (none : Option (rand.Rand σ)) } hnd.2
              (hst2 _ (fun r hr => Function.update_noteq hr _ _)) e he
            exact ⟨this.1, fun _ => this.2 rfl⟩
          | some rng =>
            simp only
            have := copyRoots_copied_perm rest
              { rootNames := st.rootNames ++ [root],
                copied := Function.update st.copied root (rng.Shuffle shards).1,
                rng := some (rng.Shuffle shards).2 } hnd.2
              (hst2 _ (fun r hr => Function.update_noteq hr _ _)) e he
            exact ⟨this.1, fun hn => by simp at hn⟩

theorem heads_append_tails_perm (copied : String → List String) : ∀ (names : List String),
    (names.filterMap
        (fun root => ((copied root)[0]?).map (fun shard => (⟨root, shard⟩ : orderEntry))) ++
      names.flatMap (fun r => (copied r).tail.map (fun shard => (⟨r, shard⟩ : orderEntry)))).Perm
    (names.flatMap (fun r => (copied r).map (fun shard => (⟨r, shard⟩ : orderEntry))))
  | [] => by simp
  | r :: rest => by
      have ih := heads_append_tails_perm copied rest
      cases hc : copied r with
      | nil =>
        simpa [List.filterMap_cons, List.flatMap_cons, hc] using ih
      | cons a t =>
        simp only [List.filterMap_cons, List.flatMap_cons, hc, List.getElem?_cons_zero,
          Option.map_some', List.tail_cons, List.map_cons, List.cons_append]
        refine List.Perm.cons _ ?_
        refine (List.perm_append_comm_assoc _ _ _).trans ?_
        exact List.Perm.append_left _ ih

theorem roundRobinRounds_perm : ∀ (rounds : Nat) (names : List String)
    (copied : String → List String), (∀ r ∈ names, (copied r).length ≤ rounds) →
    (roundRobinRounds names copied rounds).Perm
      (names.flatMap (fun r => (copied r).map (fun shard => (⟨r, shard⟩ : orderEntry))))
  | 0, names, copied, h => by
      have hall : ∀ r ∈ names, copied r = [] := fun r hr =>
        List.eq_nil_of_length_eq_zero (Nat.le_zero.mp (h r hr))
      rw [roundRobinRounds_of_empty names copied hall]
      have : names.flatMap (fun r => (copied r).map (fun shard => (⟨r, shard⟩ : orderEntry))) = [] := by
        rw [List.flatMap_eq_nil_iff]
        intro r hr
        simp [hall r hr]
      rw [this]
  | rounds + 1, names, copied, h => by
      rw [roundRobinRounds_succ]
      have ih := roundRobinRounds_perm rounds names (fun r => (copied r).tail)
        (fun r hr => by have := h r hr; simp only [List.length_tail]; omega)
      exact (List.Perm.append_left _ ih).trans (heads_append_tails_perm copied names)

theorem length_le_totalShards : ∀ (roots : List (String × List String)),
    ∀ e ∈ roots, e.2.length ≤ totalShards roots
  | [], e, he => by simp at he
  | x :: rest, e, he => by
      unfold totalShards
      simp only [List.map_cons, List.sum_cons]
      rcases List.mem_cons.mp he with rfl | he
      · omega
      · have := length_le_totalShards rest e he
        unfold totalShards at this
        omega

theorem length_allShards : ∀ (roots : List (String × List String)),
    (allShards roots).length = totalShards roots
  | [] => by simp [allShards, totalShards]
  | x :: rest => by
      have := length_allShards rest
      unfold allShards totalShards at *
      simp only [List.flatMap_cons, List.length_append, List.length_map, List.map_cons,
        List.sum_cons]
      omega

theorem nonEmptyRoots_nodup (roots : List (String × List String))
    (hmap : (roots.map Prod.fst).Nodup) : (nonEmptyRoots roots).Nodup :=
  hmap.sublist ((List.filter_sublist roots).map Prod.fst)

theorem sortStrings_perm (l : List String) : (sortStrings l).Perm l :=
  List.perm_insertionSort _ l

theorem sortStrings_sorted (l : List String) (hl : l.Nodup) :
    (sortStrings l).Sorted (fun a b => a < b) := by
  haveI : IsTotal String (fun a b => a.toList ≤ b.toList) :=
    ⟨fun a b => le_total a.toList b.toList⟩
  haveI : IsTrans String (fun a b => a.toList ≤ b.toList) :=
    ⟨fun a b c h1 h2 => le_trans h1 h2⟩
  have h1 : (sortStrings l).Sorted (fun a b => a.toList ≤ b.toList) :=
    List.sorted_insertionSort _ l
  have h2 : (sortStrings l).Nodup := (sortStrings_perm l).nodup_iff.mpr hl
  unfold List.Sorted at h1 ⊢
  unfold List.Nodup at h2
  refine (h1.and h2).imp ?_
  intro a b hab
  rw [String.lt_iff_toList_lt]
  rcases lt_or_eq_of_le hab.1 with h | h
  · exact h
  · exact absurd (String.ext h) hab.2

/-- The flat listing of the private copies is a rearrangement of all shards. -/
theorem flatMap_copied_perm (copied : String → List String) :
    ∀ (roots : List (String × List String)),
      (∀ e ∈ roots, (copied e.1).Perm e.2) →
      ((nonEmptyRoots roots).flatMap
        (fun r => (copied r).map (fun shard => (⟨r, shard⟩ : orderEntry)))).Perm (allShards roots)
  | [], _ => by simp [nonEmptyRoots, allShards]
  | (root, shards) :: rest, h => by
      have ih := flatMap_copied_perm copied rest (fun e he => h e (List.mem_cons_of_mem _ he))
      have hr : (copied root).Perm shards := h (root, shards) (List.mem_cons_self _ _)
      unfold nonEmptyRoots allShards at *
      cases shards with
      | nil =>
        simpa [List.filter_cons] using ih
      | cons a t =>
        simp only [List.filter_cons, List.isEmpty_cons, Bool.not_false, if_true, List.map_cons,
          List.flatMap_cons]
        exact List.Perm.append (hr.map _) ih

/-- The private copies `buildRoundRobinOrder` works on: what the first loop
leaves in `copied`. -/
theorem buildRoundRobinOrder_eq {σ : Type} (roots : List (String × List String))
    (rng : Option (rand.Rand σ)) (hmap : (roots.map Prod.fst).Nodup) :
    buildRoundRobinOrder roots rng =
      some (roundRobinRounds (sortStrings (nonEmptyRoots roots))
              (copyRoots roots ⟨[], fun _ => [], rng⟩).copied (totalShards roots),
            (copyRoots roots ⟨[], fun _ => [], rng⟩).rng) := by
  have hcop := copyRoots_copied_perm roots (⟨[], fun _ => [], rng⟩ : CopyState σ) hmap
    (fun _ _ => rfl)
  have hnames : (copyRoots roots (⟨[], fun _ => [], rng⟩ : CopyState σ)).rootNames =
      nonEmptyRoots roots := by
    rw [copyRoots_rootNames]; simp [nonEmptyRoots]
  have hnd : (sortStrings (nonEmptyRoots roots)).Nodup :=
    (sortStrings_perm _).nodup_iff.mpr (nonEmptyRoots_nodup roots hmap)
  have hlen : ∀ r ∈ sortStrings (nonEmptyRoots roots),
      ((copyRoots roots (⟨[], fun _ => [], rng⟩ : CopyState σ)).copied r).length ≤
        totalShards roots := by
    intro r hr
    have hr2 : r ∈ nonEmptyRoots roots := (sortStrings_perm _).subset hr
    unfold nonEmptyRoots at hr2
    obtain ⟨e, he, rfl⟩ := List.mem_map.mp hr2
    have he2 : e ∈ roots := List.mem_of_mem_filter he
    rw [(hcop e he2).1.length_eq]
    exact length_le_totalShards roots e he2
  unfold buildRoundRobinOrder
  simp only [hnames]
  rw [roundLoop_eq _ _ _ _ hnd hlen]
  simp

/-- The round-by-round order over the private copies holds every shard of
every root once. -/
theorem roundRobinRounds_copied_perm {σ : Type} (roots : List (String × List String))
    (rng : Option (rand.Rand σ)) (hmap : (roots.map Prod.fst).Nodup) :
    (roundRobinRounds (sortStrings (nonEmptyRoots roots))
      (copyRoots roots (⟨[], fun _ => [], rng⟩ : CopyState σ)).copied
      (totalShards roots)).Perm (allShards roots) := by
  have hcop := copyRoots_copied_perm roots (⟨[], fun _ => [], rng⟩ : CopyState σ) hmap
    (fun _ _ => rfl)
  refine (roundRobinRounds_perm _ _ _ ?_).trans ?_
  · intro r hr
    have hr2 : r ∈ nonEmptyRoots roots := (sortStrings_perm _).subset hr
    unfold nonEmptyRoots at hr2
    obtain ⟨e, he, rfl⟩ := List.mem_map.mp hr2
    have he2 : e ∈ roots := List.mem_of_mem_filter he
    rw [(hcop e he2).1.length_eq]
    exact length_le_totalShards roots e he2
  · exact ((sortStrings_perm _).flatMap_right _).trans
      (flatMap_copied_perm _ roots (fun e he => (hcop e he).1))

/-- C5: the order is built in rounds over the root names in ascending order,
round `r` taking the `r`-th shard of the private copy of every root that has
more than `r` shards; the private copy of a root is a rearrangement of its
shard list, and is that list itself with a nil generator; the order holds
every shard of every root exactly once and has as many entries as there are
shards; for a root `rootA` with two shards and a root `rootB` with one, the
roots of the order are `rootA`, `rootB`, `rootA`. -/
theorem buildRoundRobinOrder_rounds {σ : Type} (roots : List (String × List String))
    (rng : Option (rand.Rand σ)) (hmap : (roots.map Prod.fst).Nodup) :
    ∃ (copied : String → List String) (order : List orderEntry) (rng1 : Option (rand.Rand σ)),
      buildRoundRobinOrder roots rng = some (order, rng1) ∧
      (∀ e ∈ roots, (copied e.1).Perm e.2) ∧
      (rng = none → ∀ e ∈ roots, copied e.1 = e.2) ∧
      (sortStrings (nonEmptyRoots roots)).Sorted (fun a b => a < b) ∧
      (sortStrings (nonEmptyRoots roots)).Perm (nonEmptyRoots roots) ∧
      order = (List.range (totalShards roots)).flatMap (fun r =>
        (sortStrings (nonEmptyRoots roots)).filterMap (fun root =>
          ((copied root)[r]?).map (fun shard => (⟨root, shard⟩ : orderEntry)))) ∧
      order.Perm (allShards roots) ∧
      order.length = totalShards roots ∧
      (∀ a0 a1 b0 : String,
        (buildRoundRobinOrder [("rootA", [a0, a1]), ("rootB", [b0])] rng).map
            (fun res => res.1.map (fun e => e.root)) = some ["rootA", "rootB", "rootA"]) := by
  have hcop := copyRoots_copied_perm roots (⟨[], fun _ => [], rng⟩ : CopyState σ) hmap
    (fun _ _ => rfl)
  have hperm := roundRobinRounds_copied_perm roots rng hmap
  refine ⟨_, _, _, buildRoundRobinOrder_eq roots rng hmap, fun e he => (hcop e he).1,
    fun hn e he => (hcop e he).2 hn, sortStrings_sorted _ (nonEmptyRoots_nodup roots hmap),
    sortStrings_perm _, rfl, hperm, ?_, ?_⟩
  · rw [hperm.length_eq, length_allShards]
  · intro a0 a1 b0
    have hmap2 : (([("rootA", [a0, a1]), ("rootB", [b0])] :
        List (String × List String)).map Prod.fst).Nodup := by
      simp only [List.map_cons, List.map_nil]
      decide
    have hc := copyRoots_copied_perm [("rootA", [a0, a1]), ("rootB", [b0])]
      (⟨[], fun _ => [], rng⟩ : CopyState σ) hmap2 (fun _ _ => rfl)
    have hA := (hc ("rootA", [a0, a1]) (by simp)).1
    have hB := (hc ("rootB", [b0]) (by simp)).1
    rw [buildRoundRobinOrder_eq _ rng hmap2]
    have hs : sortStrings (nonEmptyRoots [("rootA", [a0, a1]), ("rootB", [b0])]) =
        ["rootA", "rootB"] := by
      simp [nonEmptyRoots, sortStrings]
      decide
    rw [hs]
    generalize (copyRoots [("rootA", [a0, a1]), ("rootB", [b0])]
      (⟨[], fun _ => [], rng⟩ : CopyState σ)).copied = copied at hA hB
    simp only at hA hB
    have hlA := hA.length_eq
    have hlB := hB.length_eq
    match hcA : copied "rootA", hcB : copied "rootB", hlA, hlB with
    | [x, y], [z], _, _ =>
      simp [roundRobinRounds, totalShards, List.range_succ, hcA, hcB]

theorem buildRoundRobinOrder_rounds_witness :
    ∃ (order : List orderEntry) (rng1 : Option (rand.Rand Nat)),
      buildRoundRobinOrder
          [("/rootB", ["/rootB/shard-000001.tar"]),
           ("/rootA", ["/rootA/shard-000000.tar", "/rootA/shard-000002.tar"])]
          (some counterRand) = some (order, rng1) ∧
        order.length = 3 := by
  obtain ⟨_, order, rng1, h1, _, _, _, _, _, _, h8, _⟩ :=
    buildRoundRobinOrder_rounds
      [("/rootB", ["/rootB/shard-000001.tar"]),
       ("/rootA", ["/rootA/shard-000000.tar", "/rootA/shard-000002.tar"])]
      (some counterRand) (by decide)
  exact ⟨order, rng1, h1, h8⟩

theorem roundRobinRounds_two_roots (rootA rootB : String) : ∀ (k rounds : Nat)
    (copied : String → List String),
    k < (copied rootA).length → k < (copied rootB).length → k < rounds →
    ((roundRobinRounds [rootA, rootB] copied rounds)[2 * k]?).map (fun e => e.root) = some rootA ∧
    ((roundRobinRounds [rootA, rootB] copied rounds)[2 * k + 1]?).map (fun e => e.root) =
      some rootB
  | _, 0, _, _, _, h => by omega
  | k, rounds + 1, copied, hA, hB, _ => by
      rw [roundRobinRounds_succ]
      match hcA : copied rootA, hcB : copied rootB with
      | [], _ => rw [hcA] at hA; simp at hA
      | _ :: _, [] => rw [hcB] at hB; simp at hB
      | a :: ta, b :: tb =>
        simp only [List.filterMap_cons, List.filterMap_nil, hcA, hcB, List.getElem?_cons_zero,
          Option.map_some']
        cases k with
        | zero => simp
        | succ k =>
          have hA2 : k < ((fun r => (copied r).tail) rootA).length := by
            simp only [hcA, List.tail_cons]; rw [hcA] at hA; simpa using hA
          have hB2 : k < ((fun r => (copied r).tail) rootB).length := by
            simp only [hcB, List.tail_cons]; rw [hcB] at hB; simpa using hB
          have hr : k < rounds := by omega
          have ih := roundRobinRounds_two_roots rootA rootB k rounds
            (fun r => (copied r).tail) hA2 hB2 hr
          have e1 : 2 * (k + 1) = (2 * k) + 1 + 1 := by ring
          have e2 : 2 * (k + 1) + 1 = (2 * k + 1) + 1 + 1 := by ring
          rw [e2, e1]
          simpa using ih

theorem totalShards_pair (rootA rootB : String) (shardsA shardsB : List String) :
    totalShards [(rootA, shardsA), (rootB, shardsB)] = shardsA.length + shardsB.length := by
  simp [totalShards]

/-- C6: two roots with `m` and `n` shards, `1 ≤ m ≤ n`, the shard paths all
different, the map visited in either order: in the order of one cycle, for
every `k < m` the entries `2k` and `2k+1` belong to the first and to the
second root in name order, so the first `2m` entries alternate strictly
between the two roots; and no shard path occurs twice. -/
theorem buildRoundRobinOrder_two_roots_alternate {σ : Type} (rootA rootB : String)
    (shardsA shardsB : List String) (roots : List (String × List String))
    (rng : Option (rand.Rand σ))
    (hlt : rootA < rootB)
    (hroots : roots = [(rootA, shardsA), (rootB, shardsB)] ∨
      roots = [(rootB, shardsB), (rootA, shardsA)])
    (hm : 1 ≤ min shardsA.length shardsB.length)
    (hpaths : (shardsA ++ shardsB).Nodup) :
    ∃ (order : List orderEntry) (rng1 : Option (rand.Rand σ)),
      buildRoundRobinOrder roots rng = some (order, rng1) ∧
      (∀ k, k < min shardsA.length shardsB.length →
        (order[2 * k]?).map (fun e => e.root) = some rootA ∧
        (order[2 * k + 1]?).map (fun e => e.root) = some rootB) ∧
      (order.map (fun e => e.path)).Nodup := by
  have hne : rootA ≠ rootB := ne_of_lt hlt
  have hmap : (roots.map Prod.fst).Nodup := by
    rcases hroots with h | h <;> subst h <;> simp [hne, Ne.symm hne]
  have hA0 : shardsA ≠ [] := by intro h; simp [h] at hm
  have hB0 : shardsB ≠ [] := by intro h; simp [h] at hm
  have hnames : sortStrings (nonEmptyRoots roots) = [rootA, rootB] := by
    apply List.eq_of_perm_of_sorted (r := fun a b : String => a < b)
    · refine (sortStrings_perm _).trans ?_
      rcases hroots with h | h <;> subst h
      · simp [nonEmptyRoots, List.filter_cons, hA0, hB0]
      · have e : nonEmptyRoots [(rootB, shardsB), (rootA, shardsA)] = [rootB, rootA] := by
          simp [nonEmptyRoots, List.filter_cons, hA0, hB0]
        rw [e]
        exact List.Perm.swap _ _ _
    · exact sortStrings_sorted _ (nonEmptyRoots_nodup roots hmap)
    · exact List.sorted_cons.mpr ⟨fun b hb => by
        rw [List.mem_singleton.mp hb]; exact hlt, List.sorted_singleton _⟩
  have hcop := copyRoots_copied_perm roots (⟨[], fun _ => [], rng⟩ : CopyState σ) hmap
    (fun _ _ => rfl)
  have hcA : ((copyRoots roots (⟨[], fun _ => [], rng⟩ : CopyState σ)).copied rootA).Perm
      shardsA := by
    rcases hroots with h | h <;> subst h
    · exact (hcop (rootA, shardsA) (by simp)).1
    · exact (hcop (rootA, shardsA) (by simp)).1
  have hcB : ((copyRoots roots (⟨[], fun _ => [], rng⟩ : CopyState σ)).copied rootB).Perm
      shardsB := by
    rcases hroots with h | h <;> subst h
    · exact (hcop (rootB, shardsB) (by simp)).1
    · exact (hcop (rootB, shardsB) (by simp)).1
  have htot : totalShards roots = shardsA.length + shardsB.length := by
    rcases hroots with h | h <;> subst h
    · exact totalShards_pair _ _ _ _
    · rw [totalShards_pair]; omega
  have hperm := roundRobinRounds_copied_perm roots rng hmap
  refine ⟨_, _, buildRoundRobinOrder_eq roots rng hmap, ?_, ?_⟩
  · intro k hk
    rw [hnames]
    apply roundRobinRounds_two_roots
    · rw [hcA.length_eq]; omega
    · rw [hcB.length_eq]; omega
    · rw [htot]; omega
  · rw [(hperm.map (fun e => e.path)).nodup_iff]
    rcases hroots with h | h <;> subst h
    · simpa [allShards, List.flatMap_cons, Function.comp_def] using hpaths
    · have : (shardsB ++ shardsA).Nodup := (List.perm_append_comm.nodup_iff).mp hpaths
      simpa [allShards, List.flatMap_cons, Function.comp_def] using this

theorem buildRoundRobinOrder_two_roots_alternate_witness :
    ∃ (order : List orderEntry) (rng1 : Option (rand.Rand Nat)),
      buildRoundRobinOrder
          [("/rootB", ["/rootB/shard-000001.tar"]),
           ("/rootA", ["/rootA/shard-000000.tar", "/rootA/shard-000002.tar"])]
          (some counterRand) = some (order, rng1) ∧
      (∀ k, k < min ["/rootA/shard-000000.tar", "/rootA/shard-000002.tar"].length
                    ["/rootB/shard-000001.tar"].length →
        (order[2 * k]?).map (fun e => e.root) = some "/rootA" ∧
        (order[2 * k + 1]?).map (fun e => e.root) = some "/rootB") ∧
      (order.map (fun e => e.path)).Nodup :=
  buildRoundRobinOrder_two_roots_alternate "/rootA" "/rootB"
    ["/rootA/shard-000000.tar", "/rootA/shard-000002.tar"] ["/rootB/shard-000001.tar"]
    [("/rootB", ["/rootB/shard-000001.tar"]),
     ("/rootA", ["/rootA/shard-000000.tar", "/rootA/shard-000002.tar"])]
    (some counterRand)
    (String.lt_iff_toList_lt.mpr (by decide)) (Or.inr rfl) (by decide) (by decide)

/-- C2 (failing input): the map with the two roots `A` and `B` of two shards
each, and the same freshly seeded generator; when `range` visits `A` first
the order differs from the one obtained when it visits `B` first. -/
theorem buildRoundRobinOrder_depends_on_visit_order :
    (buildRoundRobinOrder [("A", ["a0", "a1"]), ("B", ["b0", "b1"])] (some counterRand)).map
        (fun res => res.1) =
      some [⟨"A", "a1"⟩, ⟨"B", "b0"⟩, ⟨"A", "a0"⟩, ⟨"B", "b1"⟩] ∧
    (buildRoundRobinOrder [("B", ["b0", "b1"]), ("A", ["a0", "a1"])] (some counterRand)).map
        (fun res => res.1) =
      some [⟨"A", "a0"⟩, ⟨"B", "b1"⟩, ⟨"A", "a1"⟩, ⟨"B", "b0"⟩] := by
  constructor <;> decide

theorem wrapInt64_succ (x : Int) : wrapInt64 (wrapInt64 x + 1) = wrapInt64 (x + 1) := by
  unfold wrapInt64
  omega

theorem sendJobs_numbered {σ : Type} (ctx : Context) :
    ∀ (order : List orderEntry) (st : ProducerState σ), JobsNumbered st →
      (∀ st1, sendJobs ctx order st = Except.error st1 → JobsNumbered st1) ∧
      (∀ st1, sendJobs ctx order st = Except.ok st1 → JobsNumbered st1)
  | [], st, h => by
      simp only [sendJobs]
      constructor
      · intro st1 h1; cases h1
      · intro st1 h1; cases h1; exact h
  | entry :: rest, st, h => by
      unfold sendJobs
      by_cases hd : ctx.done st.tick = true
      · simp only [hd, if_true]
        constructor
        · intro st1 h1; cases h1; exact h
        · intro st1 h1; cases h1
      · simp only [hd, if_false]
        apply sendJobs_numbered ctx rest
        constructor
        · simp only [List.length_append, List.length_singleton]
          rw [h.1, wrapInt64_succ]
          push_cast
          rfl
        · intro k j hk
          by_cases hlt : k < st.jobs.length
          · rw [List.getElem?_append_left hlt] at hk
            exact h.2 k j hk
          · have hk2 : k = st.jobs.length := by
              by_contra hne
              rw [List.getElem?_eq_none (by simp; omega)] at hk
              cases hk
            subst hk2
            simp at hk
            subst hk
            exact h.1

theorem produceLoop_numbered {σ : Type} (ctx : Context) (roots : List (String × List String))
    (hmap : (roots.map Prod.fst).Nodup) :
    ∀ (cycles : Nat) (st : ProducerState σ), JobsNumbered st →
      ∃ st1, produceLoop ctx roots cycles st = some st1 ∧ JobsNumbered st1
  | 0, st, h => ⟨st, rfl, h⟩
  | cycles + 1, st, h => by
      unfold produceLoop
      rw [buildRoundRobinOrder_eq roots st.rng hmap]
      simp only
      split_ifs with h0 hd
      · exact ⟨_, rfl, h⟩
      · exact produceLoop_numbered ctx roots hmap cycles _ h
      · have hn : JobsNumbered ({ st with rng := (copyRoots roots ⟨[], fun _ => [], st.rng⟩).rng } :
            ProducerState σ) := h
        cases hs : sendJobs ctx (roundRobinRounds (sortStrings (nonEmptyRoots roots))
            (copyRoots roots ⟨[], fun _ => [], st.rng⟩).copied (totalShards roots))
            { st with rng := (copyRoots roots ⟨[], fun _ => [], st.rng⟩).rng } with
        | error st1 =>
          exact ⟨st1, rfl, (sendJobs_numbered ctx _ _ hn).1 st1 hs⟩
        | ok st1 =>
          exact produceLoop_numbered ctx roots hmap cycles st1
            ((sendJobs_numbered ctx _ _ hn).2 st1 hs)

/-- C9: the `k`-th job sent by `produceJobs` carries the sequence id `k`
(ids are `int64`, so for `k` below `2^63`): the ids increase strictly in the
order of sending, also from one cycle to the next; `jobID` has advanced once
per job sent and not otherwise; and the first id sent is the `nextID` the
aggregator starts from. -/
theorem produceJobs_sequence_ids {σ : Type} (ctx : Context)
    (roots : List (String × List String)) (rng : Option (rand.Rand σ)) (cycles : Nat)
    (hmap : (roots.map Prod.fst).Nodup) :
    ∃ st, produceJobs ctx roots rng cycles = some st ∧
      (∀ (k : Nat) (j : shardJob), st.jobs[k]? = some j → k < 2 ^ 63 → j.id = (k : Int)) ∧
      (∀ (i k : Nat) (a b : shardJob), st.jobs[i]? = some a → st.jobs[k]? = some b →
        i < k → k < 2 ^ 63 → a.id < b.id) ∧
      (st.jobs.length < 2 ^ 63 → st.jobID = (st.jobs.length : Int)) ∧
      (∀ j : shardJob, st.jobs[0]? = some j → j.id = AggState.init.nextID) := by
  obtain ⟨st, hst, hnum⟩ := produceLoop_numbered ctx roots hmap cycles
    ({ jobID := 0, rng := rng, jobs := [], tick := 0 } : ProducerState σ)
    ⟨by simp [wrapInt64], by intro k j h; simp at h⟩
  have hid : ∀ (k : Nat) (j : shardJob), st.jobs[k]? = some j → k < 2 ^ 63 →
      j.id = (k : Int) := by
    intro k j hk hlt
    rw [hnum.2 k j hk]
    exact wrapInt64_of_lt _ (by omega) (by exact_mod_cast hlt)
  refine ⟨st, hst, hid, ?_, ?_, ?_⟩
  · intro i k a b ha hb hik hk
    rw [hid i a ha (by omega), hid k b hb hk]
    exact_mod_cast hik
  · intro hlen
    rw [hnum.1]
    exact wrapInt64_of_lt _ (by omega) (by exact_mod_cast hlen)
  · intro j hj
    rw [hid 0 j hj (by norm_num)]
    rfl

theorem produceJobs_sequence_ids_witness :
    ∃ st, produceJobs Context.background
        [("/rootA", ["/rootA/shard-000000.tar", "/rootA/shard-000002.tar"]),
         ("/rootB", ["/rootB/shard-000001.tar"])] (some counterRand) 2 = some st ∧
      (∀ (k : Nat) (j : shardJob), st.jobs[k]? = some j → k < 2 ^ 63 → j.id = (k : Int)) ∧
      (∀ (i k : Nat) (a b : shardJob), st.jobs[i]? = some a → st.jobs[k]? = some b →
        i < k → k < 2 ^ 63 → a.id < b.id) ∧
      (st.jobs.length < 2 ^ 63 → st.jobID = (st.jobs.length : Int)) ∧
      (∀ j : shardJob, st.jobs[0]? = some j → j.id = AggState.init.nextID) :=
  produceJobs_sequence_ids Context.background
    [("/rootA", ["/rootA/shard-000000.tar", "/rootA/shard-000002.tar"]),
     ("/rootB", ["/rootB/shard-000001.tar"])] (some counterRand) 2 (by decide)

/-- Two cycles over three shards: six jobs, numbered 0 to 5. -/
theorem produceJobs_two_cycles :
    (produceJobs Context.background
        [("/rootA", ["/rootA/shard-000000.tar", "/rootA/shard-000002.tar"]),
         ("/rootB", ["/rootB/shard-000001.tar"])] (some counterRand) 2).map
      (fun st => (st.jobs.map (fun j => (j.id, j.root)), st.jobID)) =
    some ([(0, "/rootA"), (1, "/rootB"), (2, "/rootA"), (3, "/rootA"), (4, "/rootB"),
      (5, "/rootA")], 6) := by
  decide

/-- C10: `StartSampler` returns a non-nil error, nil channels and starts no
task when `opts.Roots` is empty or the roots hold no shard at all; with at
least one shard it returns a nil error and two non-nil channels. -/
theorem StartSampler_validation (opts : SamplerOptions) :
    ((opts.Roots.length = 0 ∨ totalShards opts.Roots = 0) →
      (StartSampler opts).err ≠ none ∧ (StartSampler opts).out = none ∧
        (StartSampler opts).errCh = none ∧ (StartSampler opts).tasks = []) ∧
    (0 < totalShards opts.Roots →
      (StartSampler opts).err = none ∧ (StartSampler opts).out ≠ none ∧
        (StartSampler opts).errCh ≠ none) := by
  constructor
  · intro h
    unfold StartSampler
    by_cases h1 : opts.Roots.length = 0
    · simp [h1]
    · have h2 : totalShards opts.Roots = 0 := by
        rcases h with h | h
        · exact absurd h h1
        · exact h
      simp [h1, h2]
  · intro h
    have h1 : opts.Roots.length ≠ 0 := by
      intro h0
      have : opts.Roots = [] := List.eq_nil_of_length_eq_zero h0
      rw [this] at h
      simp [totalShards] at h
    have h2 : totalShards opts.Roots ≠ 0 := by omega
    unfold StartSampler
    simp [h1, h2]

theorem StartSampler_validation_witness :
    ((StartSampler ⟨[("/rootA", [])], 7, 2, 4⟩).err ≠ none ∧
      (StartSampler ⟨[("/rootA", [])], 7, 2, 4⟩).out = none ∧
      (StartSampler ⟨[("/rootA", [])], 7, 2, 4⟩).errCh = none ∧
      (StartSampler ⟨[("/rootA", [])], 7, 2, 4⟩).tasks = []) ∧
    ((StartSampler ⟨[("/rootA", ["/rootA/shard-000000.tar"])], 0, 0, 0⟩).err = none ∧
      (StartSampler ⟨[("/rootA", ["/rootA/shard-000000.tar"])], 0, 0, 0⟩).out ≠ none ∧
      (StartSampler ⟨[("/rootA", ["/rootA/shard-000000.tar"])], 0, 0, 0⟩).errCh ≠ none) :=
  ⟨(StartSampler_validation ⟨[("/rootA", [])], 7, 2, 4⟩).1 (Or.inr (by decide)),
   (StartSampler_validation ⟨[("/rootA", ["/rootA/shard-000000.tar"])], 0, 0, 0⟩).2 (by decide)⟩

theorem PendingMap.mem_set (m : PendingMap) (key : String) (part : partial_)
    (x : String × partial_) (hx : x ∈ m.set key part) :
    x = (key, part) ∨ (x ∈ m ∧ x.1 ≠ key) := by
  unfold PendingMap.set at hx
  split_ifs at hx with h
  · obtain ⟨y, hy, rfl⟩ := List.mem_map.mp hx
    by_cases hk : y.1 = key
    · left; simp [hk]
    · right; simp [hk, hy]
  · rcases List.mem_append.mp hx with h1 | h1
    · right
      refine ⟨h1, fun hk => h ?_⟩
      exact List.any_eq_true.mpr ⟨x, h1, by simp [hk]⟩
    · left; simpa using h1

theorem PendingMap.keys_set (m : PendingMap) (key : String) (part : partial_) :
    (m.set key part).map Prod.fst =
      if m.any (fun e => e.1 = key) then m.map Prod.fst else m.map Prod.fst ++ [key] := by
  unfold PendingMap.set
  split_ifs with h
  · rw [List.map_map]
    apply List.map_congr_left
    intro x _
    by_cases hk : x.1 = key <;> simp [hk]
  · simp

theorem PendingMap.nodup_set (m : PendingMap) (key : String) (part : partial_)
    (h : (m.map Prod.fst).Nodup) : ((m.set key part).map Prod.fst).Nodup := by
  rw [PendingMap.keys_set]
  split_ifs with hk
  · exact h
  · rw [List.nodup_append]
    refine ⟨h, List.nodup_singleton _, ?_⟩
    intro a ha hb
    rw [List.mem_singleton] at hb
    subst hb
    apply hk
    obtain ⟨x, hx, rfl⟩ := List.mem_map.mp ha
    exact List.any_eq_true.mpr ⟨x, hx, by simp⟩

theorem PendingMap.get_set_self (m : PendingMap) (key : String) (part : partial_) :
    (m.set key part).get key = some part := by
  unfold PendingMap.get PendingMap.set
  split_ifs with h
  · obtain ⟨x, hx, hk⟩ := List.any_eq_true.mp h
    induction m with
    | nil => simp at hx
    | cons y rest ih =>
      by_cases hy : y.1 = key
      · simp [List.find?_cons, hy]
      · have hx2 : x ∈ rest := by
          rcases List.mem_cons.mp hx with rfl | h2
          · exact absurd (by simpa using hk) hy
          · exact h2
        have := ih (List.any_eq_true.mpr ⟨x, hx2, hk⟩) hx2
        simpa [List.find?_cons, hy] using this
  · have hnone : m.find? (fun e => decide (e.1 = key)) = none := by
      rw [List.find?_eq_none]
      intro x hx hk
      exact h (List.any_eq_true.mpr ⟨x, hx, hk⟩)
    simp [List.find?_append, hnone]

theorem PendingMap.find_map_other (key key1 : String) (part : partial_) (hne : key1 ≠ key) :
    ∀ (m : PendingMap),
      ((m.map (fun e => if e.1 = key then (key, part) else e)).find?
          (fun e => decide (e.1 = key1))).map (fun e => e.2) =
        (m.find? (fun e => decide (e.1 = key1))).map (fun e => e.2)
  | [] => by simp
  | y :: rest => by
      have ih := PendingMap.find_map_other key key1 part hne rest
      by_cases hy : y.1 = key
      · have hy1 : ¬ y.1 = key1 := fun h1 => hne (h1 ▸ hy)
        simp only [List.map_cons, hy, if_true, List.find?_cons, hy1, decide_False,
          Ne.symm hne]
        exact ih
      · by_cases hy1 : y.1 = key1
        · rw [List.map_cons, if_neg hy, List.find?_cons, List.find?_cons]
          simp [hy1]
        · rw [List.map_cons, if_neg hy, List.find?_cons, List.find?_cons]
          simpa [hy1] using ih

theorem PendingMap.get_set_other (m : PendingMap) (key key1 : String) (part : partial_)
    (hne : key1 ≠ key) : (m.set key part).get key1 = m.get key1 := by
  unfold PendingMap.get PendingMap.set
  split_ifs with h
  · exact PendingMap.find_map_other key key1 part hne m
  · rw [List.find?_append]
    cases hf : List.find? (fun e => decide (e.1 = key1)) m with
    | some x => rfl
    | none => simp [List.find?_cons, Ne.symm hne]

theorem PendingMap.length_set (m : PendingMap) (key : String) (part : partial_) :
    (m.set key part).length = if m.get key = none then m.length + 1 else m.length := by
  unfold PendingMap.set PendingMap.get
  by_cases h : (m.any fun e => decide (e.1 = key)) = true
  · have hf : m.find? (fun e => decide (e.1 = key)) ≠ none := by
      rw [Ne, List.find?_eq_none]
      push_neg
      obtain ⟨x, hx, hk⟩ := List.any_eq_true.mp h
      exact ⟨x, hx, hk⟩
    simp [h, hf]
  · have hf : m.find? (fun e => decide (e.1 = key)) = none := by
      rw [List.find?_eq_none]
      intro x hx hk
      exact h (List.any_eq_true.mpr ⟨x, hx, hk⟩)
    simp [h, hf]

theorem PendingMap.mem_delete (m : PendingMap) (key : String) (x : String × partial_) :
    x ∈ m.delete key ↔ x ∈ m ∧ x.1 ≠ key := by
  simp [PendingMap.delete]

theorem PendingMap.nodup_delete (m : PendingMap) (key : String)
    (h : (m.map Prod.fst).Nodup) : ((m.delete key).map Prod.fst).Nodup :=
  h.sublist ((List.filter_sublist m).map Prod.fst)

theorem PendingMap.get_delete_self (m : PendingMap) (key : String) :
    (m.delete key).get key = none := by
  unfold PendingMap.get PendingMap.delete
  simp only [Option.map_eq_none', List.find?_eq_none]
  intro x hx
  simp at hx
  simpa using hx.2

theorem PendingMap.get_delete_other (m : PendingMap) (key key1 : String) (hne : key1 ≠ key) :
    (m.delete key).get key1 = m.get key1 := by
  unfold PendingMap.get PendingMap.delete
  induction m with
  | nil => simp
  | cons y rest ih =>
    by_cases hy : y.1 = key
    · have hy1 : ¬ y.1 = key1 := fun h1 => hne (h1 ▸ hy)
      rw [List.filter_cons, if_neg (by simpa using hy), List.find?_cons]
      simpa [hy1] using ih
    · rw [List.filter_cons, if_pos (by simpa using hy), List.find?_cons, List.find?_cons]
      by_cases hy1 : y.1 = key1
      · simp [hy1]
      · simpa [hy1] using ih

theorem PendingMap.get_of_mem (m : PendingMap) (h : (m.map Prod.fst).Nodup)
    (x : String × partial_) (hx : x ∈ m) : m.get x.1 = some x.2 := by
  unfold PendingMap.get
  induction m with
  | nil => simp at hx
  | cons y rest ih =>
    simp only [List.map_cons, List.nodup_cons] at h
    rcases List.mem_cons.mp hx with rfl | h2
    · simp [List.find?_cons]
    · have hne : ¬ y.1 = x.1 := by
        intro he
        exact h.1 (he ▸ List.mem_map.mpr ⟨x, h2, rfl⟩)
      simpa [List.find?_cons, hne] using ih h.2 h2

theorem PendingMap.mem_of_get (m : PendingMap) (key : String) (part : partial_)
    (h : m.get key = some part) : (key, part) ∈ m := by
  unfold PendingMap.get at h
  obtain ⟨x, hx, rfl⟩ := Option.map_eq_some'.mp h
  have h1 := List.find?_some hx
  have h2 := List.mem_of_find?_eq_some hx
  have : x.1 = key := by simpa using h1
  rw [← this]
  exact h2

theorem PendingMap.length_delete (m : PendingMap) (key : String) (part : partial_)
    (h : (m.map Prod.fst).Nodup) (hg : m.get key = some part) :
    (m.delete key).length + 1 = m.length := by
  unfold PendingMap.delete
  have hmem := PendingMap.mem_of_get m key part hg
  induction m with
  | nil => simp at hmem
  | cons y rest ih =>
    simp only [List.map_cons, List.nodup_cons] at h
    by_cases hy : y.1 = key
    · have hrest : rest.filter (fun e => decide (e.1 ≠ key)) = rest := by
        rw [List.filter_eq_self]
        intro x hx
        have : x.1 ≠ key := by
          intro he
          exact h.1 (hy ▸ he ▸ List.mem_map.mpr ⟨x, hx, rfl⟩)
        simpa using this
      rw [List.filter_cons, if_neg (by simpa using hy), hrest]
      rfl
    · have hmem2 : (key, part) ∈ rest := by
        rcases List.mem_cons.mp hmem with h1 | h1
        · exact absurd (by rw [← h1]) hy
        · exact h1
      have hg2 : PendingMap.get rest key = some part := by
        have := PendingMap.get_of_mem rest h.2 (key, part) hmem2
        simpa using this
      have := ih h.2 hg2 hmem2
      rw [List.filter_cons, if_pos (by simpa using hy)]
      simp only [List.length_cons]
      omega

theorem storeEntry_eq_set (m : PendingMap) (e : tarEntry) (m1 : PendingMap)
    (h : storeEntry m e = Except.ok (some m1)) :
    ∃ part, m1 = m.set (entryKey e) part := by
  unfold storeEntry at h
  split_ifs at h with h1 h2
  · cases hr : e.readErr with
    | some err => simp [hr] at h
    | none =>
      simp only [hr] at h
      exact ⟨_, (Option.some.inj (Except.ok.inj h)).symm⟩
  · cases hr : e.readErr with
    | some err => simp [hr] at h
    | none =>
      simp only [hr] at h
      cases hp : parseLabel e.payload with
      | none => simp [hp] at h
      | some label =>
        simp only [hp] at h
        exact ⟨_, (Option.some.inj (Except.ok.inj h)).symm⟩
  · simp at h

theorem emitReady_ok (ctx : Option Context) (key : String) (st st1 : StreamState)
    (part : partial_) (hget : st.pending.get key = some part)
    (h : emitReady ctx key st = Except.ok st1) :
    st1.errCh = st.errCh ∧
    ((part.ready = true ∧ st1.pending = st.pending.delete key ∧
        st1.out = st.out ++ [⟨key, part.image, part.label.getD 0⟩]) ∨
      (part.ready = false ∧ st1.pending = st.pending ∧ st1.out = st.out)) := by
  unfold emitReady at h
  rw [hget] at h
  simp only at h
  by_cases hr : part.ready = true
  · rw [if_pos hr] at h
    by_cases hd : ctxDone ctx st.tick = true
    · rw [if_pos hd] at h; cases h
    · rw [if_neg hd] at h
      cases h
      exact ⟨rfl, Or.inl ⟨hr, rfl, rfl⟩⟩
  · rw [if_neg hr] at h
    cases h
    exact ⟨rfl, Or.inr ⟨by simpa using hr, rfl, rfl⟩⟩

theorem streamStep_ok (ctx : Option Context) (cap : Int) (st st1 : StreamState) (e : tarEntry)
    (h : streamStep ctx cap st e = Except.ok st1)
    (hok : PendingOK st.pending) (hcap : (st.pending.length : Int) ≤ cap) :
    PendingOK st1.pending ∧ (st1.pending.length : Int) ≤ cap ∧ st1.errCh = st.errCh := by
  unfold streamStep at h
  by_cases hd : ctxDone ctx st.tick = true
  · rw [if_pos hd] at h; cases h
  rw [if_neg hd] at h
  by_cases hdir : e.IsDir = true
  · rw [if_pos hdir] at h; cases h; exact ⟨hok, hcap, rfl⟩
  rw [if_neg hdir] at h
  cases hs : storeEntry st.pending e with
  | error err => rw [hs] at h; cases h
  | ok res =>
    cases res with
    | none => rw [hs] at h; cases h; exact ⟨hok, hcap, rfl⟩
    | some m1 =>
      rw [hs] at h
      simp only at h
      obtain ⟨part, rfl⟩ := storeEntry_eq_set _ _ _ hs
      by_cases hover : ((st.pending.set (entryKey e) part).length : Int) > cap
      · rw [if_pos hover] at h; cases h
      rw [if_neg hover] at h
      have hget := PendingMap.get_set_self st.pending (entryKey e) part
      obtain ⟨herr, hcase⟩ := emitReady_ok ctx (entryKey e)
        { st with pending := st.pending.set (entryKey e) part, tick := st.tick + 1 } st1 part
        hget h
      have hnd := PendingMap.nodup_set st.pending (entryKey e) part hok.1
      rcases hcase with ⟨_, hp, _⟩ | ⟨hnr, hp, _⟩
      · rw [hp]
        refine ⟨⟨PendingMap.nodup_delete _ _ hnd, ?_⟩, ?_, herr⟩
        · intro x hx
          obtain ⟨hx1, hx2⟩ := (PendingMap.mem_delete _ _ _).mp hx
          rcases PendingMap.mem_set _ _ _ _ hx1 with rfl | ⟨hx3, _⟩
          · exact absurd rfl hx2
          · exact hok.2 x hx3
        · have : (PendingMap.delete (st.pending.set (entryKey e) part) (entryKey e)).length ≤
              (st.pending.set (entryKey e) part).length := List.length_filter_le _ _
          simp only at this ⊢
          omega
      · rw [hp]
        refine ⟨⟨hnd, ?_⟩, by simpa using hover, herr⟩
        intro x hx
        rcases PendingMap.mem_set _ _ _ _ hx with rfl | ⟨hx3, _⟩
        · exact hnr
        · exact hok.2 x hx3

theorem streamSteps_ok (ctx : Option Context) (cap : Int) :
    ∀ (entries : List tarEntry) (st st1 : StreamState),
      streamSteps ctx cap entries st = Except.ok st1 →
      PendingOK st.pending → (st.pending.length : Int) ≤ cap →
      PendingOK st1.pending ∧ (st1.pending.length : Int) ≤ cap ∧ st1.errCh = st.errCh
  | [], st, st1, h, hok, hcap => by
      simp only [streamSteps] at h
      cases h
      exact ⟨hok, hcap, rfl⟩
  | e :: rest, st, st1, h, hok, hcap => by
      unfold streamSteps at h
      cases hs : streamStep ctx cap st e with
      | error st2 => rw [hs] at h; cases h
      | ok st2 =>
        rw [hs] at h
        obtain ⟨h1, h2, h3⟩ := streamStep_ok ctx cap st st2 e hs hok hcap
        obtain ⟨h4, h5, h6⟩ := streamSteps_ok ctx cap rest st2 st1 h h1 h2
        exact ⟨h4, h5, h6.trans h3⟩

theorem streamSteps_append (ctx : Option Context) (cap : Int) :
    ∀ (pre post : List tarEntry) (st : StreamState),
      streamSteps ctx cap (pre ++ post) st =
        match streamSteps ctx cap pre st with
        | Except.error st1 => Except.error st1
        | Except.ok st1 => streamSteps ctx cap post st1
  | [], post, st => by simp [streamSteps]
  | e :: pre, post, st => by
      simp only [List.cons_append, streamSteps]
      cases hs : streamStep ctx cap st e with
      | error st2 => rfl
      | ok st2 => exact streamSteps_append ctx cap pre post st2

theorem effectiveCap_pos (pendingCap : Int) : 0 < effectiveCap pendingCap := by
  unfold effectiveCap defaultPendingCap
  split_ifs <;> omega

/-- C7: `pendingCap > 0`; if, after any entries `pre` have been processed
without a `return`, storing the next entry leaves more than `pendingCap` keys
in the pending map, then the terminal status is `ErrPendingOverflow` and the
samples emitted are exactly those emitted before that entry; and the map that
is carried into the processing of an entry never has more than `pendingCap`
keys. -/
theorem StreamShard_pending_overflow (ctx : Option Context) (archive : Archive)
    (pendingCap : Int) (pre post : List tarEntry) (e : tarEntry) (st : StreamState)
    (pending1 : PendingMap)
    (hcap : 0 < pendingCap)
    (hsplit : archive.entries = pre ++ e :: post)
    (hpre : streamSteps ctx pendingCap pre ⟨[], [], none, 0⟩ = Except.ok st)
    (hread : ctxDone ctx st.tick = false) (hdir : e.IsDir = false)
    (hstore : storeEntry st.pending e = Except.ok (some pending1))
    (hover : pendingCap < (pending1.length : Int)) :
    StreamShard ctx (Except.ok archive) pendingCap =
        ⟨st.out, some GoError.pendingOverflow⟩ ∧
      (st.pending.length : Int) ≤ pendingCap := by
  have heff : effectiveCap pendingCap = pendingCap := by
    unfold effectiveCap
    rw [if_neg (by omega)]
  have hinv := streamSteps_ok ctx pendingCap pre ⟨[], [], none, 0⟩ st hpre
    ⟨by simp, by simp⟩ (by simp; omega)
  refine ⟨?_, hinv.2.1⟩
  have hstep : streamStep ctx pendingCap st e =
      Except.error { st with pending := pending1, errCh := some GoError.pendingOverflow,
                             tick := st.tick + 1 } := by
    unfold streamStep
    rw [hread, hdir, hstore]
    simp only [Bool.false_eq_true, if_false]
    rw [if_pos (by omega)]
  unfold StreamShard streamLoop
  simp only [heff, hsplit]
  rw [streamSteps_append, hpre]
  simp only [streamSteps, hstep]

theorem StreamShard_pending_overflow_witness :
    StreamShard (some Context.background)
        (Except.ok ⟨[⟨"a.jpg", false, "x", none⟩, ⟨"a.cls", false, "3", none⟩,
          ⟨"b.jpg", false, "y", none⟩, ⟨"c.cls", false, "7", none⟩,
          ⟨"b.cls", false, "5", none⟩], none⟩) 1 =
        ⟨[⟨"a", "x", 3⟩], some GoError.pendingOverflow⟩ ∧
      ((([("b", ⟨"y", none⟩)] : PendingMap).length : Int) ≤ 1) :=
  StreamShard_pending_overflow (some Context.background)
    ⟨[⟨"a.jpg", false, "x", none⟩, ⟨"a.cls", false, "3", none⟩,
      ⟨"b.jpg", false, "y", none⟩, ⟨"c.cls", false, "7", none⟩,
      ⟨"b.cls", false, "5", none⟩], none⟩ 1
    [⟨"a.jpg", false, "x", none⟩, ⟨"a.cls", false, "3", none⟩, ⟨"b.jpg", false, "y", none⟩]
    [⟨"b.cls", false, "5", none⟩] ⟨"c.cls", false, "7", none⟩
    ⟨[("b", ⟨"y", none⟩)], [⟨"a", "x", 3⟩], none, 4⟩
    [("b", ⟨"y", none⟩), ("c", ⟨"", some 7⟩)]
    (by decide) rfl (by rfl) rfl rfl (by rfl) (by decide)

theorem PendingMap.eq_nil_of_get (m : PendingMap) (h : ∀ key, m.get key = none) : m = [] := by
  cases m with
  | nil => rfl
  | cons x rest =>
    have := h x.1
    simp [PendingMap.get, List.find?_cons] at this

theorem isLabelEntry_of_image (e : tarEntry) (h : isImageEntry e = true) :
    isLabelEntry e = false := by
  unfold isImageEntry at h
  unfold isLabelEntry
  simp only [decide_eq_true_eq] at h
  simp only [decide_eq_false_iff_not]
  intro hc
  rw [hc] at h
  revert h
  decide

theorem storeEntry_image (m : PendingMap) (e : tarEntry) (h : isImageEntry e = true)
    (hr : e.readErr = none) :
    storeEntry m e = Except.ok (some (m.set (entryKey e)
      { (m.get (entryKey e)).getD ⟨"", none⟩ with image := e.payload })) := by
  unfold isImageEntry at h
  simp only [decide_eq_true_eq] at h
  unfold storeEntry
  rw [if_pos h, hr]

theorem storeEntry_label (m : PendingMap) (e : tarEntry) (h : isLabelEntry e = true)
    (hr : e.readErr = none) (l : Int) (hl : parseLabel e.payload = some l) :
    storeEntry m e = Except.ok (some (m.set (entryKey e)
      { (m.get (entryKey e)).getD ⟨"", none⟩ with label := some l })) := by
  have hi : ¬ (entryExt e = ".jpg" ∨ entryExt e = ".jpeg" ∨ entryExt e = ".png") := by
    intro hc
    have := isLabelEntry_of_image e (by simpa [isImageEntry] using hc)
    rw [h] at this
    cases this
  unfold isLabelEntry at h
  simp only [decide_eq_true_eq] at h
  unfold storeEntry
  rw [if_neg hi, if_pos h, hr]
  simp only [hl]

/-- An iteration that stores a half for which the pair is not ready. -/
theorem streamStep_store (ctx : Option Context) (hctx : ∀ t, ctxDone ctx t = false)
    (cap : Int) (st : StreamState) (e : tarEntry) (part : partial_)
    (hdir : e.IsDir = false)
    (hstore : storeEntry st.pending e = Except.ok (some (st.pending.set (entryKey e) part)))
    (hlen : ((st.pending.set (entryKey e) part).length : Int) ≤ cap)
    (hready : part.ready = false) :
    streamStep ctx cap st e =
      Except.ok { st with pending := st.pending.set (entryKey e) part, tick := st.tick + 1 } := by
  unfold streamStep
  rw [hctx, hdir, hstore]
  simp only [Bool.false_eq_true, if_false]
  rw [if_neg (by omega)]
  unfold emitReady
  simp only [PendingMap.get_set_self, hready, Bool.false_eq_true, if_false]

/-- An iteration that stores the half that makes the pair ready. -/
theorem streamStep_emit (ctx : Option Context) (hctx : ∀ t, ctxDone ctx t = false)
    (cap : Int) (st : StreamState) (e : tarEntry) (part : partial_)
    (hdir : e.IsDir = false)
    (hstore : storeEntry st.pending e = Except.ok (some (st.pending.set (entryKey e) part)))
    (hlen : ((st.pending.set (entryKey e) part).length : Int) ≤ cap)
    (hready : part.ready = true) :
    streamStep ctx cap st e =
      Except.ok { st with
        pending := (st.pending.set (entryKey e) part).delete (entryKey e),
        out := st.out ++ [⟨entryKey e, part.image, part.label.getD 0⟩],
        tick := st.tick + 1 + 1 } := by
  unfold streamStep
  rw [hctx, hdir, hstore]
  simp only [Bool.false_eq_true, if_false]
  rw [if_neg (by omega)]
  unfold emitReady
  simp only [PendingMap.get_set_self, hready, if_true, hctx, Bool.false_eq_true, if_false]

theorem keys_cons_image (e : tarEntry) (rest : List tarEntry) (h : isImageEntry e = true) :
    imageKeys (e :: rest) = entryKey e :: imageKeys rest ∧
      labelKeys (e :: rest) = labelKeys rest := by
  have h2 := isLabelEntry_of_image e h
  simp [imageKeys, labelKeys, List.filter_cons, h, h2]

theorem keys_cons_label (e : tarEntry) (rest : List tarEntry) (h : isLabelEntry e = true) :
    imageKeys (e :: rest) = imageKeys rest ∧
      labelKeys (e :: rest) = entryKey e :: labelKeys rest := by
  have h2 : isImageEntry e = false := by
    cases hi : isImageEntry e with
    | false => rfl
    | true => have := isLabelEntry_of_image e hi; rw [h] at this; cases this
  simp [imageKeys, labelKeys, List.filter_cons, h, h2]

theorem imageKeys_append (a b : List tarEntry) :
    imageKeys (a ++ b) = imageKeys a ++ imageKeys b := by
  simp [imageKeys]

theorem labelKeys_append (a b : List tarEntry) :
    labelKeys (a ++ b) = labelKeys a ++ labelKeys b := by
  simp [labelKeys]

theorem PendingMap.mem_keys_iff (m : PendingMap) (hnd : (m.map Prod.fst).Nodup) (key : String) :
    key ∈ m.map Prod.fst ↔ m.get key ≠ none := by
  constructor
  · intro h
    obtain ⟨x, hx, rfl⟩ := List.mem_map.mp h
    rw [PendingMap.get_of_mem m hnd x hx]
    simp
  · intro h
    cases hg : m.get key with
    | none => exact absurd hg h
    | some part =>
      exact List.mem_map.mpr ⟨(key, part), PendingMap.mem_of_get m key part hg, rfl⟩

theorem openKeys_nodup (read : List tarEntry) (hi : (imageKeys read).Nodup)
    (hl : (labelKeys read).Nodup) : (openKeys read).Nodup := by
  unfold openKeys
  apply List.Nodup.append (hi.filter _) (hl.filter _)
  intro a ha hb
  simp only [List.mem_filter, decide_eq_true_eq] at ha hb
  exact ha.2 hb.1

/-- With every key having one image entry and one label entry, the pending
map between two iterations holds the keys of which one entry has been read. -/
theorem length_pending_eq_openKeys (all pre rest : List tarEntry) (hall : all = pre ++ rest)
    (hkeys : (imageKeys all).Nodup) (hpairs : (labelKeys all).Perm (imageKeys all))
    (m : PendingMap) (hnd : (m.map Prod.fst).Nodup) (hI : PairsPending all rest m) :
    m.length = (openKeys pre).length := by
  have hlk : (labelKeys all).Nodup := hpairs.nodup_iff.mpr hkeys
  have hmemall : ∀ key, key ∈ labelKeys all ↔ key ∈ imageKeys all := fun key => hpairs.mem_iff
  rw [hall, imageKeys_append] at hkeys hmemall
  rw [labelKeys_append] at hmemall
  rw [hall, labelKeys_append] at hlk
  obtain ⟨hi1, hi2, hi3⟩ := List.nodup_append.mp hkeys
  obtain ⟨hl1, hl2, hl3⟩ := List.nodup_append.mp hlk
  have hmem : ∀ key, key ∈ m.map Prod.fst ↔ key ∈ openKeys pre := by
    intro key
    rw [PendingMap.mem_keys_iff m hnd]
    obtain ⟨h1, h2, h3, h4⟩ := hI key
    have hall1 := hmemall key
    simp only [List.mem_append] at hall1
    have hd1 : key ∈ imageKeys pre → key ∉ imageKeys rest := fun a b => hi3 a b
    have hd2 : key ∈ labelKeys pre → key ∉ labelKeys rest := fun a b => hl3 a b
    simp only [openKeys, List.mem_append, List.mem_filter, decide_eq_true_eq]
    by_cases a : key ∈ imageKeys rest <;> by_cases b : key ∈ labelKeys rest
    · rw [h1 a b]
      have hP : key ∉ imageKeys pre := fun c => hd1 c a
      have hQ : key ∉ labelKeys pre := fun c => hd2 c b
      simp [hP, hQ]
    · obtain ⟨l, hg, _⟩ := h2 a b
      rw [hg]
      have hP : key ∉ imageKeys pre := fun c => hd1 c a
      have hQ : key ∈ labelKeys pre := (hall1.mpr (Or.inr a)).resolve_right b
      simp [hP, hQ]
    · obtain ⟨img, _, hg⟩ := h3 a b
      rw [hg]
      have hQ : key ∉ labelKeys pre := fun c => hd2 c b
      have hP : key ∈ imageKeys pre := (hall1.mp (Or.inr b)).resolve_right a
      simp [hP, hQ]
    · rw [h4 a b]
      have hPQ : key ∈ labelKeys pre ↔ key ∈ imageKeys pre := by
        constructor
        · intro c; exact (hall1.mp (Or.inl c)).resolve_right a
        · intro c; exact (hall1.mpr (Or.inl c)).resolve_right b
      by_cases c : key ∈ imageKeys pre
      · simp [c, hPQ.mpr c]
      · have d : key ∉ labelKeys pre := fun d => c (hPQ.mp d)
        simp [c, d]
  have hperm : (m.map Prod.fst).Perm (openKeys pre) :=
    (List.perm_ext_iff_of_nodup hnd (openKeys_nodup pre hi1 hl1)).mpr hmem
  simpa using hperm.length_eq


theorem take_length_append_cons (pre rest : List tarEntry) (e : tarEntry) :
    (pre ++ e :: rest).take (pre.length + 1) = pre ++ [e] := by
  have : pre ++ e :: rest = (pre ++ [e]) ++ rest := by simp
  rw [this]
  have hl : (pre ++ [e]).length = pre.length + 1 := by simp
  rw [← hl, List.take_left]

theorem streamSteps_pairs (ctx : Option Context) (hctx : ∀ t, ctxDone ctx t = false)
    (cap : Int) (all : List tarEntry)
    (hkeys : (imageKeys all).Nodup) (hpairs : (labelKeys all).Perm (imageKeys all))
    (hcap : ∀ n, n ≤ all.length → ((openKeys (all.take n)).length : Int) ≤ cap) :
    ∀ (rest pre : List tarEntry) (st : StreamState), all = pre ++ rest →
      (∀ e ∈ rest, e.IsDir = false ∧ e.readErr = none ∧
        ((isImageEntry e = true ∧ e.payload.length > 0) ∨
          (isLabelEntry e = true ∧ ∃ l, parseLabel e.payload = some l))) →
      (imageKeys rest).Nodup → (labelKeys rest).Nodup →
      (st.pending.map Prod.fst).Nodup →
      PairsPending all rest st.pending →
      (∀ s ∈ st.out, LabelFrom all s.Key s.Label) →
      ∃ st1, streamSteps ctx cap rest st = Except.ok st1 ∧ st1.pending = [] ∧
        2 * st1.out.length = 2 * st.out.length + st.pending.length + rest.length ∧
        st1.errCh = st.errCh ∧ (∀ s ∈ st1.out, LabelFrom all s.Key s.Label)
  | [], pre, st, _, _, _, _, _, hI, hout => by
      have hnil : st.pending = [] := by
        apply PendingMap.eq_nil_of_get
        intro key
        exact (hI key).2.2.2 (by simp [imageKeys]) (by simp [labelKeys])
      exact ⟨st, rfl, hnil, by simp [hnil], rfl, hout⟩
  | e :: rest, pre, st, hall, hrest, hik, hlk, hnd, hI, hout => by
      obtain ⟨hdir, hrd, hkind⟩ := hrest e (List.mem_cons_self _ _)
      have heall : e ∈ all := by rw [hall]; simp
      have hall2 : all = (pre ++ [e]) ++ rest := by rw [hall]; simp
      have hrest2 : ∀ e1 ∈ rest, e1.IsDir = false ∧ e1.readErr = none ∧
          ((isImageEntry e1 = true ∧ e1.payload.length > 0) ∨
            (isLabelEntry e1 = true ∧ ∃ l, parseLabel e1.payload = some l)) :=
        fun e1 h1 => hrest e1 (List.mem_cons_of_mem _ h1)
      -- the keys pending before this entry, and after it when it opens a pair
      have hlenpre : (st.pending.length : Int) ≤ cap := by
        rw [length_pending_eq_openKeys all pre (e :: rest) hall hkeys hpairs st.pending hnd hI]
        have := hcap pre.length (by rw [hall]; simp)
        rw [hall, List.take_left] at this
        exact this
      have hlenkeep : ∀ part : partial_, st.pending.get (entryKey e) ≠ none →
          ((st.pending.set (entryKey e) part).length : Int) ≤ cap := by
        intro part hne
        rw [PendingMap.length_set, if_neg hne]
        exact hlenpre
      have hlennew : ∀ part : partial_,
          PairsPending all rest (st.pending.set (entryKey e) part) →
          ((st.pending.set (entryKey e) part).length : Int) ≤ cap := by
        intro part hI2
        rw [length_pending_eq_openKeys all (pre ++ [e]) rest hall2 hkeys hpairs _
          (PendingMap.nodup_set _ _ _ hnd) hI2]
        have := hcap (pre.length + 1) (by rw [hall]; simp)
        rw [hall, take_length_append_cons] at this
        exact this
      rcases hkind with ⟨himg, hpay⟩ | ⟨hlab, l, hl⟩
      · -- an image entry
        obtain ⟨hkI, hkL⟩ := keys_cons_image e rest himg
        rw [hkI] at hik
        have hafresh : entryKey e ∉ imageKeys rest := (List.nodup_cons.mp hik).1
        have hik2 : (imageKeys rest).Nodup := (List.nodup_cons.mp hik).2
        rw [hkL] at hlk
        have hIe := hI (entryKey e)
        rw [hkI, hkL] at hIe
        have hstore := storeEntry_image st.pending e himg hrd
        by_cases hal : entryKey e ∈ labelKeys rest
        · -- the label is still to come
          have hget : st.pending.get (entryKey e) = none :=
            hIe.1 (List.mem_cons_self _ _) hal
          rw [hget] at hstore
          simp only [Option.getD_none] at hstore
          have hI2 : PairsPending all rest (st.pending.set (entryKey e) ⟨e.payload, none⟩) := by
            intro key
            have hIk := hI key
            rw [hkI, hkL] at hIk
            by_cases hka : key = entryKey e
            · subst hka
              refine ⟨fun h => absurd h hafresh, fun h => absurd h hafresh,
                fun _ _ => ⟨e.payload, hpay, PendingMap.get_set_self _ _ _⟩,
                fun _ h => absurd hal h⟩
            · simp only [PendingMap.get_set_other _ _ _ _ hka]
              refine ⟨fun h1 h2 => hIk.1 (List.mem_cons_of_mem _ h1) h2,
                fun h1 h2 => hIk.2.1 (List.mem_cons_of_mem _ h1) h2,
                fun h1 h2 => hIk.2.2.1 (by simp [hka, h1]) h2,
                fun h1 h2 => hIk.2.2.2 (by simp [hka, h1]) h2⟩
          have hstep := streamStep_store ctx hctx cap st e ⟨e.payload, none⟩ hdir hstore
            (hlennew _ hI2) (by simp [partial_.ready])
          have ih := streamSteps_pairs ctx hctx cap all hkeys hpairs hcap rest (pre ++ [e])
            { st with pending := st.pending.set (entryKey e) ⟨e.payload, none⟩,
                      tick := st.tick + 1 }
            hall2 hrest2 hik2 hlk (PendingMap.nodup_set _ _ _ hnd) hI2 hout
          obtain ⟨st1, h1, h2, h3, h4, h5⟩ := ih
          refine ⟨st1, ?_, h2, ?_, h4, h5⟩
          · unfold streamSteps; rw [hstep]; exact h1
          · rw [h3]
            simp only [PendingMap.length_set, hget, if_true, List.length_cons]
            omega
        · -- the label has been seen
          obtain ⟨l, hget, hlf⟩ := hIe.2.1 (List.mem_cons_self _ _) hal
          rw [hget] at hstore
          simp only [Option.getD_some] at hstore
          have hstep := streamStep_emit ctx hctx cap st e ⟨e.payload, some l⟩ hdir hstore
            (hlenkeep _ (by rw [hget]; simp)) (by simp [partial_.ready]; exact hpay)
          have hlen1 : ((st.pending.set (entryKey e) ⟨e.payload, some l⟩).delete
              (entryKey e)).length + 1 = st.pending.length := by
            rw [PendingMap.length_delete _ _ _ (PendingMap.nodup_set _ _ _ hnd)
              (PendingMap.get_set_self _ _ _)]
            simp [PendingMap.length_set, hget]
          have ih := streamSteps_pairs ctx hctx cap all hkeys hpairs hcap rest (pre ++ [e])
            { st with
              pending := (st.pending.set (entryKey e) ⟨e.payload, some l⟩).delete (entryKey e),
              out := st.out ++ [⟨entryKey e, e.payload, l⟩],
              tick := st.tick + 1 + 1 }
            hall2 hrest2 hik2 hlk
            (PendingMap.nodup_delete _ _ (PendingMap.nodup_set _ _ _ hnd))
            (by
              intro key
              have hIk := hI key
              rw [hkI, hkL] at hIk
              by_cases hka : key = entryKey e
              · subst hka
                refine ⟨fun h => absurd h hafresh, fun h => absurd h hafresh,
                  fun _ h => absurd h hal, fun _ _ => PendingMap.get_delete_self _ _⟩
              · simp only [PendingMap.get_delete_other _ _ _ hka,
                  PendingMap.get_set_other _ _ _ _ hka]
                refine ⟨fun h1 h2 => hIk.1 (List.mem_cons_of_mem _ h1) h2,
                  fun h1 h2 => hIk.2.1 (List.mem_cons_of_mem _ h1) h2,
                  fun h1 h2 => hIk.2.2.1 (by simp [hka, h1]) h2,
                  fun h1 h2 => hIk.2.2.2 (by simp [hka, h1]) h2⟩)
            (by
              intro s hs
              rcases List.mem_append.mp hs with h1 | h1
              · exact hout s h1
              · rw [List.mem_singleton] at h1
                subst h1
                exact hlf)
          obtain ⟨st1, h1, h2, h3, h4, h5⟩ := ih
          refine ⟨st1, ?_, h2, ?_, h4, h5⟩
          · unfold streamSteps; rw [hstep]; exact h1
          · have h6 : (st.out ++ [(⟨entryKey e, e.payload, l⟩ : Sample)]).length =
                st.out.length + 1 := by simp
            rw [h3]
            simp only [h6, List.length_cons]
            omega
      · -- a label entry
        obtain ⟨hkI, hkL⟩ := keys_cons_label e rest hlab
        rw [hkL] at hlk
        have hafresh : entryKey e ∉ labelKeys rest := (List.nodup_cons.mp hlk).1
        have hlk2 : (labelKeys rest).Nodup := (List.nodup_cons.mp hlk).2
        rw [hkI] at hik
        have hIe := hI (entryKey e)
        rw [hkI, hkL] at hIe
        have hstore := storeEntry_label st.pending e hlab hrd l hl
        have hlf : LabelFrom all (entryKey e) l := ⟨e, heall, hlab, rfl, hl⟩
        by_cases hai : entryKey e ∈ imageKeys rest
        · -- the image is still to come
          have hget : st.pending.get (entryKey e) = none :=
            hIe.1 hai (List.mem_cons_self _ _)
          rw [hget] at hstore
          simp only [Option.getD_none] at hstore
          have hI2 : PairsPending all rest (st.pending.set (entryKey e) ⟨"", some l⟩) := by
            intro key
            have hIk := hI key
            rw [hkI, hkL] at hIk
            by_cases hka : key = entryKey e
            · subst hka
              refine ⟨fun _ h => absurd h hafresh,
                fun _ _ => ⟨l, PendingMap.get_set_self _ _ _, hlf⟩,
                fun _ h => absurd h hafresh, fun h _ => absurd hai h⟩
            · simp only [PendingMap.get_set_other _ _ _ _ hka]
              refine ⟨fun h1 h2 => hIk.1 h1 (List.mem_cons_of_mem _ h2),
                fun h1 h2 => hIk.2.1 h1 (by simp [hka, h2]),
                fun h1 h2 => hIk.2.2.1 h1 (List.mem_cons_of_mem _ h2),
                fun h1 h2 => hIk.2.2.2 h1 (by simp [hka, h2])⟩
          have hstep := streamStep_store ctx hctx cap st e ⟨"", some l⟩ hdir hstore
            (hlennew _ hI2) (by simp [partial_.ready])
          have ih := streamSteps_pairs ctx hctx cap all hkeys hpairs hcap rest (pre ++ [e])
            { st with pending := st.pending.set (entryKey e) ⟨"", some l⟩,
                      tick := st.tick + 1 }
            hall2 hrest2 hik hlk2 (PendingMap.nodup_set _ _ _ hnd) hI2 hout
          obtain ⟨st1, h1, h2, h3, h4, h5⟩ := ih
          refine ⟨st1, ?_, h2, ?_, h4, h5⟩
          · unfold streamSteps; rw [hstep]; exact h1
          · rw [h3]
            simp only [PendingMap.length_set, hget, if_true, List.length_cons]
            omega
        · -- the image has been seen
          obtain ⟨img, himglen, hget⟩ := hIe.2.2.1 hai (List.mem_cons_self _ _)
          rw [hget] at hstore
          simp only [Option.getD_some] at hstore
          have hstep := streamStep_emit ctx hctx cap st e ⟨img, some l⟩ hdir hstore
            (hlenkeep _ (by rw [hget]; simp)) (by simp [partial_.ready]; exact himglen)
          have hlen1 : ((st.pending.set (entryKey e) ⟨img, some l⟩).delete
              (entryKey e)).length + 1 = st.pending.length := by
            rw [PendingMap.length_delete _ _ _ (PendingMap.nodup_set _ _ _ hnd)
              (PendingMap.get_set_self _ _ _)]
            simp [PendingMap.length_set, hget]
          have ih := streamSteps_pairs ctx hctx cap all hkeys hpairs hcap rest (pre ++ [e])
            { st with
              pending := (st.pending.set (entryKey e) ⟨img, some l⟩).delete (entryKey e),
              out := st.out ++ [⟨entryKey e, img, l⟩],
              tick := st.tick + 1 + 1 }
            hall2 hrest2 hik hlk2
            (PendingMap.nodup_delete _ _ (PendingMap.nodup_set _ _ _ hnd))
            (by
              intro key
              have hIk := hI key
              rw [hkI, hkL] at hIk
              by_cases hka : key = entryKey e
              · subst hka
                refine ⟨fun h _ => absurd h hai, fun h _ => absurd h hai,
                  fun _ h => absurd h hafresh, fun _ _ => PendingMap.get_delete_self _ _⟩
              · simp only [PendingMap.get_delete_other _ _ _ hka,
                  PendingMap.get_set_other _ _ _ _ hka]
                refine ⟨fun h1 h2 => hIk.1 h1 (List.mem_cons_of_mem _ h2),
                  fun h1 h2 => hIk.2.1 h1 (by simp [hka, h2]),
                  fun h1 h2 => hIk.2.2.1 h1 (List.mem_cons_of_mem _ h2),
                  fun h1 h2 => hIk.2.2.2 h1 (by simp [hka, h2])⟩)
            (by
              intro s hs
              rcases List.mem_append.mp hs with h1 | h1
              · exact hout s h1
              · rw [List.mem_singleton] at h1
                subst h1
                exact hlf)
          obtain ⟨st1, h1, h2, h3, h4, h5⟩ := ih
          refine ⟨st1, ?_, h2, ?_, h4, h5⟩
          · unfold streamSteps; rw [hstep]; exact h1
          · have h6 : (st.out ++ [(⟨entryKey e, img, l⟩ : Sample)]).length =
                st.out.length + 1 := by simp
            rw [h3]
            simp only [h6, List.length_cons]
            omega

theorem length_eq_image_add_label : ∀ (entries : List tarEntry),
    (∀ e ∈ entries, isImageEntry e = true ∨ isLabelEntry e = true) →
    entries.length = (imageKeys entries).length + (labelKeys entries).length
  | [], _ => by simp [imageKeys, labelKeys]
  | e :: rest, h => by
      have ih := length_eq_image_add_label rest (fun e1 h1 => h e1 (List.mem_cons_of_mem _ h1))
      rcases h e (List.mem_cons_self _ _) with hi | hl
      · obtain ⟨h1, h2⟩ := keys_cons_image e rest hi
        rw [h1, h2]
        simp only [List.length_cons]
        omega
      · obtain ⟨h1, h2⟩ := keys_cons_label e rest hl
        rw [h1, h2]
        simp only [List.length_cons]
        omega

/-- C3 (amended): a shard archive whose entries are `k` complete image/label
pairs with distinct keys, in any order, the images not empty and the label
payloads decimal integers, read without cancellation, and such that after any
number of entries at most `pendingCap` keys (1024 if `pendingCap <= 0`) have
one of their two entries read and not the other: `StreamShard` ends with a
nil status, emits exactly `k` samples, and the label of each is the integer
parsed from the `.cls` payload of its key. -/
theorem StreamShard_pairs (ctx : Option Context) (hctx : ∀ t, ctxDone ctx t = false)
    (entries : List tarEntry) (pendingCap : Int) (k : Nat)
    (hentries : ∀ e ∈ entries, e.IsDir = false ∧ e.readErr = none ∧
      ((isImageEntry e = true ∧ e.payload.length > 0) ∨
        (isLabelEntry e = true ∧ ∃ l, parseLabel e.payload = some l)))
    (hkeys : (imageKeys entries).Nodup) (hk : (imageKeys entries).length = k)
    (hpairs : (labelKeys entries).Perm (imageKeys entries))
    (hcap : ∀ n, n ≤ entries.length →
      ((openKeys (entries.take n)).length : Int) ≤ effectiveCap pendingCap) :
    (StreamShard ctx (Except.ok ⟨entries, none⟩) pendingCap).errCh = none ∧
    (StreamShard ctx (Except.ok ⟨entries, none⟩) pendingCap).out.length = k ∧
    ∀ s ∈ (StreamShard ctx (Except.ok ⟨entries, none⟩) pendingCap).out,
      ∃ e ∈ entries, isLabelEntry e = true ∧ entryKey e = s.Key ∧
        parseLabel e.payload = some s.Label := by
  obtain ⟨st1, hsteps, hpend, hcount, herr, hlab⟩ :=
    streamSteps_pairs ctx hctx (effectiveCap pendingCap) entries hkeys hpairs hcap
      entries [] ⟨[], [], none, 0⟩ (by simp) hentries
      hkeys (hpairs.nodup_iff.mpr hkeys) (by simp)
      (by
        intro key
        refine ⟨fun _ _ => rfl, fun h1 h2 => absurd (hpairs.symm.subset h1) h2,
          fun h1 h2 => absurd (hpairs.subset h2) h1, fun _ _ => rfl⟩)
      (by simp)
  have hlen := length_eq_image_add_label entries (fun e he => by
    rcases (hentries e he).2.2 with ⟨hi, _⟩ | ⟨hl, _⟩
    · exact Or.inl hi
    · exact Or.inr hl)
  rw [hpairs.length_eq, hk] at hlen
  have hres : StreamShard ctx (Except.ok ⟨entries, none⟩) pendingCap = ⟨st1.out, none⟩ := by
    unfold StreamShard streamLoop
    simp only [hsteps]
    unfold streamEnd
    simp only [hctx, Bool.false_eq_true, if_false, hpend, List.length_nil, lt_irrefl]
  rw [hres]
  refine ⟨rfl, ?_, hlab⟩
  simp only [List.length_nil] at hcount
  simp only
  omega

theorem StreamShard_pairs_witness :
    (StreamShard (some Context.background)
        (Except.ok ⟨[⟨"000001.jpg", false, "jpeg", none⟩, ⟨"000001.cls", false, "3", none⟩,
          ⟨"000002.cls", false, "7\n", none⟩, ⟨"000002.png", false, "png", none⟩,
          ⟨"000003.jpeg", false, "j", none⟩, ⟨"000003.cls", false, " 5", none⟩], none⟩)
        1).errCh = none ∧
    (StreamShard (some Context.background)
        (Except.ok ⟨[⟨"000001.jpg", false, "jpeg", none⟩, ⟨"000001.cls", false, "3", none⟩,
          ⟨"000002.cls", false, "7\n", none⟩, ⟨"000002.png", false, "png", none⟩,
          ⟨"000003.jpeg", false, "j", none⟩, ⟨"000003.cls", false, " 5", none⟩], none⟩)
        1).out.length = 3 ∧
    ∀ s ∈ (StreamShard (some Context.background)
        (Except.ok ⟨[⟨"000001.jpg", false, "jpeg", none⟩, ⟨"000001.cls", false, "3", none⟩,
          ⟨"000002.cls", false, "7\n", none⟩, ⟨"000002.png", false, "png", none⟩,
          ⟨"000003.jpeg", false, "j", none⟩, ⟨"000003.cls", false, " 5", none⟩], none⟩)
        1).out,
      ∃ e ∈ [(⟨"000001.jpg", false, "jpeg", none⟩ : tarEntry), ⟨"000001.cls", false, "3", none⟩,
          ⟨"000002.cls", false, "7\n", none⟩, ⟨"000002.png", false, "png", none⟩,
          ⟨"000003.jpeg", false, "j", none⟩, ⟨"000003.cls", false, " 5", none⟩],
        isLabelEntry e = true ∧ entryKey e = s.Key ∧ parseLabel e.payload = some s.Label :=
  StreamShard_pairs (some Context.background) (fun _ => rfl)
    [⟨"000001.jpg", false, "jpeg", none⟩, ⟨"000001.cls", false, "3", none⟩,
      ⟨"000002.cls", false, "7\n", none⟩, ⟨"000002.png", false, "png", none⟩,
      ⟨"000003.jpeg", false, "j", none⟩, ⟨"000003.cls", false, " 5", none⟩] 1 3
    (by
      intro e he
      simp only [List.mem_cons, List.mem_singleton, List.not_mem_nil, or_false] at he
      rcases he with rfl | rfl | rfl | rfl | rfl | rfl
      · exact ⟨rfl, rfl, Or.inl ⟨by decide, by decide⟩⟩
      · exact ⟨rfl, rfl, Or.inr ⟨by decide, 3, by decide⟩⟩
      · exact ⟨rfl, rfl, Or.inr ⟨by decide, 7, by decide⟩⟩
      · exact ⟨rfl, rfl, Or.inl ⟨by decide, by decide⟩⟩
      · exact ⟨rfl, rfl, Or.inl ⟨by decide, by decide⟩⟩
      · exact ⟨rfl, rfl, Or.inr ⟨by decide, 5, by decide⟩⟩)
    (by decide) (by decide) (by decide) (by decide)

/-- C3 (counterexample): two complete pairs with all images first and a
pending cap of 1 give no sample and `ErrPendingOverflow`; one complete pair
whose image is empty gives no sample and the status of one incomplete
sample; one complete pair read under a context that is already done gives no
sample and the error of the context; and one complete pair whose label
payload is not an integer gives no sample and a parse error. -/
theorem StreamShard_pairs_counterexample :
    StreamShard (some Context.background)
        (Except.ok ⟨[⟨"a.jpg", false, "x", none⟩, ⟨"b.jpg", false, "y", none⟩,
          ⟨"a.cls", false, "3", none⟩, ⟨"b.cls", false, "7", none⟩], none⟩) 1 =
      ⟨[], some GoError.pendingOverflow⟩ ∧
    StreamShard (some Context.background)
        (Except.ok ⟨[⟨"a.jpg", false, "", none⟩, ⟨"a.cls", false, "3", none⟩], none⟩) 4 =
      ⟨[], some (GoError.incomplete 1)⟩ ∧
    StreamShard (some ⟨fun _ => true, GoError.canceled⟩)
        (Except.ok ⟨[⟨"a.jpg", false, "x", none⟩, ⟨"a.cls", false, "3", none⟩], none⟩) 4 =
      ⟨[], some GoError.canceled⟩ ∧
    StreamShard (some Context.background)
        (Except.ok ⟨[⟨"a.jpg", false, "x", none⟩, ⟨"a.cls", false, "cat", none⟩], none⟩) 4 =
      ⟨[], some (GoError.wrapf "parse label a.cls" (GoError.plain "strconv.Atoi"))⟩ := by
  refine ⟨?_, ?_, ?_, ?_⟩ <;> decide

/-- What `storeEntry` does when it does not return an error. -/
theorem storeEntry_ok_cases (m : PendingMap) (e : tarEntry) (r : Option PendingMap)
    (h : storeEntry m e = Except.ok r) :
    (isImageEntry e = true ∧
      r = some (m.set (entryKey e)
        { (m.get (entryKey e)).getD ⟨"", none⟩ with image := e.payload })) ∨
    (isImageEntry e = false ∧ isLabelEntry e = true ∧ ∃ l, parseLabel e.payload = some l ∧
      r = some (m.set (entryKey e)
        { (m.get (entryKey e)).getD ⟨"", none⟩ with label := some l })) ∨
    (isImageEntry e = false ∧ isLabelEntry e = false ∧ r = none) := by
  unfold storeEntry at h
  by_cases h1 : entryExt e = ".jpg" ∨ entryExt e = ".jpeg" ∨ entryExt e = ".png"
  · rw [if_pos h1] at h
    left
    refine ⟨by simp [isImageEntry, h1], ?_⟩
    cases hr : e.readErr with
    | some err => simp [hr] at h
    | none =>
      simp only [hr] at h
      exact (Except.ok.inj h).symm
  · rw [if_neg h1] at h
    have hni : isImageEntry e = false := by simp [isImageEntry, h1]
    right
    by_cases h2 : entryExt e = ".cls"
    · rw [if_pos h2] at h
      left
      refine ⟨hni, by simp [isLabelEntry, h2], ?_⟩
      cases hr : e.readErr with
      | some err => simp [hr] at h
      | none =>
        simp only [hr] at h
        cases hp : parseLabel e.payload with
        | none => simp [hp] at h
        | some l =>
          simp only [hp] at h
          exact ⟨l, rfl, (Except.ok.inj h).symm⟩
    · rw [if_neg h2] at h
      right
      exact ⟨hni, by simp [isLabelEntry, h2], (Except.ok.inj h).symm⟩

/-- An iteration that does not return changes the record of each key as the
entry alone decides. -/
theorem streamStep_waiting (ctx : Option Context) (cap : Int) (st st1 : StreamState)
    (e : tarEntry) (h : streamStep ctx cap st e = Except.ok st1) (key : String) :
    st1.pending.get key = keyStep key (st.pending.get key) e := by
  unfold streamStep at h
  by_cases hd : ctxDone ctx st.tick = true
  · rw [if_pos hd] at h; cases h
  rw [if_neg hd] at h
  by_cases hdir : e.IsDir = true
  · rw [if_pos hdir] at h
    cases h
    simp [keyStep, hdir]
  rw [if_neg hdir] at h
  cases hs : storeEntry st.pending e with
  | error err => rw [hs] at h; cases h
  | ok res =>
    rw [hs] at h
    rcases storeEntry_ok_cases _ _ _ hs with ⟨himg, rfl⟩ | ⟨himg, hlab, l, hl, rfl⟩ |
      ⟨himg, hlab, rfl⟩
    · -- an image
      simp only at h
      by_cases hover : ((st.pending.set (entryKey e)
          { (st.pending.get (entryKey e)).getD ⟨"", none⟩ with image := e.payload }).length : Int)
            > cap
      · rw [if_pos hover] at h; cases h
      rw [if_neg hover] at h
      obtain ⟨_, hcase⟩ := emitReady_ok ctx (entryKey e) _ st1 _
        (PendingMap.get_set_self st.pending (entryKey e) _) h
      by_cases hk : entryKey e = key
      · subst hk
        rcases hcase with ⟨hr, hp, _⟩ | ⟨hr, hp, _⟩
        · rw [hp]
          simp only [PendingMap.get_delete_self]
          simp [keyStep, hdir, himg, hr]
        · rw [hp]
          simp only [PendingMap.get_set_self]
          simp [keyStep, hdir, himg, hr]
      · have hk2 : key ≠ entryKey e := fun c => hk c.symm
        rcases hcase with ⟨_, hp, _⟩ | ⟨_, hp, _⟩
        · rw [hp]
          simp only [PendingMap.get_delete_other _ _ _ hk2, PendingMap.get_set_other _ _ _ _ hk2]
          simp [keyStep, hk]
        · rw [hp]
          simp only [PendingMap.get_set_other _ _ _ _ hk2]
          simp [keyStep, hk]
    · -- a label
      simp only at h
      by_cases hover : ((st.pending.set (entryKey e)
          { (st.pending.get (entryKey e)).getD ⟨"", none⟩ with label := some l }).length : Int)
            > cap
      · rw [if_pos hover] at h; cases h
      rw [if_neg hover] at h
      obtain ⟨_, hcase⟩ := emitReady_ok ctx (entryKey e) _ st1 _
        (PendingMap.get_set_self st.pending (entryKey e) _) h
      by_cases hk : entryKey e = key
      · subst hk
        rcases hcase with ⟨hr, hp, _⟩ | ⟨hr, hp, _⟩
        · rw [hp]
          simp only [PendingMap.get_delete_self]
          simp [keyStep, hdir, himg, hlab, hl, hr]
        · rw [hp]
          simp only [PendingMap.get_set_self]
          simp [keyStep, hdir, himg, hlab, hl, hr]
      · have hk2 : key ≠ entryKey e := fun c => hk c.symm
        rcases hcase with ⟨_, hp, _⟩ | ⟨_, hp, _⟩
        · rw [hp]
          simp only [PendingMap.get_delete_other _ _ _ hk2, PendingMap.get_set_other _ _ _ _ hk2]
          simp [keyStep, hk]
        · rw [hp]
          simp only [PendingMap.get_set_other _ _ _ _ hk2]
          simp [keyStep, hk]
    · -- neither
      simp only at h
      cases h
      simp [keyStep, himg, hlab]

theorem streamSteps_waiting (ctx : Option Context) (cap : Int) :
    ∀ (entries : List tarEntry) (st st1 : StreamState),
      streamSteps ctx cap entries st = Except.ok st1 →
      ∀ key, st1.pending.get key = entries.foldl (keyStep key) (st.pending.get key)
  | [], st, st1, h, key => by
      simp only [streamSteps] at h
      cases h
      rfl
  | e :: rest, st, st1, h, key => by
      unfold streamSteps at h
      cases hs : streamStep ctx cap st e with
      | error st2 => rw [hs] at h; cases h
      | ok st2 =>
        rw [hs] at h
        rw [streamSteps_waiting ctx cap rest st2 st1 h key,
          streamStep_waiting ctx cap st st2 e hs key]
        rfl

/-- In an archive that is read without a `return`, every label parses. -/
theorem streamSteps_parse (ctx : Option Context) (cap : Int) :
    ∀ (entries : List tarEntry) (st st1 : StreamState),
      streamSteps ctx cap entries st = Except.ok st1 →
      ∀ e ∈ entries, e.IsDir = false → isImageEntry e = false → isLabelEntry e = true →
        ∃ l, parseLabel e.payload = some l
  | [], _, _, _, e, he => by simp at he
  | e0 :: rest, st, st1, h, e, he => by
      unfold streamSteps at h
      cases hs : streamStep ctx cap st e0 with
      | error st2 => rw [hs] at h; cases h
      | ok st2 =>
        rw [hs] at h
        rcases List.mem_cons.mp he with rfl | he2
        · intro hdir himg hlab
          unfold streamStep at hs
          by_cases hd : ctxDone ctx st.tick = true
          · rw [if_pos hd] at hs; cases hs
          rw [if_neg hd] at hs
          simp only [hdir, Bool.false_eq_true, if_false] at hs
          cases hst : storeEntry st.pending e with
          | error err => rw [hst] at hs; cases hs
          | ok res =>
            rcases storeEntry_ok_cases _ _ _ hst with ⟨h1, _⟩ | ⟨_, _, l, hl, _⟩ | ⟨_, h2, _⟩
            · rw [himg] at h1; cases h1
            · exact ⟨l, hl⟩
            · rw [hlab] at h2; cases h2
        · exact streamSteps_parse ctx cap rest st2 st1 h e he2

theorem foldl_keyStep_of_not_mem (key : String) :
    ∀ (entries : List tarEntry) (p : Option partial_),
      key ∉ entries.map entryKey → entries.foldl (keyStep key) p = p
  | [], _, _ => rfl
  | e :: rest, p, h => by
      simp only [List.map_cons, List.mem_cons, not_or] at h
      have hk : entryKey e ≠ key := fun c => h.1 c.symm
      simp only [List.foldl_cons]
      rw [foldl_keyStep_of_not_mem key rest _ h.2]
      simp [keyStep, hk]

/-- When the loop leaves at `io.EOF`, all entries have been processed without
a `return`. -/
theorem streamLoop_ok (ctx : Option Context) (cap : Int) (tail : Option GoError)
    (entries : List tarEntry) (st0 st : StreamState)
    (h : streamLoop ctx cap tail entries st0 = Except.ok st) :
    ∃ st1, streamSteps ctx cap entries st0 = Except.ok st1 ∧ st.pending = st1.pending := by
  unfold streamLoop at h
  cases hs : streamSteps ctx cap entries st0 with
  | error st1 => rw [hs] at h; cases h
  | ok st1 =>
    rw [hs] at h
    refine ⟨st1, rfl, ?_⟩
    unfold streamEnd at h
    simp only at h
    by_cases hd : ctxDone ctx st1.tick = true
    · rw [if_pos hd] at h; cases h
    rw [if_neg hd] at h
    cases ht : tail with
    | some err => rw [ht] at h; cases h
    | none => rw [ht] at h; cases h; rfl

/-- The keys in the pending map at `io.EOF` are the keys left waiting. -/
theorem length_pending_eq_waitingKeys (ctx : Option Context) (cap : Int) (hcap : 0 < cap)
    (tail : Option GoError) (entries : List tarEntry) (st : StreamState)
    (h : streamLoop ctx cap tail entries ⟨[], [], none, 0⟩ = Except.ok st) :
    st.pending.length = (waitingKeys entries).length := by
  obtain ⟨st1, hs, hp⟩ := streamLoop_ok ctx cap tail entries _ st h
  have hinv := streamSteps_ok ctx cap entries _ st1 hs ⟨by simp, by simp⟩
    (by simp; exact le_of_lt hcap)
  have hget := streamSteps_waiting ctx cap entries _ st1 hs
  rw [hp]
  have hmem : ∀ key, key ∈ st1.pending.map Prod.fst ↔ key ∈ waitingKeys entries := by
    intro key
    rw [PendingMap.mem_keys_iff _ hinv.1.1, hget key]
    have h0 : PendingMap.get [] key = none := rfl
    rw [show (⟨[], [], none, 0⟩ : StreamState).pending = [] from rfl, h0]
    unfold waitingKeys waiting
    simp only [List.mem_filter, List.mem_dedup]
    constructor
    · intro hne
      refine ⟨?_, ?_⟩
      · by_contra hc
        exact hne (foldl_keyStep_of_not_mem key entries none hc)
      · cases hw : entries.foldl (keyStep key) none with
        | none => exact absurd hw hne
        | some q => rfl
    · intro ⟨_, hsome⟩ hc
      rw [hc] at hsome
      cases hsome
  have hperm : (st1.pending.map Prod.fst).Perm (waitingKeys entries) :=
    (List.perm_ext_iff_of_nodup hinv.1.1
      ((List.nodup_dedup _).filter _)).mpr hmem
  simpa using hperm.length_eq

theorem mem_unmatchedKeys (key : String) (l : List tarEntry) :
    key ∈ unmatchedKeys l ↔
      (key ∈ imageKeys l ∧ key ∉ labelKeys l) ∨ (key ∈ labelKeys l ∧ key ∉ fullImageKeys l) := by
  simp [unmatchedKeys]

theorem mem_imageKeys_snoc (key : String) (l : List tarEntry) (e : tarEntry) :
    key ∈ imageKeys (l ++ [e]) ↔
      key ∈ imageKeys l ∨ (isImageEntry e = true ∧ key = entryKey e) := by
  cases h : isImageEntry e <;>
    simp [imageKeys, List.filter_append, List.filter_cons, h]

theorem mem_labelKeys_snoc (key : String) (l : List tarEntry) (e : tarEntry) :
    key ∈ labelKeys (l ++ [e]) ↔
      key ∈ labelKeys l ∨ (isLabelEntry e = true ∧ key = entryKey e) := by
  cases h : isLabelEntry e <;>
    simp [labelKeys, List.filter_append, List.filter_cons, h]

theorem mem_fullImageKeys_snoc (key : String) (l : List tarEntry) (e : tarEntry) :
    key ∈ fullImageKeys (l ++ [e]) ↔
      key ∈ fullImageKeys l ∨ (isImageEntry e = true ∧ 0 < e.payload.length ∧ key = entryKey e) := by
  cases h : isImageEntry e <;> by_cases h2 : 0 < e.payload.length <;>
    simp [fullImageKeys, List.filter_append, List.filter_cons, h, h2]

theorem mem_imageKeys_of_full (key : String) (l : List tarEntry)
    (h : key ∈ fullImageKeys l) : key ∈ imageKeys l := by
  unfold fullImageKeys at h
  unfold imageKeys
  obtain ⟨e, he, rfl⟩ := List.mem_map.mp h
  rw [List.mem_filter] at he
  refine List.mem_map.mpr ⟨e, List.mem_filter.mpr ⟨he.1, ?_⟩, rfl⟩
  have := he.2
  simp only [Bool.and_eq_true] at this
  exact this.1

theorem not_mem_of_snoc_nodup (l : List String) (a : String) (h : (l ++ [a]).Nodup) :
    a ∉ l := by
  intro c
  exact (List.nodup_append.mp h).2.2 c (List.mem_singleton_self a)


theorem keyStep_shape (key : String) (files : List tarEntry) (e : tarEntry)
    (p : Option partial_) (hdir : e.IsDir = false)
    (hI : (imageKeys (files ++ [e])).Nodup) (hL : (labelKeys (files ++ [e])).Nodup)
    (hparse : isImageEntry e = false → isLabelEntry e = true →
      ∃ l, parseLabel e.payload = some l)
    (h : KeyShape key files p) : KeyShape key (files ++ [e]) (keyStep key p e) := by
  unfold KeyShape at h ⊢
  simp only [mem_unmatchedKeys, mem_imageKeys_snoc, mem_labelKeys_snoc,
    mem_fullImageKeys_snoc] at h ⊢
  obtain ⟨s1, s2⟩ := h
  by_cases hk : key = entryKey e
  swap
  · have hk2 : ¬ entryKey e = key := fun c => hk c.symm
    have hstep : keyStep key p e = p := by simp [keyStep, hk2]
    rw [hstep]
    simp only [hk, and_false, or_false]
    exact ⟨s1, s2⟩
  subst hk
  by_cases himg : isImageEntry e = true
  · -- an image entry of the key
    have hlab : isLabelEntry e = false := isLabelEntry_of_image e himg
    have hnI : entryKey e ∉ imageKeys files := by
      apply not_mem_of_snoc_nodup
      have : imageKeys (files ++ [e]) = imageKeys files ++ [entryKey e] := by
        simp [imageKeys, List.filter_append, List.filter_cons, himg]
      rw [← this]
      exact hI
    have hnF : entryKey e ∉ fullImageKeys files := fun c => hnI (mem_imageKeys_of_full _ _ c)
    simp only [hnI, hnF, false_and, false_or, not_false_eq_true, and_true] at s1 s2
    simp only [himg, hlab, hnI, hnF, Bool.false_eq_true, true_and, false_and, or_false,
      false_or, and_true, or_true]
    cases p with
    | none =>
      have hnL : entryKey e ∉ labelKeys files := s1.mp rfl
      by_cases hpay : 0 < e.payload.length
      · simp [keyStep, hdir, himg, partial_.ready, hnL, hpay]
      · have hz : e.payload.length = 0 := by omega
        simp [keyStep, hdir, himg, partial_.ready, hnL, hpay, hz]
    | some q =>
      have hL1 : entryKey e ∈ labelKeys files := by
        by_contra c
        exact absurd (s1.mpr c) (by simp)
      have hq := (s2 q rfl).1.mpr hL1
      by_cases hpay : 0 < e.payload.length
      · simp [keyStep, hdir, himg, partial_.ready, hL1, hpay, hq]
      · have hz : e.payload.length = 0 := by omega
        simp [keyStep, hdir, himg, partial_.ready, hL1, hpay, hq, hz]
  · have himg2 : isImageEntry e = false := by simpa using himg
    by_cases hlab : isLabelEntry e = true
    · -- a label entry of the key
      obtain ⟨l, hl⟩ := hparse himg2 hlab
      have hnL : entryKey e ∉ labelKeys files := by
        apply not_mem_of_snoc_nodup
        have : labelKeys (files ++ [e]) = labelKeys files ++ [entryKey e] := by
          simp [labelKeys, List.filter_append, List.filter_cons, hlab]
        rw [← this]
        exact hL
      simp only [hnL, false_and, or_false, not_false_eq_true, and_true] at s1 s2
      simp only [himg2, hlab, hnL, Bool.false_eq_true, true_and, false_and, or_false,
        false_or, and_true, or_true, not_true_eq_false, and_false]
      cases p with
      | none =>
        have hnI : entryKey e ∉ imageKeys files := s1.mp rfl
        have hnF : entryKey e ∉ fullImageKeys files :=
          fun c => hnI (mem_imageKeys_of_full _ _ c)
        simp [keyStep, hdir, himg2, hlab, hl, partial_.ready, hnF]
      | some q =>
        have hq := (s2 q rfl).2
        by_cases hF : entryKey e ∈ fullImageKeys files
        · have := hq.mpr hF
          simp [keyStep, hdir, himg2, hlab, hl, partial_.ready, hF, this]
        · have : ¬ 0 < q.image.length := fun c => hF (hq.mp c)
          have hz : q.image.length = 0 := by omega
          simp [keyStep, hdir, himg2, hlab, hl, partial_.ready, hF, hz]
    · have hlab2 : isLabelEntry e = false := by simpa using hlab
      have hstep : keyStep (entryKey e) p e = p := by simp [keyStep, himg2, hlab2]
      rw [hstep]
      simp only [himg2, hlab2, Bool.false_eq_true, false_and, or_false]
      exact ⟨s1, s2⟩


theorem fileEntries_append (a b : List tarEntry) :
    fileEntries (a ++ b) = fileEntries a ++ fileEntries b := by
  simp [fileEntries]

theorem unmatchedKeys_nodup (l : List tarEntry) (hi : (imageKeys l).Nodup)
    (hl : (labelKeys l).Nodup) : (unmatchedKeys l).Nodup := by
  unfold unmatchedKeys
  apply List.Nodup.append (hi.filter _) (hl.filter _)
  intro a ha hb
  simp only [List.mem_filter, decide_eq_true_eq] at ha hb
  exact ha.2 hb.1

/-- With no key having two image entries or two label entries, the record of
a key after the entries is the one `KeyShape` describes. -/
theorem foldl_keyStep_shape (key : String) :
    ∀ (es pre : List tarEntry) (p : Option partial_),
      (imageKeys (fileEntries (pre ++ es))).Nodup →
      (labelKeys (fileEntries (pre ++ es))).Nodup →
      (∀ e ∈ es, e.IsDir = false → isImageEntry e = false → isLabelEntry e = true →
        ∃ l, parseLabel e.payload = some l) →
      KeyShape key (fileEntries pre) p →
      KeyShape key (fileEntries (pre ++ es)) (es.foldl (keyStep key) p)
  | [], pre, p, _, _, _, h => by simpa using h
  | e :: rest, pre, p, hI, hL, hparse, h => by
      have hsplit : pre ++ e :: rest = (pre ++ [e]) ++ rest := by simp
      rw [hsplit] at hI hL ⊢
      simp only [List.foldl_cons]
      apply foldl_keyStep_shape key rest (pre ++ [e]) _ hI hL
        (fun e1 h1 => hparse e1 (List.mem_cons_of_mem _ h1))
      by_cases hdir : e.IsDir = true
      · have h1 : fileEntries (pre ++ [e]) = fileEntries pre := by simp [fileEntries, hdir]
        have h2 : keyStep key p e = p := by simp [keyStep, hdir]
        rw [h1, h2]
        exact h
      · have hdir2 : e.IsDir = false := by simpa using hdir
        have hf : fileEntries (pre ++ [e]) = fileEntries pre ++ [e] := by
          simp [fileEntries, hdir2]
        rw [fileEntries_append, imageKeys_append] at hI
        rw [fileEntries_append, labelKeys_append] at hL
        rw [hf] at hI hL ⊢
        exact keyStep_shape key _ e p hdir2 hI.of_append_left hL.of_append_left
          (hparse e (List.mem_cons_self _ _) hdir2) h

/-- C8 (amended): when the archive is read to its end without a `return`,
the terminal status is the error for `u` incomplete samples if `u > 0` and
nil if `u = 0`, where `u` is the number of keys left waiting at the end of
the archive; and when no key has two image entries or two label entries, the
keys left waiting are the unmatched keys of the archive: those with an image
entry and no label entry, and those with a label entry and no image entry of
at least one byte. -/
theorem StreamShard_incomplete_pairs (ctx : Option Context) (archive : Archive)
    (pendingCap : Int) (st : StreamState)
    (hend : streamLoop ctx (effectiveCap pendingCap) archive.tail archive.entries
      ⟨[], [], none, 0⟩ = Except.ok st) :
    StreamShard ctx (Except.ok archive) pendingCap =
      ⟨st.out,
        if 0 < (waitingKeys archive.entries).length then
          some (GoError.incomplete (waitingKeys archive.entries).length)
        else none⟩ ∧
    ((imageKeys (fileEntries archive.entries)).Nodup →
      (labelKeys (fileEntries archive.entries)).Nodup →
      (waitingKeys archive.entries).Perm (unmatchedKeys (fileEntries archive.entries))) := by
  constructor
  · have hlen := length_pending_eq_waitingKeys ctx (effectiveCap pendingCap)
      (effectiveCap_pos pendingCap) archive.tail archive.entries st hend
    unfold StreamShard
    simp only [hend, hlen]
    split_ifs <;> rfl
  · intro hI hL
    obtain ⟨st1, hs, _⟩ := streamLoop_ok ctx _ archive.tail archive.entries _ st hend
    have hparse := streamSteps_parse ctx _ archive.entries _ st1 hs
    apply (List.perm_ext_iff_of_nodup ((List.nodup_dedup _).filter _)
      (unmatchedKeys_nodup _ hI hL)).mpr
    intro key
    have hshape := foldl_keyStep_shape key archive.entries [] none
      (by simpa using hI) (by simpa using hL) hparse
      ⟨by simp [unmatchedKeys, imageKeys, labelKeys, fileEntries], by intro q hq; cases hq⟩
    simp only [List.nil_append] at hshape
    have h1 : waiting key archive.entries = none ↔
        key ∉ unmatchedKeys (fileEntries archive.entries) := hshape.1
    simp only [List.mem_filter, List.mem_dedup]
    constructor
    · intro ⟨_, hsome⟩
      by_contra hc
      rw [h1.mpr hc] at hsome
      cases hsome
    · intro hmem
      have hne : waiting key archive.entries ≠ none := fun c => h1.mp c hmem
      refine ⟨?_, ?_⟩
      · by_contra hc
        exact hne (foldl_keyStep_of_not_mem key archive.entries none hc)
      · cases hw : waiting key archive.entries with
        | none => exact absurd hw hne
        | some q => rfl

theorem StreamShard_incomplete_pairs_witness :
    (StreamShard none
        (Except.ok ⟨[⟨"c.png", false, "z", none⟩, ⟨"a.jpg", false, "x", none⟩,
          ⟨"c.cls", false, " 9\n", none⟩, ⟨"b.cls", false, "3", none⟩], none⟩) 4 =
      ⟨[⟨"c", "z", 9⟩], some (GoError.incomplete 2)⟩ ∧
     (waitingKeys [⟨"c.png", false, "z", none⟩, ⟨"a.jpg", false, "x", none⟩,
          ⟨"c.cls", false, " 9\n", none⟩, ⟨"b.cls", false, "3", none⟩]).Perm ["a", "b"]) ∧
    (StreamShard none
        (Except.ok ⟨[⟨"a.jpg", false, "x", none⟩, ⟨"d", true, "", none⟩,
          ⟨"a.cls", false, "3", none⟩], none⟩) 4 =
      ⟨[⟨"a", "x", 3⟩], none⟩ ∧
     (waitingKeys [⟨"a.jpg", false, "x", none⟩, ⟨"d", true, "", none⟩,
          ⟨"a.cls", false, "3", none⟩]).Perm []) :=
  ⟨⟨(StreamShard_incomplete_pairs none
        ⟨[⟨"c.png", false, "z", none⟩, ⟨"a.jpg", false, "x", none⟩,
          ⟨"c.cls", false, " 9\n", none⟩, ⟨"b.cls", false, "3", none⟩], none⟩ 4
        ⟨[("a", ⟨"x", none⟩), ("b", ⟨"", some 3⟩)], [⟨"c", "z", 9⟩], none, 6⟩ (by rfl)).1,
     (StreamShard_incomplete_pairs none
        ⟨[⟨"c.png", false, "z", none⟩, ⟨"a.jpg", false, "x", none⟩,
          ⟨"c.cls", false, " 9\n", none⟩, ⟨"b.cls", false, "3", none⟩], none⟩ 4
        ⟨[("a", ⟨"x", none⟩), ("b", ⟨"", some 3⟩)], [⟨"c", "z", 9⟩], none, 6⟩ (by rfl)).2
        (by decide) (by decide)⟩,
   ⟨(StreamShard_incomplete_pairs none
        ⟨[⟨"a.jpg", false, "x", none⟩, ⟨"d", true, "", none⟩,
          ⟨"a.cls", false, "3", none⟩], none⟩ 4
        ⟨[], [⟨"a", "x", 3⟩], none, 5⟩ (by rfl)).1,
     (StreamShard_incomplete_pairs none
        ⟨[⟨"a.jpg", false, "x", none⟩, ⟨"d", true, "", none⟩,
          ⟨"a.cls", false, "3", none⟩], none⟩ 4
        ⟨[], [⟨"a", "x", 3⟩], none, 5⟩ (by rfl)).2
        (by decide) (by decide)⟩⟩

/-- C8 (counterexample): a half that was seen does not count when the archive
ends. A key whose image entry is empty and whose label entry is there
has both halves in the archive, yet is reported as one incomplete sample; and
a key whose image comes a second time after its sample was emitted has both
halves in the archive, yet is reported as one incomplete sample. In both
archives no key has only one of its halves. -/
theorem StreamShard_incomplete_with_both_halves :
    (openKeys [⟨"a.jpg", false, "", none⟩, ⟨"a.cls", false, "3", none⟩] = [] ∧
      StreamShard none
          (Except.ok ⟨[⟨"a.jpg", false, "", none⟩, ⟨"a.cls", false, "3", none⟩], none⟩) 4 =
        ⟨[], some (GoError.incomplete 1)⟩) ∧
    (openKeys [⟨"a.jpg", false, "x", none⟩, ⟨"a.cls", false, "3", none⟩,
        ⟨"a.jpg", false, "y", none⟩] = [] ∧
      StreamShard none
          (Except.ok ⟨[⟨"a.jpg", false, "x", none⟩, ⟨"a.cls", false, "3", none⟩,
            ⟨"a.jpg", false, "y", none⟩], none⟩) 4 =
        ⟨[⟨"a", "x", 3⟩], some (GoError.incomplete 1)⟩) := by
  refine ⟨⟨?_, ?_⟩, ⟨?_, ?_⟩⟩ <;> decide

mutual
theorem walkDir_discover (path : String) : ∀ (d : FsNode) (acc : List String),
    readable d = true →
    walkDir discoverVisit path d acc =
      Except.ok (acc ++ ((entriesUnder path d).filter
        (fun pe => !pe.2.IsDir && shardRegexp.MatchString pe.2.Name)).map Prod.fst)
  | FsNode.file name mode, acc, _ => by
      simp only [walkDir, discoverVisit, entriesUnder, FsNode.IsDir, FsNode.Name]
      by_cases h : shardRegexp.MatchString name = true
      · simp [h, FsNode.IsDir, FsNode.Name]
      · simp [h, FsNode.IsDir, FsNode.Name]
  | FsNode.dir name readErr children, acc, h => by
      simp only [readable, Bool.and_eq_true, Option.isNone_iff_eq_none] at h
      obtain ⟨h1, h2⟩ := h
      subst h1
      simp only [walkDir, discoverVisit, entriesUnder, FsNode.IsDir, if_true]
      rw [walkDirs_discover path children acc h2]
      simp [FsNode.IsDir]
theorem walkDirs_discover (path : String) : ∀ (ds : List FsNode) (acc : List String),
    readableAll ds = true →
    walkDirs discoverVisit path ds acc =
      Except.ok (acc ++ ((entriesUnderAll path ds).filter
        (fun pe => !pe.2.IsDir && shardRegexp.MatchString pe.2.Name)).map Prod.fst)
  | [], acc, _ => by simp [walkDirs, entriesUnderAll]
  | d1 :: rest, acc, h => by
      simp only [readableAll, Bool.and_eq_true] at h
      simp only [walkDirs, entriesUnderAll]
      rw [walkDir_discover (filepath.Join path d1.Name) d1 acc h.1]
      simp only
      rw [walkDirs_discover path rest _ h.2]
      simp
end

theorem shardRegexp_MatchString_iff (name : String) :
    shardRegexp.MatchString name = true ↔
      ∃ digits : List Char, 6 ≤ digits.length ∧ (∀ c ∈ digits, '0' ≤ c ∧ c ≤ '9') ∧
        name.toList = "shard-".toList ++ digits ++ ".tar".toList := by
  unfold shardRegexp.MatchString
  simp only [Bool.and_eq_true, List.isPrefixOf_iff_prefix, List.isSuffixOf_iff_suffix,
    decide_eq_true_eq, List.all_eq_true]
  constructor
  · rintro ⟨⟨⟨hp, hs⟩, hlen⟩, hall⟩
    refine ⟨(name.toList.drop 6).take ((name.toList.drop 6).length - 4), ?_, hall, ?_⟩
    · rw [List.length_take]
      omega
    · have h1 := List.prefix_iff_eq_append.mp hp
      have h2 := List.suffix_iff_eq_append.mp hs
      have e6 : "shard-".toList.length = 6 := rfl
      have e4 : ".tar".toList.length = 4 := rfl
      rw [e6] at h1
      rw [e4] at h2
      rw [List.append_assoc, h2, h1]
  · rintro ⟨digits, hlen, hall, hname⟩
    have hdrop : name.toList.drop 6 = digits ++ ".tar".toList := by
      rw [hname, List.append_assoc]
      exact List.drop_left' rfl
    have e4 : ".tar".toList.length = 4 := rfl
    have htake : (digits ++ ".tar".toList).take ((digits ++ ".tar".toList).length - 4) = digits := by
      rw [List.length_append, e4, Nat.add_sub_cancel]
      exact List.take_left' rfl
    rw [hdrop, htake]
    refine ⟨⟨⟨?_, List.suffix_append _ _⟩, ?_⟩, hall⟩
    · rw [hname, List.append_assoc]
      exact List.prefix_append _ _
    · rw [List.length_append, e4]
      omega

theorem sortStrings_sorted_le (l : List String) :
    (sortStrings l).Sorted (fun a b => a ≤ b) := by
  haveI : IsTotal String (fun a b => a.toList ≤ b.toList) :=
    ⟨fun a b => le_total a.toList b.toList⟩
  haveI : IsTrans String (fun a b => a.toList ≤ b.toList) :=
    ⟨fun a b c h1 h2 => le_trans h1 h2⟩
  have h1 : (sortStrings l).Sorted (fun a b => a.toList ≤ b.toList) :=
    List.sorted_insertionSort _ l
  unfold List.Sorted at h1 ⊢
  refine h1.imp ?_
  intro a b hab
  exact String.le_iff_toList_le.mpr hab

theorem DiscoverShards_eq (root : String) (tree : FsNode) (hread : readable tree = true) :
    DiscoverShards root (Except.ok tree) = Except.ok (sortStrings (shardPaths root tree)) := by
  unfold DiscoverShards filepath.WalkDir
  simp only [walkDir_discover root tree [] hread, List.nil_append]
  rfl

/-- C11 (amended): for a tree that is walked without error, `DiscoverShards`
returns the paths of the entries at any depth that are not directories and
whose name is `shard-`, at least six decimal digits, `.tar`, each entry once
and nothing else, in ascending order. -/
theorem DiscoverShards_paths (root : String) (tree : FsNode) (hread : readable tree = true) :
    ∃ result, DiscoverShards root (Except.ok tree) = Except.ok result ∧
      result.Perm (shardPaths root tree) ∧
      result.Sorted (fun a b => a ≤ b) ∧
      ∀ p, p ∈ result ↔
        ∃ d, (p, d) ∈ entriesUnder root tree ∧ d.IsDir = false ∧
          ∃ digits : List Char, 6 ≤ digits.length ∧ (∀ c ∈ digits, '0' ≤ c ∧ c ≤ '9') ∧
            d.Name.toList = "shard-".toList ++ digits ++ ".tar".toList := by
  refine ⟨_, DiscoverShards_eq root tree hread, sortStrings_perm _, sortStrings_sorted_le _, ?_⟩
  intro p
  rw [(sortStrings_perm _).mem_iff]
  unfold shardPaths
  simp only [List.mem_map, List.mem_filter, Bool.and_eq_true, Bool.not_eq_true',
    shardRegexp_MatchString_iff]
  constructor
  · rintro ⟨⟨p1, d⟩, ⟨hmem, hdir, hname⟩, rfl⟩
    exact ⟨d, hmem, hdir, hname⟩
  · rintro ⟨d, hmem, hdir, hname⟩
    exact ⟨(p, d), ⟨hmem, hdir, hname⟩, rfl⟩

theorem DiscoverShards_paths_witness :
    ∃ result,
      DiscoverShards "/data"
          (Except.ok (FsNode.dir "data" none
            [FsNode.file "ignore.txt" FileMode.regular,
             FsNode.dir "nested" none [FsNode.file "shard-000001.tar" FileMode.regular],
             FsNode.file "shard-000000.tar" FileMode.regular])) = Except.ok result ∧
        result = ["/data/nested/shard-000001.tar", "/data/shard-000000.tar"] := by
  obtain ⟨result, h1, _, _, _⟩ := DiscoverShards_paths "/data"
    (FsNode.dir "data" none
      [FsNode.file "ignore.txt" FileMode.regular,
       FsNode.dir "nested" none [FsNode.file "shard-000001.tar" FileMode.regular],
       FsNode.file "shard-000000.tar" FileMode.regular]) (by decide)
  refine ⟨result, h1, ?_⟩
  have h2 : DiscoverShards "/data"
      (Except.ok (FsNode.dir "data" none
        [FsNode.file "ignore.txt" FileMode.regular,
         FsNode.dir "nested" none [FsNode.file "shard-000001.tar" FileMode.regular],
         FsNode.file "shard-000000.tar" FileMode.regular])) =
      Except.ok ["/data/nested/shard-000001.tar", "/data/shard-000000.tar"] := by rfl
  rw [h2] at h1
  exact (Except.ok.inj h1).symm

/-- C11 (counterexample): a directory that holds a symbolic link with the name
of a shard and no regular file; the link is returned. -/
theorem DiscoverShards_returns_symlink :
    DiscoverShards "/data"
        (Except.ok (FsNode.dir "data" none
          [FsNode.file "shard-000000.tar" FileMode.symlink])) =
      Except.ok ["/data/shard-000000.tar"] ∧
    ((entriesUnder "/data" (FsNode.dir "data" none
        [FsNode.file "shard-000000.tar" FileMode.symlink])).filter
      (fun pe => pe.2.IsRegular)).map Prod.fst = [] := by
  constructor
  · rfl
  · decide

/-- C12 (failing input): with the relative root `data`, the paths returned are
relative. -/
theorem DiscoverShards_relative_root :
    DiscoverShards "data"
        (Except.ok (FsNode.dir "data" none
          [FsNode.dir "nested" none [FsNode.file "shard-000001.tar" FileMode.regular],
           FsNode.file "shard-000000.tar" FileMode.regular])) =
      Except.ok ["data/nested/shard-000001.tar", "data/shard-000000.tar"] ∧
    filepath.IsAbs "data/nested/shard-000001.tar" = false ∧
    filepath.IsAbs "data/shard-000000.tar" = false := by
  refine ⟨by rfl, by decide, by decide⟩

/-- C14 (failing input): the image entry `a.JPG` is classified with the
extension `.jpg`, but its key is `a.JPG`, not `a`; the label entry `a.cls` has
the key `a`, so the two never pair and the shard ends with two incomplete
samples. -/
theorem entryKey_keeps_uppercase_extension :
    entryExt ⟨"a.JPG", false, "x", none⟩ = ".jpg" ∧
    entryKey ⟨"a.JPG", false, "x", none⟩ = "a.JPG" ∧
    entryKey ⟨"a.cls", false, "3", none⟩ = "a" ∧
    StreamShard none
        (Except.ok ⟨[⟨"a.JPG", false, "x", none⟩, ⟨"a.cls", false, "3", none⟩], none⟩) 4 =
      ⟨[], some (GoError.incomplete 2)⟩ := by
  refine ⟨by decide, by decide, by decide, by decide⟩

theorem streamStep_view (ctx : Option Context) (hctx : ∀ t, ctxDone ctx t = false)
    (cap : Int) (e : tarEntry) (st st1 : StreamState) (h : st.view = st1.view) :
    resultView (streamStep ctx cap st e) = resultView (streamStep ctx cap st1 e) := by
  obtain ⟨p, o, r, t⟩ := st
  obtain ⟨p1, o1, r1, t1⟩ := st1
  simp only [StreamState.view, Prod.mk.injEq] at h
  obtain ⟨rfl, rfl, rfl⟩ := h
  unfold streamStep
  simp only [hctx, Bool.false_eq_true, if_false]
  cases hdir : e.IsDir with
  | true => simp only [if_true, resultView, StreamState.view]
  | false =>
    simp only [Bool.false_eq_true, if_false]
    cases hs : storeEntry p e with
    | error err => simp only [resultView, StreamState.view]
    | ok res =>
      cases res with
      | none => simp only [resultView, StreamState.view]
      | some m1 =>
        simp only
        by_cases hover : (m1.length : Int) > cap
        · simp only [hover, if_true, resultView, StreamState.view]
        · simp only [hover, if_false]
          unfold emitReady
          simp only [hctx, Bool.false_eq_true, if_false]
          cases hg : PendingMap.get m1 (entryKey e) with
          | none => simp only [resultView, StreamState.view]
          | some part =>
            simp only
            cases hr : part.ready with
            | true => simp only [if_true, resultView, StreamState.view]
            | false => simp only [Bool.false_eq_true, if_false, resultView, StreamState.view]

theorem streamSteps_view (ctx : Option Context) (hctx : ∀ t, ctxDone ctx t = false)
    (cap : Int) : ∀ (es : List tarEntry) (st st1 : StreamState), st.view = st1.view →
    resultView (streamSteps ctx cap es st) = resultView (streamSteps ctx cap es st1)
  | [], st, st1, h => by simp only [streamSteps, resultView, h]
  | e :: rest, st, st1, h => by
      have hstep := streamStep_view ctx hctx cap e st st1 h
      unfold streamSteps
      cases h1 : streamStep ctx cap st e with
      | error a =>
        cases h2 : streamStep ctx cap st1 e with
        | error b => rw [h1, h2] at hstep; simpa [resultView] using hstep
        | ok b => rw [h1, h2] at hstep; simp [resultView] at hstep
      | ok a =>
        cases h2 : streamStep ctx cap st1 e with
        | error b => rw [h1, h2] at hstep; simp [resultView] at hstep
        | ok b =>
          rw [h1, h2] at hstep
          simp only [resultView, Except.ok.injEq] at hstep
          exact streamSteps_view ctx hctx cap rest a b hstep

theorem streamLoop_view (ctx : Option Context) (hctx : ∀ t, ctxDone ctx t = false)
    (cap : Int) (tail : Option GoError) (es : List tarEntry) (st st1 : StreamState)
    (h : st.view = st1.view) :
    resultView (streamLoop ctx cap tail es st) = resultView (streamLoop ctx cap tail es st1) := by
  have hsteps := streamSteps_view ctx hctx cap es st st1 h
  unfold streamLoop
  cases h1 : streamSteps ctx cap es st with
  | error a =>
    cases h2 : streamSteps ctx cap es st1 with
    | error b => rw [h1, h2] at hsteps; exact hsteps
    | ok b => rw [h1, h2] at hsteps; simp [resultView] at hsteps
  | ok a =>
    cases h2 : streamSteps ctx cap es st1 with
    | error b => rw [h1, h2] at hsteps; simp [resultView] at hsteps
    | ok b =>
      rw [h1, h2] at hsteps
      simp only [resultView, Except.ok.injEq, StreamState.view, Prod.mk.injEq] at hsteps
      obtain ⟨hp, ho, he⟩ := hsteps
      unfold streamEnd
      simp only [hctx, Bool.false_eq_true, if_false]
      cases tail with
      | none => simp only [resultView, StreamState.view, hp, ho, he]
      | some err => simp only [resultView, StreamState.view, hp, ho]

theorem StreamShard_of_view (ctx : Option Context) (a b : Archive) (pendingCap : Int)
    (h : resultView (streamLoop ctx (effectiveCap pendingCap) a.tail a.entries ⟨[], [], none, 0⟩) =
      resultView (streamLoop ctx (effectiveCap pendingCap) b.tail b.entries ⟨[], [], none, 0⟩)) :
    StreamShard ctx (Except.ok a) pendingCap = StreamShard ctx (Except.ok b) pendingCap := by
  unfold StreamShard
  simp only
  cases h1 : streamLoop ctx (effectiveCap pendingCap) a.tail a.entries ⟨[], [], none, 0⟩ with
  | error x =>
    cases h2 : streamLoop ctx (effectiveCap pendingCap) b.tail b.entries ⟨[], [], none, 0⟩ with
    | error y =>
      rw [h1, h2] at h
      simp only [resultView, StreamState.view, Except.error.injEq, Prod.mk.injEq] at h
      simp only [h.2.1, h.2.2]
    | ok y => rw [h1, h2] at h; simp [resultView] at h
  | ok x =>
    cases h2 : streamLoop ctx (effectiveCap pendingCap) b.tail b.entries ⟨[], [], none, 0⟩ with
    | error y => rw [h1, h2] at h; simp [resultView] at h
    | ok y =>
      rw [h1, h2] at h
      simp only [resultView, StreamState.view, Except.ok.injEq, Prod.mk.injEq] at h
      simp only [h.1, h.2.1]

theorem streamStep_other (ctx : Option Context) (hctx : ∀ t, ctxDone ctx t = false)
    (cap : Int) (e : tarEntry) (hdir : e.IsDir = false) (himg : isImageEntry e = false)
    (hlab : isLabelEntry e = false) (st : StreamState) :
    streamStep ctx cap st e = Except.ok { st with tick := st.tick + 1 } := by
  have hstore : storeEntry st.pending e = Except.ok none := by
    unfold isImageEntry at himg
    unfold isLabelEntry at hlab
    simp only [decide_eq_false_iff_not] at himg hlab
    unfold storeEntry
    rw [if_neg himg, if_neg hlab]
  unfold streamStep
  simp only [hctx, hdir, hstore, Bool.false_eq_true, if_false]

/-- C16: without cancellation, an entry that is not a directory and whose
lowercased extension is none of `.jpg`, `.jpeg`, `.png`, `.cls`, put at any
place of the archive, changes neither the samples `StreamShard` emits nor its
terminal status; the iteration that meets it leaves the pending map as it is
and goes on to the next entry. -/
theorem StreamShard_ignores_other_entries (ctx : Option Context)
    (hctx : ∀ t, ctxDone ctx t = false) (pre post : List tarEntry) (e : tarEntry)
    (tail : Option GoError) (pendingCap : Int)
    (hdir : e.IsDir = false) (himg : isImageEntry e = false) (hlab : isLabelEntry e = false) :
    StreamShard ctx (Except.ok ⟨pre ++ e :: post, tail⟩) pendingCap =
        StreamShard ctx (Except.ok ⟨pre ++ post, tail⟩) pendingCap ∧
    ∀ st : StreamState, ∃ st1, streamStep ctx (effectiveCap pendingCap) st e = Except.ok st1 ∧
      st1.pending = st.pending ∧ st1.out = st.out ∧ st1.errCh = st.errCh := by
  constructor
  · apply StreamShard_of_view
    simp only
    unfold streamLoop
    rw [streamSteps_append, streamSteps_append]
    cases hpre : streamSteps ctx (effectiveCap pendingCap) pre ⟨[], [], none, 0⟩ with
    | error x => rfl
    | ok x =>
      simp only
      have hstep := streamStep_other ctx hctx (effectiveCap pendingCap) e hdir himg hlab x
      have hview := streamLoop_view ctx hctx (effectiveCap pendingCap) tail post
        { x with tick := x.tick + 1 } x rfl
      unfold streamLoop at hview
      simp only [streamSteps, hstep]
      exact hview
  · intro st
    exact ⟨_, streamStep_other ctx hctx (effectiveCap pendingCap) e hdir himg hlab st,
      rfl, rfl, rfl⟩

theorem StreamShard_ignores_other_entries_witness :
    StreamShard (some Context.background)
        (Except.ok ⟨[⟨"a.jpg", false, "x", none⟩] ++ ⟨"a.txt", false, "note", none⟩ ::
          [⟨"a.cls", false, "3", none⟩], none⟩) 1 =
      StreamShard (some Context.background)
        (Except.ok ⟨[⟨"a.jpg", false, "x", none⟩] ++ [⟨"a.cls", false, "3", none⟩], none⟩) 1 ∧
    ∀ st : StreamState, ∃ st1,
      streamStep (some Context.background) (effectiveCap 1) st ⟨"a.txt", false, "note", none⟩ =
        Except.ok st1 ∧
      st1.pending = st.pending ∧ st1.out = st.out ∧ st1.errCh = st.errCh :=
  StreamShard_ignores_other_entries (some Context.background) (fun _ => rfl)
    [⟨"a.jpg", false, "x", none⟩] [⟨"a.cls", false, "3", none⟩] ⟨"a.txt", false, "note", none⟩
    none 1 (by decide) (by decide) (by decide)

theorem foldl_decimal (ds : List Char) : ∀ (a : Nat),
    ds.foldl (fun acc d => acc * 10 + (d.toNat - '0'.toNat)) a =
      a * 10 ^ ds.length + decimalValue ds := by
  induction ds with
  | nil => intro a; simp [decimalValue]
  | cons d t ih =>
    intro a
    rw [List.foldl_cons, ih]
    unfold decimalValue
    simp only [List.reverse_cons, List.map_append, List.map_cons, List.map_nil,
      Nat.ofDigits_append, Nat.ofDigits_singleton, List.length_map, List.length_reverse,
      List.length_cons]
    ring

theorem not_space_of_digit (c : Char) (h0 : '0' ≤ c) (h9 : c ≤ '9') :
    unicode.IsSpace c = false := by
  have h1 : 48 ≤ c.toNat := h0
  have h2 : c.toNat ≤ 57 := h9
  have hne : ∀ d : Char, d.toNat < 48 → c ≠ d := by
    intro d hd he
    rw [he] at h1
    omega
  unfold unicode.IsSpace
  simp only [Bool.or_eq_false_iff, decide_eq_false_iff_not, Bool.and_eq_false_iff]
  refine ⟨⟨⟨⟨⟨⟨⟨⟨⟨⟨⟨⟨⟨⟨?_, ?_⟩, ?_⟩, ?_⟩, ?_⟩, ?_⟩, ?_⟩, ?_⟩, ?_⟩, ?_⟩, ?_⟩, ?_⟩, ?_⟩, ?_⟩, ?_⟩
  all_goals first
    | exact hne _ (by decide)
    | omega

theorem dropWhile_append_of_all {α : Type} (p : α → Bool) : ∀ (ws core : List α),
    (∀ c ∈ ws, p c = true) → (∀ c, core.head? = some c → p c = false) →
    (ws ++ core).dropWhile p = core
  | [], core, _, h => by
      cases core with
      | nil => rfl
      | cons c t => simp [List.dropWhile_cons, h c rfl]
  | w :: ws, core, hw, h => by
      simp only [List.cons_append, List.dropWhile_cons, hw w (List.mem_cons_self _ _), if_true]
      exact dropWhile_append_of_all p ws core
        (fun c hc => hw c (List.mem_cons_of_mem _ hc)) h

theorem TrimSpace_of_core (ws1 core ws2 : List Char) (hne : core ≠ [])
    (h1 : ∀ c ∈ ws1, unicode.IsSpace c = true) (h2 : ∀ c ∈ ws2, unicode.IsSpace c = true)
    (hfirst : ∀ c, core.head? = some c → unicode.IsSpace c = false)
    (hlast : ∀ c, core.getLast? = some c → unicode.IsSpace c = false) :
    strings.TrimSpace (String.mk (ws1 ++ core ++ ws2)) = String.mk core := by
  unfold strings.TrimSpace
  congr 1
  have e1 : (String.mk (ws1 ++ core ++ ws2)).toList = ws1 ++ (core ++ ws2) := by
    simp [String.toList]
  rw [e1, dropWhile_append_of_all unicode.IsSpace ws1 (core ++ ws2) h1]
  · rw [List.reverse_append,
      dropWhile_append_of_all unicode.IsSpace ws2.reverse core.reverse
        (fun c hc => h2 c (List.mem_reverse.mp hc))
        (fun c hc => hlast c (by simpa [List.head?_reverse] using hc))]
    exact List.reverse_reverse core
  · intro c hc
    cases core with
    | nil => exact absurd rfl hne
    | cons d t =>
      simp only [List.cons_append, List.head?_cons, Option.some.injEq] at hc
      subst hc
      exact hfirst _ rfl

theorem Atoi_eval (s : String) (c : Char) (cs digits : List Char) (v : Int)
    (hs : s.toList = c :: cs)
    (hd : digits = if c = '-' ∨ c = '+' then cs else c :: cs)
    (hv : v = if c = '-' then -(decimalValue digits : Int) else (decimalValue digits : Int)) :
    strconv.Atoi s =
      if digits ≠ [] ∧ (∀ d ∈ digits, '0' ≤ d ∧ d ≤ '9') ∧ -(2 ^ 63) ≤ v ∧ v < 2 ^ 63
      then some v else none := by
  have hval : digits.foldl (fun acc d => acc * 10 + (d.toNat - '0'.toNat)) 0 =
      decimalValue digits := by
    rw [foldl_decimal]
    simp
  have hall : digits.all (fun d => decide ('0' ≤ d) && decide (d ≤ '9')) = true ↔
      ∀ c ∈ digits, '0' ≤ c ∧ c ≤ '9' := by
    simp [List.all_eq_true]
  unfold strconv.Atoi
  rw [hs]
  simp only
  rw [← hd, hval, ← hv]
  by_cases h1 : digits = []
  · simp [h1]
  · by_cases h2 : ∀ d ∈ digits, '0' ≤ d ∧ d ≤ '9'
    · rw [if_neg h1, if_pos (hall.mpr h2)]
      by_cases h3 : -(2 ^ 63) ≤ v ∧ v < 2 ^ 63
      · rw [if_pos h3, if_pos ⟨h1, h2, h3⟩]
      · rw [if_neg h3, if_neg (fun h => h3 h.2.2)]
    · rw [if_neg h1, if_neg (fun h => h2 (hall.mp h)), if_neg (fun h => h2 h.2.1)]

theorem Atoi_iff (s : String) (v : Int) :
    strconv.Atoi s = some v ↔
      ∃ sign digits : List Char, s.toList = sign ++ digits ∧
        (sign = [] ∨ sign = ['+'] ∨ sign = ['-']) ∧
        digits ≠ [] ∧ (∀ c ∈ digits, '0' ≤ c ∧ c ≤ '9') ∧
        v = (if sign = ['-'] then -(decimalValue digits : Int) else (decimalValue digits : Int)) ∧
        -(2 ^ 63) ≤ v ∧ v < 2 ^ 63 := by
  cases hs : s.toList with
  | nil =>
    have : strconv.Atoi s = none := by
      unfold strconv.Atoi; rw [hs]
    rw [this]
    constructor
    · intro h; cases h
    · rintro ⟨sign, digits, h1, _, h3, _⟩
      exact absurd (List.append_eq_nil.mp h1.symm).2 h3
  | cons c cs =>
    by_cases hc : c = '-' ∨ c = '+'
    · have hsg : (if [c] = ['-'] then -(decimalValue cs : Int) else (decimalValue cs : Int)) =
          (if c = '-' then -(decimalValue cs : Int) else (decimalValue cs : Int)) := by
        by_cases hm : c = '-'
        · simp [hm]
        · simp [hm]
      rw [Atoi_eval s c cs cs _ hs (by rw [if_pos hc]) rfl, ← hsg]
      constructor
      · intro h
        by_cases h1 : cs ≠ [] ∧ (∀ d ∈ cs, '0' ≤ d ∧ d ≤ '9') ∧
            -(2 ^ 63) ≤ (if [c] = ['-'] then -(decimalValue cs : Int) else (decimalValue cs : Int)) ∧
            (if [c] = ['-'] then -(decimalValue cs : Int) else (decimalValue cs : Int)) < 2 ^ 63
        · rw [if_pos h1] at h
          have hv := (Option.some.inj h)
          refine ⟨[c], cs, rfl, ?_, h1.1, h1.2.1, hv.symm, ?_, ?_⟩
          · rcases hc with rfl | rfl
            · right; right; rfl
            · right; left; rfl
          · rw [← hv]; exact h1.2.2.1
          · rw [← hv]; exact h1.2.2.2
        · rw [if_neg h1] at h; cases h
      · rintro ⟨sign, digits, h1, h2, h3, h4, h5, h6, h7⟩
        have hsign : sign = [c] ∧ digits = cs := by
          rcases h2 with rfl | rfl | rfl
          · simp only [List.nil_append] at h1
            subst h1
            have := (h4 c (List.mem_cons_self _ _)).1
            rcases hc with rfl | rfl
            · exact absurd this (by decide)
            · exact absurd this (by decide)
          · simp only [List.singleton_append, List.cons.injEq] at h1
            exact ⟨by rw [h1.1], h1.2.symm⟩
          · simp only [List.singleton_append, List.cons.injEq] at h1
            exact ⟨by rw [h1.1], h1.2.symm⟩
        obtain ⟨rfl, rfl⟩ := hsign
        rw [← h5, if_pos ⟨h3, h4, h6, h7⟩]
    · have hc1 : c ≠ '-' := fun h => hc (Or.inl h)
      have hc2 : c ≠ '+' := fun h => hc (Or.inr h)
      rw [Atoi_eval s c cs (c :: cs) _ hs (by rw [if_neg hc]) rfl, if_neg hc1]
      constructor
      · intro h
        by_cases h1 : c :: cs ≠ [] ∧ (∀ d ∈ c :: cs, '0' ≤ d ∧ d ≤ '9') ∧
            -(2 ^ 63) ≤ (decimalValue (c :: cs) : Int) ∧ (decimalValue (c :: cs) : Int) < 2 ^ 63
        · rw [if_pos h1] at h
          have hv := (Option.some.inj h)
          refine ⟨[], c :: cs, rfl, Or.inl rfl, h1.1, h1.2.1, ?_, ?_, ?_⟩
          · rw [if_neg (by simp)]
            exact hv.symm
          · rw [← hv]; exact h1.2.2.1
          · rw [← hv]; exact h1.2.2.2
        · rw [if_neg h1] at h; cases h
      · rintro ⟨sign, digits, h1, h2, h3, h4, h5, h6, h7⟩
        have hsign : sign = [] ∧ digits = c :: cs := by
          rcases h2 with rfl | rfl | rfl
          · exact ⟨rfl, h1.symm⟩
          · simp only [List.singleton_append, List.cons.injEq] at h1
            exact absurd h1.1 hc2
          · simp only [List.singleton_append, List.cons.injEq] at h1
            exact absurd h1.1 hc1
        obtain ⟨rfl, rfl⟩ := hsign
        have hv : v = (decimalValue (c :: cs) : Int) := by
          rw [h5, if_neg (by simp)]
        rw [← hv, if_pos ⟨h3, h4, h6, h7⟩]

theorem parseLabel_iff (payload : String) (v : Int) :
    parseLabel payload = some v ↔ DecimalLabel payload.toList v := by
  unfold parseLabel DecimalLabel
  constructor
  · intro h
    obtain ⟨sign, digits, h1, h2, h3, h4, h5, h6, h7⟩ := (Atoi_iff _ v).mp h
    refine ⟨payload.toList.takeWhile unicode.IsSpace, sign, digits,
      (((payload.toList.dropWhile unicode.IsSpace).reverse).takeWhile unicode.IsSpace).reverse,
      ?_, ?_, ?_, h2, h3, h4, h5, h6, h7⟩
    · have e1 : (strings.TrimSpace payload).toList =
          (((payload.toList.dropWhile unicode.IsSpace).reverse).dropWhile
            unicode.IsSpace).reverse := rfl
      rw [List.append_assoc, List.append_assoc, ← List.append_assoc sign, ← h1, e1,
        ← List.reverse_append, List.takeWhile_append_dropWhile, List.reverse_reverse,
        List.takeWhile_append_dropWhile]
    · intro c hc
      exact (List.mem_takeWhile_imp hc)
    · intro c hc
      exact (List.mem_takeWhile_imp (List.mem_reverse.mp hc))
  · rintro ⟨ws1, sign, digits, ws2, h1, hw1, hw2, h2, h3, h4, h5, h6, h7⟩
    have hp : payload = String.mk (ws1 ++ (sign ++ digits) ++ ws2) := by
      cases payload with
      | mk data =>
        simp only [String.toList] at h1
        rw [h1]
        simp [List.append_assoc]
    have hplus : unicode.IsSpace '+' = false := by decide
    have hminus : unicode.IsSpace '-' = false := by decide
    have hcore : sign ++ digits ≠ [] := by
      intro h
      exact h3 (List.append_eq_nil.mp h).2
    obtain ⟨d, t, hd⟩ := List.exists_cons_of_ne_nil h3
    have hfirst : ∀ c, (sign ++ digits).head? = some c → unicode.IsSpace c = false := by
      intro c hc
      rcases h2 with rfl | rfl | rfl
      · rw [hd] at hc
        simp only [List.nil_append, List.head?_cons, Option.some.injEq] at hc
        subst hc
        have := h4 d (by rw [hd]; exact List.mem_cons_self _ _)
        exact not_space_of_digit d this.1 this.2
      · simp only [List.singleton_append, List.head?_cons, Option.some.injEq] at hc
        rw [← hc]; exact hplus
      · simp only [List.singleton_append, List.head?_cons, Option.some.injEq] at hc
        rw [← hc]; exact hminus
    have hlast : ∀ c, (sign ++ digits).getLast? = some c → unicode.IsSpace c = false := by
      intro c hc
      rw [List.getLast?_append_of_ne_nil _ h3] at hc
      have hm : c ∈ digits := List.mem_of_getLast?_eq_some hc
      have := h4 c hm
      exact not_space_of_digit c this.1 this.2
    rw [hp, TrimSpace_of_core ws1 (sign ++ digits) ws2 hcore hw1 hw2 hfirst hlast]
    exact (Atoi_iff _ v).mpr ⟨sign, digits, rfl, h2, h3, h4, h5, h6, h7⟩

/-- C15 (amended): for a `.cls` entry that `StreamShard` reaches and reads,
the label parsed is `v` exactly when the payload is white space (Unicode, as
`strings.TrimSpace` takes it), an optional sign `+` or `-`, decimal digits and
white space, and `v` is the signed value of the digits within the range of
`int`; that label is then recorded under the key of the entry; and when the
payload is not of that form, the terminal status is the label-parse error and
the samples emitted are those emitted before the entry. -/
theorem StreamShard_label_entry (ctx : Option Context) (archive : Archive)
    (pendingCap : Int) (pre post : List tarEntry) (e : tarEntry) (st : StreamState)
    (hsplit : archive.entries = pre ++ e :: post)
    (hpre : streamSteps ctx (effectiveCap pendingCap) pre ⟨[], [], none, 0⟩ = Except.ok st)
    (hread : ctxDone ctx st.tick = false) (hdir : e.IsDir = false)
    (hlab : isLabelEntry e = true) (hrd : e.readErr = none) :
    (∀ v : Int, parseLabel e.payload = some v ↔ DecimalLabel e.payload.toList v) ∧
    (∀ v : Int, DecimalLabel e.payload.toList v →
      ∃ m1 part, storeEntry st.pending e = Except.ok (some m1) ∧
        m1.get (entryKey e) = some part ∧ part.label = some v) ∧
    ((∀ v : Int, ¬ DecimalLabel e.payload.toList v) →
      StreamShard ctx (Except.ok archive) pendingCap =
        ⟨st.out, some (GoError.wrapf ("parse label " ++ entryName e)
          (GoError.plain "strconv.Atoi"))⟩) := by
  refine ⟨parseLabel_iff e.payload, ?_, ?_⟩
  · intro v hv
    have hp := (parseLabel_iff e.payload v).mpr hv
    exact ⟨_, _, storeEntry_label st.pending e hlab hrd v hp,
      PendingMap.get_set_self _ _ _, rfl⟩
  · intro hnone
    have hp : parseLabel e.payload = none := by
      cases h : parseLabel e.payload with
      | none => rfl
      | some v => exact absurd ((parseLabel_iff e.payload v).mp h) (hnone v)
    have hi : ¬ (entryExt e = ".jpg" ∨ entryExt e = ".jpeg" ∨ entryExt e = ".png") := by
      intro hc
      have := isLabelEntry_of_image e (by simpa [isImageEntry] using hc)
      rw [hlab] at this
      cases this
    have hl : entryExt e = ".cls" := by simpa [isLabelEntry] using hlab
    have hstore : storeEntry st.pending e =
        Except.error (GoError.wrapf ("parse label " ++ entryName e)
          (GoError.plain "strconv.Atoi")) := by
      unfold storeEntry
      rw [if_neg hi, if_pos hl, hrd]
      simp only [hp]
    have hstep : streamStep ctx (effectiveCap pendingCap) st e =
        Except.error { st with
          errCh := some (GoError.wrapf ("parse label " ++ entryName e)
            (GoError.plain "strconv.Atoi")),
          tick := st.tick + 1 } := by
      unfold streamStep
      rw [hread, hdir, hstore]
      simp only [Bool.false_eq_true, if_false]
    unfold StreamShard streamLoop
    simp only [hsplit]
    rw [streamSteps_append, hpre]
    simp only [streamSteps, hstep]

theorem StreamShard_label_entry_witness :
    (∀ v : Int, parseLabel " -12\n" = some v ↔ DecimalLabel " -12\n".toList v) ∧
    (∀ v : Int, DecimalLabel " -12\n".toList v →
      ∃ m1 part,
        storeEntry [("a", ⟨"x", none⟩)] ⟨"a.cls", false, " -12\n", none⟩ =
          Except.ok (some m1) ∧
        m1.get (entryKey ⟨"a.cls", false, " -12\n", none⟩) = some part ∧
        part.label = some v) ∧
    ((∀ v : Int, ¬ DecimalLabel " -12\n".toList v) →
      StreamShard none
          (Except.ok ⟨[⟨"a.jpg", false, "x", none⟩, ⟨"a.cls", false, " -12\n", none⟩], none⟩)
          4 =
        ⟨[], some (GoError.wrapf ("parse label " ++ entryName ⟨"a.cls", false, " -12\n", none⟩)
          (GoError.plain "strconv.Atoi"))⟩) :=
  StreamShard_label_entry none
    ⟨[⟨"a.jpg", false, "x", none⟩, ⟨"a.cls", false, " -12\n", none⟩], none⟩ 4
    [⟨"a.jpg", false, "x", none⟩] [] ⟨"a.cls", false, " -12\n", none⟩
    ⟨[("a", ⟨"x", none⟩)], [], none, 1⟩ rfl (by rfl) rfl rfl (by decide) rfl

/-- C15 (counterexample): the payload is a no-break space (U+00A0) and `5`.
With the ASCII white space trimmed it is not a decimal integer, yet
`StreamShard` records the label 5 and emits the sample; and the payload `+5`
gives the label 5 too. -/
theorem StreamShard_label_not_ascii_trimmed :
    strconv.Atoi (trimASCII "\u00a05") = none ∧
    StreamShard none
        (Except.ok ⟨[⟨"a.jpg", false, "x", none⟩, ⟨"a.cls", false, "\u00a05", none⟩], none⟩)
        4 = ⟨[⟨"a", "x", 5⟩], none⟩ ∧
    StreamShard none
        (Except.ok ⟨[⟨"a.jpg", false, "x", none⟩, ⟨"a.cls", false, "+5", none⟩], none⟩)
        4 = ⟨[⟨"a", "x", 5⟩], none⟩ := by
  refine ⟨by decide, by decide, by decide⟩

end dataset

namespace metrics

/-! ## Theorems on the metrics window -/

theorem Snapshot_keeps_lastLoss {F : Type} (ops : FloatOps F) (w : Window F) :
    (w.Snapshot ops).2 = ⟨0, 0, 0, 0, w.lastLoss⟩ ∧
    ((w.Snapshot ops).2.Snapshot ops).1 = ⟨ops.zero, ops.zero, ops.zero, w.lastLoss⟩ := by
  constructor
  · rfl
  · simp [Window.Snapshot, dataset.wrapInt64]

/-- C13 (failing input): one `Record` with the loss 1/2, then `Snapshot`: the
window keeps `lastLoss`, so it is not the zero window, and the next `Snapshot`
returns the loss 1/2. -/
theorem Snapshot_does_not_reset_lastLoss :
    (((Window.zero ratOps).Record 64 20000000 10000000 (1 / 2)).Snapshot ratOps).2.lastLoss
        = 1 / 2 ∧
    (((Window.zero ratOps).Record 64 20000000 10000000 (1 / 2)).Snapshot ratOps).2.lastLoss
        ≠ (Window.zero ratOps).lastLoss ∧
    ((((Window.zero ratOps).Record 64 20000000 10000000 (1 / 2)).Snapshot
        ratOps).2.Snapshot ratOps).1.LastLoss = 1 / 2 := by
  have h := Snapshot_keeps_lastLoss ratOps ((Window.zero ratOps).Record 64 20000000 10000000 (1 / 2))
  refine ⟨?_, ?_, ?_⟩
  · rw [h.1]; rfl
  · rw [h.1]; simp [Window.zero, Window.Record, ratOps]
  · rw [h.2]; rfl

end metrics
